import Mathlib

/-!
Verification development for the Spec Bridge of the github-topic-miner
repository: a shallow embedding in Lean 4 of the deterministic
normalize/validate/gate pipeline (scripts/bridge/normalize.ts,
scripts/bridge/runBridge.ts, the evidence gate, the quality gate and the
citation patch operations), together with theorems settling the frozen
claims about it.

Modelling conventions, used throughout:
- JavaScript strings are Lean `String`s; `String.prototype.trim` and
  `toLowerCase` are modelled by list-of-character functions `jsTrim` and
  `jsLower` over the ASCII whitespace/letter ranges.
- `a.localeCompare(b)` used as a sort comparator is modelled by the
  lexicographic order on `String`; `Array.prototype.sort` (stable) is
  modelled by `List.mergeSort`.
- JavaScript objects used as dictionaries are association lists
  `List (String × _)` in insertion order; `[...new Set(xs)]` is
  `dedupFirst` (keep first occurrences).
- `JSON.parse` and the zod schema validators are external libraries; where
  the control flow depends on them they are boolean-valued oracles.
- JavaScript numbers occurring in wire documents are modelled by their
  integer part together with an integrality flag, which is the only
  information the normalizer inspects (`Number.isInteger`).
-/

namespace TopicMiner

/-! ## JavaScript string and list primitives -/

/-- Model of the character-level whitespace test used by `trim`. -/
def jsWs (c : Char) : Bool := c.isWhitespace

/-- Model of `String.prototype.trim` on the character list: drop leading and
trailing whitespace. -/
def trimChars (l : List Char) : List Char :=
  ((l.dropWhile jsWs).reverse.dropWhile jsWs).reverse

/-- Model of `String.prototype.trim`. -/
def jsTrim (s : String) : String := ⟨trimChars s.data⟩

/-- Model of `String.prototype.toLowerCase` (ASCII range). -/
def jsLower (s : String) : String := ⟨s.data.map Char.toLower⟩

/-- Keep the first occurrence of each element, dropping later duplicates:
model of `[...new Set(xs)]`. -/
def dedupFirstAux (seen : List String) : List String → List String
  | [] => []
  | x :: xs =>
    if x ∈ seen then dedupFirstAux seen xs
    else x :: dedupFirstAux (x :: seen) xs

/-- Model of `[...new Set(xs)]`. -/
def dedupFirst (xs : List String) : List String := dedupFirstAux [] xs

/-- Lexicographic code-point comparison of character lists. -/
def lexLe : List Char → List Char → Bool
  | [], _ => true
  | _ :: _, [] => false
  | a :: as, b :: bs =>
    if a.toNat < b.toNat then true
    else if b.toNat < a.toNat then false
    else lexLe as bs

/-- Boolean comparator modelling `(a, b) => a.localeCompare(b)` as the
code-point lexicographic order on strings. -/
def strLe (a b : String) : Bool := lexLe a.data b.data

/-- Stable insertion into a sorted list, the building block of the model
of the stable `Array.prototype.sort`. -/
def insertByKey {α : Type} (le : α → α → Bool) (x : α) : List α → List α
  | [] => [x]
  | y :: ys => if le x y then x :: y :: ys else y :: insertByKey le x ys

/-- Stable sort by a boolean comparator: model of the stable
`Array.prototype.sort(cmp)` (stable sorts agree for a total transitive
comparator, so insertion sort is a faithful model). -/
def sortByB {α : Type} (le : α → α → Bool) : List α → List α
  | [] => []
  | x :: xs => insertByKey le x (sortByB le xs)

/-- Model of `xs.sort((a, b) => a.localeCompare(b))` on a string array. -/
def sortStr (l : List String) : List String := sortByB strLe l

theorem lexLe_trans : ∀ as bs cs : List Char,
    lexLe as bs → lexLe bs cs → lexLe as cs := by
  intro as
  induction as with
  | nil => intro bs cs _ _; exact rfl
  | cons a as ih =>
    intro bs cs hab hbc
    cases bs with
    | nil => exact absurd hab (by simp [lexLe])
    | cons b bs =>
      cases cs with
      | nil => exact absurd hbc (by simp [lexLe])
      | cons c cs =>
        simp only [lexLe] at hab hbc ⊢
        split at hab
        · rename_i h1
          split at hbc
          · rename_i h2
            rw [if_pos (by omega)]
          · split at hbc
            · exact absurd hbc (by simp)
            · rename_i h2 h3
              rw [if_pos (by omega)]
        · split at hab
          · exact absurd hab (by simp)
          · rename_i h1 h2
            split at hbc
            · rename_i h3
              rw [if_pos (by omega)]
            · split at hbc
              · exact absurd hbc (by simp)
              · rename_i h3 h4
                rw [if_neg (by omega), if_neg (by omega)]
                exact ih bs cs hab hbc

theorem lexLe_total : ∀ as bs : List Char, lexLe as bs || lexLe bs as := by
  intro as
  induction as with
  | nil => intro bs; simp [lexLe]
  | cons a as ih =>
    intro bs
    cases bs with
    | nil => simp [lexLe]
    | cons b bs =>
      rcases Nat.lt_trichotomy a.toNat b.toNat with h | h | h
      · have hl : lexLe (a :: as) (b :: bs) = true := by
          simp only [lexLe]
          rw [if_pos h]
        simp [hl]
      · have h1 : lexLe (a :: as) (b :: bs) = lexLe as bs := by
          simp only [lexLe]
          rw [if_neg (by omega), if_neg (by omega)]
        have h2 : lexLe (b :: bs) (a :: as) = lexLe bs as := by
          simp only [lexLe]
          rw [if_neg (by omega), if_neg (by omega)]
        rw [h1, h2]
        exact ih bs
      · have hr : lexLe (b :: bs) (a :: as) = true := by
          simp only [lexLe]
          rw [if_pos h]
        simp [hr]

theorem strLe_trans : ∀ a b c : String, strLe a b → strLe b c → strLe a c := by
  intro a b c hab hbc
  exact lexLe_trans a.data b.data c.data hab hbc

theorem strLe_total : ∀ a b : String, strLe a b || strLe b a := by
  intro a b
  exact lexLe_total a.data b.data

theorem insertByKey_perm {α : Type} (le : α → α → Bool) (x : α) (l : List α) :
    (insertByKey le x l).Perm (x :: l) := by
  induction l with
  | nil => rfl
  | cons y ys ih =>
    simp only [insertByKey]
    split
    · rfl
    · exact (List.Perm.cons y ih).trans (List.Perm.swap x y ys)

theorem sortByB_perm {α : Type} (le : α → α → Bool) (l : List α) :
    (sortByB le l).Perm l := by
  induction l with
  | nil => rfl
  | cons x xs ih =>
    exact (insertByKey_perm le x _).trans (List.Perm.cons x ih)

theorem mem_sortByB {α : Type} {le : α → α → Bool} {x : α} {l : List α} :
    x ∈ sortByB le l ↔ x ∈ l :=
  (sortByB_perm le l).mem_iff

theorem insertByKey_sorted {α : Type} {le : α → α → Bool}
    (htr : ∀ a b c, le a b → le b c → le a c)
    (htot : ∀ a b, le a b || le b a) (x : α) {l : List α}
    (hs : l.Pairwise (le · ·)) : (insertByKey le x l).Pairwise (le · ·) := by
  induction l with
  | nil => simp [insertByKey]
  | cons y ys ih =>
    obtain ⟨hy, hys⟩ := List.pairwise_cons.mp hs
    simp only [insertByKey]
    split
    · rename_i hxy
      refine List.pairwise_cons.mpr ⟨?_, hs⟩
      intro z hz
      rcases List.mem_cons.mp hz with rfl | hz
      · exact hxy
      · exact htr x y z hxy (hy z hz)
    · rename_i hxy
      refine List.pairwise_cons.mpr ⟨?_, ih hys⟩
      intro z hz
      have hz2 := (insertByKey_perm le x ys).mem_iff.mp hz
      rcases List.mem_cons.mp hz2 with rfl | hz2
      · have := htot z y
        rcases hlt : le z y with _ | _
        · rw [hlt] at this
          simpa using this
        · exact absurd hlt (by simpa using hxy)
      · exact hy z hz2

theorem sortByB_sorted {α : Type} {le : α → α → Bool}
    (htr : ∀ a b c, le a b → le b c → le a c)
    (htot : ∀ a b, le a b || le b a) (l : List α) :
    (sortByB le l).Pairwise (le · ·) := by
  induction l with
  | nil => simp [sortByB]
  | cons x xs ih => exact insertByKey_sorted htr htot x ih

theorem insertByKey_of_le_head {α : Type} (le : α → α → Bool) (x : α) {l : List α}
    (h : ∀ z ∈ l, le x z) : insertByKey le x l = x :: l := by
  cases l with
  | nil => rfl
  | cons y ys =>
    simp only [insertByKey]
    rw [if_pos (h y (List.mem_cons_self y ys))]

theorem sortByB_of_sorted {α : Type} {le : α → α → Bool} {l : List α}
    (hs : l.Pairwise (le · ·)) : sortByB le l = l := by
  induction l with
  | nil => rfl
  | cons x xs ih =>
    obtain ⟨hx, hxs⟩ := List.pairwise_cons.mp hs
    show insertByKey le x (sortByB le xs) = x :: xs
    rw [ih hxs]
    exact insertByKey_of_le_head le x hx

theorem sortStr_sorted (l : List String) : (sortStr l).Pairwise (strLe · ·) :=
  sortByB_sorted strLe_trans strLe_total l

theorem sortStr_of_sorted {l : List String} (h : l.Pairwise (strLe · ·)) :
    sortStr l = l :=
  sortByB_of_sorted h

theorem mem_sortStr {a : String} {l : List String} : a ∈ sortStr l ↔ a ∈ l :=
  mem_sortByB

theorem dedupFirstAux_sub {seen : List String} {xs : List String} :
    ∀ a ∈ dedupFirstAux seen xs, a ∈ xs := by
  induction xs generalizing seen with
  | nil => simp [dedupFirstAux]
  | cons x xs ih =>
    intro a ha
    simp only [dedupFirstAux] at ha
    split at ha
    · exact List.mem_cons_of_mem _ (ih a ha)
    · rcases List.mem_cons.mp ha with h | h
      · simp [h]
      · exact List.mem_cons_of_mem _ (ih a h)

theorem dedupFirstAux_not_mem_seen {seen : List String} {xs : List String} :
    ∀ a ∈ dedupFirstAux seen xs, a ∉ seen := by
  induction xs generalizing seen with
  | nil => simp [dedupFirstAux]
  | cons x xs ih =>
    intro a ha
    simp only [dedupFirstAux] at ha
    split at ha
    · exact ih a ha
    · rcases List.mem_cons.mp ha with h | h
      · subst h; assumption
      · intro hs
        exact ih a h (List.mem_cons_of_mem _ hs)

theorem dedupFirstAux_nodup (seen : List String) (xs : List String) :
    (dedupFirstAux seen xs).Nodup := by
  induction xs generalizing seen with
  | nil => simp [dedupFirstAux]
  | cons x xs ih =>
    simp only [dedupFirstAux]
    split
    · exact ih seen
    · refine List.nodup_cons.mpr ⟨?_, ih (x :: seen)⟩
      intro hmem
      exact dedupFirstAux_not_mem_seen _ hmem (List.mem_cons_self x seen)

theorem dedupFirst_nodup (xs : List String) : (dedupFirst xs).Nodup :=
  dedupFirstAux_nodup [] xs

theorem mem_dedupFirstAux {seen : List String} {xs : List String} {a : String}
    (hns : a ∉ seen) (hmem : a ∈ xs) : a ∈ dedupFirstAux seen xs := by
  induction xs generalizing seen with
  | nil => exact absurd hmem (List.not_mem_nil a)
  | cons x xs ih =>
    simp only [dedupFirstAux]
    rcases List.mem_cons.mp hmem with rfl | h
    · rw [if_neg hns]
      exact List.mem_cons_self a _
    · split
      · exact ih hns h
      · by_cases hax : a = x
        · subst hax; exact List.mem_cons_self a _
        · refine List.mem_cons_of_mem _ (ih ?_ h)
          rw [List.mem_cons]
          rintro (rfl | hc)
          · exact hax rfl
          · exact hns hc

theorem mem_dedupFirst {xs : List String} {a : String} :
    a ∈ dedupFirst xs ↔ a ∈ xs :=
  ⟨dedupFirstAux_sub a, mem_dedupFirstAux (List.not_mem_nil a)⟩

theorem dedupFirstAux_of_nodup {xs : List String} :
    ∀ {seen : List String}, xs.Nodup → (∀ a ∈ xs, a ∉ seen) →
      dedupFirstAux seen xs = xs := by
  induction xs with
  | nil => intro seen _ _; rfl
  | cons x xs ih =>
    intro seen hnd hdisj
    have hx : x ∉ seen := hdisj x (List.mem_cons_self x xs)
    simp only [dedupFirstAux, if_neg hx]
    congr 1
    refine ih (List.nodup_cons.mp hnd).2 ?_
    intro a ha
    rw [List.mem_cons]
    rintro (rfl | h)
    · exact (List.nodup_cons.mp hnd).1 ha
    · exact hdisj a (List.mem_cons_of_mem _ ha) h

theorem dedupFirst_of_nodup {xs : List String} (h : xs.Nodup) :
    dedupFirst xs = xs :=
  dedupFirstAux_of_nodup h (by intro a _ hc; exact List.not_mem_nil a hc)

/-! ## Facts about `jsTrim` -/

theorem dropWhile_head_not {p : Char → Bool} {l : List Char} :
    ∀ c ∈ (l.dropWhile p).head?, ¬ p c := by
  induction l with
  | nil => simp
  | cons x xs ih =>
    intro c hc
    rw [List.dropWhile_cons] at hc
    split at hc
    · exact ih c hc
    · simp only [List.head?_cons, Option.mem_def, Option.some.injEq] at hc
      subst hc
      simp_all

theorem reverse_dropWhile_reverse_prefix (p : Char → Bool) (m : List Char) :
    (m.reverse.dropWhile p).reverse <+: m := by
  have h1 : m.reverse.dropWhile p <:+ m.reverse := List.dropWhile_suffix p
  have h2 := List.reverse_prefix.mpr h1
  rwa [List.reverse_reverse] at h2

theorem trimChars_head_not (l : List Char) :
    ∀ c ∈ (trimChars l).head?, ¬ jsWs c := by
  intro c hc
  obtain ⟨t, htt⟩ := reverse_dropWhile_reverse_prefix jsWs (l.dropWhile jsWs)
  have ht : trimChars l = ((l.dropWhile jsWs).reverse.dropWhile jsWs).reverse := rfl
  rcases hr : ((l.dropWhile jsWs).reverse.dropWhile jsWs).reverse with _ | ⟨c₀, t₀⟩
  · rw [ht, hr] at hc; simp at hc
  · rw [ht, hr] at hc
    simp only [List.head?_cons, Option.mem_def, Option.some.injEq] at hc
    subst hc
    rw [hr] at htt
    have hmh : (l.dropWhile jsWs).head? = some c₀ := by
      rw [← htt]; rfl
    exact dropWhile_head_not c₀ hmh

theorem trimChars_last_not (l : List Char) :
    ∀ c ∈ (trimChars l).getLast?, ¬ jsWs c := by
  intro c hc
  unfold trimChars at hc
  rw [List.getLast?_reverse] at hc
  exact dropWhile_head_not c hc

theorem trimChars_eq_self {l : List Char}
    (h1 : ∀ c ∈ l.head?, ¬ jsWs c) (h2 : ∀ c ∈ l.getLast?, ¬ jsWs c) :
    trimChars l = l := by
  have hd : l.dropWhile jsWs = l := by
    cases l with
    | nil => rfl
    | cons x xs =>
      rw [List.dropWhile_cons, if_neg]
      simpa using h1 x (by simp)
  have hrev : l.reverse.dropWhile jsWs = l.reverse := by
    cases hrl : l.reverse with
    | nil => rfl
    | cons y ys =>
      rw [List.dropWhile_cons, if_neg]
      have hy : l.getLast? = some y := by
        rw [← List.head?_reverse, hrl]; rfl
      simpa using h2 y hy
  unfold trimChars
  rw [hd, hrev, List.reverse_reverse]

theorem trimChars_idem (l : List Char) : trimChars (trimChars l) = trimChars l :=
  trimChars_eq_self (trimChars_head_not l) (trimChars_last_not l)

theorem jsTrim_data (s : String) : (jsTrim s).data = trimChars s.data := rfl

theorem string_eq_of_data {s t : String} (h : s.data = t.data) : s = t := by
  cases s; cases t; exact congrArg String.mk h

theorem jsTrim_idem (s : String) : jsTrim (jsTrim s) = jsTrim s := by
  apply string_eq_of_data
  show trimChars (jsTrim s).data = (jsTrim s).data
  rw [jsTrim_data]
  exact trimChars_idem s.data

theorem string_ne_empty_iff {s : String} : s ≠ "" ↔ s.data ≠ [] := by
  constructor
  · intro h hc
    exact h (string_eq_of_data (by simpa using hc))
  · intro h hc
    subst hc
    exact h rfl

theorem trimmed_head_not {s : String} (h : jsTrim s = s) :
    ∀ c ∈ s.data.head?, ¬ jsWs c := by
  intro c hc
  have hd : trimChars s.data = s.data := by
    have h2 := congrArg String.data h
    rw [jsTrim_data] at h2
    exact h2
  apply trimChars_head_not s.data
  rw [hd]
  exact hc

theorem trimmed_last_not {s : String} (h : jsTrim s = s) :
    ∀ c ∈ s.data.getLast?, ¬ jsWs c := by
  intro c hc
  have hd : trimChars s.data = s.data := by
    have h2 := congrArg String.data h
    rw [jsTrim_data] at h2
    exact h2
  apply trimChars_last_not s.data
  rw [hd]
  exact hc

/-! ## Injectivity of the decimal representation `Nat.repr`, needed for the
collision-suffix analysis of the normalizer name assignment. -/

/-- Big-endian decimal digit characters of a natural number; reference form
of the list produced by `Nat.toDigits 10`. -/
def natChars (n : Nat) : List Char :=
  if n < 10 then [Nat.digitChar n]
  else natChars (n / 10) ++ [Nat.digitChar (n % 10)]
termination_by n
decreasing_by exact Nat.div_lt_self (by omega) (by omega)

theorem natChars_lt {n : Nat} (h : n < 10) : natChars n = [Nat.digitChar n] := by
  rw [natChars, if_pos h]

theorem natChars_ge {n : Nat} (h : ¬ n < 10) :
    natChars n = natChars (n / 10) ++ [Nat.digitChar (n % 10)] := by
  rw [natChars]
  rw [if_neg h]

theorem natChars_ne_nil (n : Nat) : natChars n ≠ [] := by
  rw [natChars]
  split <;> simp

theorem digitChar_inj_lt :
    ∀ m < 10, ∀ n < 10, Nat.digitChar m = Nat.digitChar n → m = n := by decide

theorem natChars_inj : ∀ m n : Nat, natChars m = natChars n → m = n := by
  intro m
  induction m using Nat.strong_induction_on with
  | _ m ih =>
    intro n h
    by_cases hm : m < 10 <;> by_cases hn : n < 10
    · rw [natChars_lt hm, natChars_lt hn] at h
      exact digitChar_inj_lt m hm n hn (by simpa using h)
    · rw [natChars_lt hm, natChars_ge hn] at h
      have hlen := congrArg List.length h
      simp only [List.length_singleton, List.length_append] at hlen
      have h1 : (natChars (n / 10)).length ≠ 0 := by
        simpa [List.length_eq_zero] using natChars_ne_nil (n / 10)
      omega
    · rw [natChars_ge hm, natChars_lt hn] at h
      have hlen := congrArg List.length h
      simp only [List.length_singleton, List.length_append] at hlen
      have h1 : (natChars (m / 10)).length ≠ 0 := by
        simpa [List.length_eq_zero] using natChars_ne_nil (m / 10)
      omega
    · rw [natChars_ge hm, natChars_ge hn] at h
      have hlen : ([Nat.digitChar (m % 10)] : List Char).length =
          ([Nat.digitChar (n % 10)] : List Char).length := rfl
      obtain ⟨h1, h2⟩ := List.append_inj' h hlen
      have hdiv : m / 10 = n / 10 :=
        ih (m / 10) (Nat.div_lt_self (by omega) (by omega)) (n / 10) h1
      have hmod : m % 10 = n % 10 := by
        refine digitChar_inj_lt (m % 10) (Nat.mod_lt _ (by omega)) (n % 10)
          (Nat.mod_lt _ (by omega)) ?_
        simpa using h2
      omega

theorem toDigitsCore_eq_natChars :
    ∀ (fuel n : Nat) (ds : List Char), n < fuel →
      Nat.toDigitsCore 10 fuel n ds = natChars n ++ ds := by
  intro fuel
  induction fuel with
  | zero => intro n ds h; omega
  | succ fuel ih =>
    intro n ds h
    show (if n / 10 = 0 then Nat.digitChar (n % 10) :: ds
      else Nat.toDigitsCore 10 fuel (n / 10) (Nat.digitChar (n % 10) :: ds)) = _
    split
    · rename_i h0
      have hn : n < 10 := by omega
      rw [natChars_lt hn, Nat.mod_eq_of_lt hn]
      rfl
    · rename_i h0
      have hn : ¬ n < 10 := by
        intro hc
        exact h0 (Nat.div_eq_of_lt hc)
      have hlt : n / 10 < fuel := by
        have := Nat.div_lt_self (show 0 < n by omega) (show 1 < 10 by omega)
        omega
      rw [ih (n / 10) (Nat.digitChar (n % 10) :: ds) hlt, natChars_ge hn,
        List.append_assoc]
      rfl

theorem repr_data (n : Nat) : (Nat.repr n).data = natChars n := by
  show (Nat.toDigits 10 n).asString.data = natChars n
  unfold Nat.toDigits
  rw [toDigitsCore_eq_natChars (n + 1) n [] (by omega)]
  simp [List.asString]

theorem nat_repr_inj {m n : Nat} (h : Nat.repr m = Nat.repr n) : m = n := by
  apply natChars_inj
  rw [← repr_data, ← repr_data, h]

theorem repr_data_ne_nil (n : Nat) : (Nat.repr n).data ≠ [] := by
  rw [repr_data]; exact natChars_ne_nil n

theorem natChars_not_ws (n : Nat) : ∀ c ∈ natChars n, ¬ jsWs c := by
  induction n using Nat.strong_induction_on with
  | _ n ih =>
    intro c hc
    rw [natChars] at hc
    have hdig : ∀ m < 10, jsWs (Nat.digitChar m) = false := by decide
    split at hc
    · rename_i hn
      simp only [List.mem_singleton] at hc
      subst hc
      simp [hdig n hn]
    · rcases List.mem_append.mp hc with h | h
      · exact ih (n / 10) (Nat.div_lt_self (by omega) (by omega)) c h
      · simp only [List.mem_singleton] at h
        subst h
        simp [hdig (n % 10) (Nat.mod_lt _ (by omega))]

/-! ## The `uniqueName` collision resolver of the normalizer
(normalize.ts lines 262-272). The unbounded `while` loop searches the
candidates `base, base_2, base_3, ...` for the first one not yet used; the
search is modelled as `List.find?` over an index range large enough to
always contain a fresh candidate (pigeonhole over the injective candidate
family), which yields exactly the first success of the loop. -/

/-- Trimmed base: `baseRaw.trim() || "item"`. -/
def trimBase (s : String) : String :=
  if jsTrim s = "" then "item" else jsTrim s

/-- Candidate names tried by the collision loop, in order. -/
def candName (base : String) : Nat → String
  | 0 => base
  | k + 1 => base ++ "_" ++ Nat.repr (k + 2)

/-- Model of `uniqueName(baseRaw, used)`; the caller-side `used.add(name)`
is performed by the folds that consume this function. -/
def uniqueName (baseRaw : String) (used : List String) : String :=
  match (List.range (used.length + 1)).find?
      (fun k => !(used.contains (candName (trimBase baseRaw) k))) with
  | some k => candName (trimBase baseRaw) k
  | none => trimBase baseRaw

theorem contains_true_iff {l : List String} {a : String} :
    l.contains a = true ↔ a ∈ l := by
  simp [List.contains]

theorem contains_false_iff {l : List String} {a : String} :
    l.contains a = false ↔ a ∉ l := by
  rw [← Bool.not_eq_true, not_iff_not]
  exact contains_true_iff

theorem string_data_append (a b : String) : (a ++ b).data = a.data ++ b.data := rfl

theorem candName_inj (base : String) : Function.Injective (candName base) := by
  intro i j h
  have hrep : ∀ k : Nat, (Nat.repr k).data.length ≠ 0 := by
    intro k hc
    exact repr_data_ne_nil k (List.length_eq_zero.mp hc)
  match i, j with
  | 0, 0 => rfl
  | 0, k + 1 =>
    exfalso
    have hlen := congrArg (fun s => s.data.length) h
    simp only [candName, string_data_append, List.length_append] at hlen
    have h1 : ("_" : String).data.length = 1 := rfl
    have h2 := hrep (k + 2)
    omega
  | k + 1, 0 =>
    exfalso
    have hlen := congrArg (fun s => s.data.length) h
    simp only [candName, string_data_append, List.length_append] at hlen
    have h1 : ("_" : String).data.length = 1 := rfl
    have h2 := hrep (k + 2)
    omega
  | i + 1, j + 1 =>
    have hdata := congrArg String.data h
    simp only [candName, string_data_append, List.append_assoc] at hdata
    have h2 := List.append_cancel_left hdata
    have h3 := List.append_cancel_left h2
    have h4 : Nat.repr (i + 2) = Nat.repr (j + 2) := string_eq_of_data h3
    have := nat_repr_inj h4
    omega

theorem exists_cand_not_mem (base : String) (used : List String) :
    ∃ k, k ∈ List.range (used.length + 1) ∧ candName base k ∉ used := by
  by_contra hc
  push_neg at hc
  set l := (List.range (used.length + 1)).map (candName base) with hl
  have hnd : l.Nodup := List.Nodup.map (candName_inj base) (List.nodup_range _)
  have hsub : ∀ a ∈ l, a ∈ used := by
    intro a ha
    rw [hl, List.mem_map] at ha
    obtain ⟨k, hk, rfl⟩ := ha
    exact hc k hk
  have h1 : l.toFinset.card = l.length := List.toFinset_card_of_nodup hnd
  have h2 : l.toFinset ⊆ used.toFinset := by
    intro a ha
    exact List.mem_toFinset.mpr (hsub a (List.mem_toFinset.mp ha))
  have h3 := Finset.card_le_card h2
  have h4 := used.toFinset_card_le
  have h5 : l.length = used.length + 1 := by simp [hl]
  omega

theorem uniqueName_not_mem (baseRaw : String) (used : List String) :
    uniqueName baseRaw used ∉ used := by
  unfold uniqueName
  cases hf : (List.range (used.length + 1)).find?
      (fun k => !(used.contains (candName (trimBase baseRaw) k))) with
  | none =>
    exfalso
    obtain ⟨k, hk, hnm⟩ := exists_cand_not_mem (trimBase baseRaw) used
    have hall := List.find?_eq_none.mp hf k hk
    simp only [Bool.not_eq_true', Bool.not_eq_false] at hall
    exact hnm (contains_true_iff.mp hall)
  | some k =>
    have hp := List.find?_some hf
    simp only [Bool.not_eq_true'] at hp
    simp only
    exact contains_false_iff.mp hp

theorem uniqueName_eq_self {baseRaw : String} (used : List String)
    (ht : jsTrim baseRaw = baseRaw) (hne : baseRaw ≠ "")
    (hnm : baseRaw ∉ used) : uniqueName baseRaw used = baseRaw := by
  have hb : trimBase baseRaw = baseRaw := by
    unfold trimBase
    rw [ht, if_neg hne]
  unfold uniqueName
  rw [hb]
  have hr : List.range (used.length + 1) = 0 :: (List.range used.length).map Nat.succ :=
    List.range_succ_eq_map used.length
  rw [hr]
  rw [List.find?_cons_of_pos]
  · rfl
  · show (!(used.contains (candName baseRaw 0))) = true
    simp only [candName, Bool.not_eq_true']
    exact contains_false_iff.mpr hnm

theorem trimBase_trimmed (s : String) :
    jsTrim (trimBase s) = trimBase s ∧ trimBase s ≠ "" := by
  unfold trimBase
  split
  · exact ⟨by decide, by decide⟩
  · rename_i h
    exact ⟨jsTrim_idem s, h⟩

theorem uniqueName_shape (baseRaw : String) (used : List String) :
    uniqueName baseRaw used = trimBase baseRaw ∨
      ∃ n, 2 ≤ n ∧ uniqueName baseRaw used = trimBase baseRaw ++ "_" ++ Nat.repr n := by
  unfold uniqueName
  cases (List.range (used.length + 1)).find?
      (fun k => !(used.contains (candName (trimBase baseRaw) k))) with
  | none => exact Or.inl rfl
  | some k =>
    match k with
    | 0 => exact Or.inl rfl
    | k + 1 => exact Or.inr ⟨k + 2, by omega, rfl⟩

theorem getLast?_append_right {α : Type} {l r : List α} (hr : r ≠ []) :
    (l ++ r).getLast? = r.getLast? := by
  rw [List.getLast?_append]
  rcases hx : r.getLast? with _ | x
  · exact absurd (List.getLast?_eq_none_iff.mp hx) hr
  · rfl

theorem uniqueName_trimmed (baseRaw : String) (used : List String) :
    jsTrim (uniqueName baseRaw used) = uniqueName baseRaw used ∧
      uniqueName baseRaw used ≠ "" := by
  obtain ⟨hbt, hbne⟩ := trimBase_trimmed baseRaw
  rcases uniqueName_shape baseRaw used with h | ⟨n, _, h⟩
  · rw [h]; exact ⟨hbt, hbne⟩
  · rw [h]
    set b := trimBase baseRaw
    have hdata : (b ++ "_" ++ Nat.repr n).data =
        b.data ++ ('_' :: (Nat.repr n).data) := by
      simp [string_data_append]
    have hbne' : b.data ≠ [] := string_ne_empty_iff.mp hbne
    constructor
    · apply string_eq_of_data
      rw [jsTrim_data, hdata]
      apply trimChars_eq_self
      · intro c hc
        rcases hbd : b.data with _ | ⟨b₀, bt⟩
        · exact absurd hbd hbne'
        · rw [hbd] at hc
          simp only [List.cons_append, List.head?_cons, Option.mem_def,
            Option.some.injEq] at hc
          subst hc
          exact trimmed_head_not hbt b₀ (by rw [hbd]; rfl)
      · intro c hc
        rw [getLast?_append_right (by simp)] at hc
        have hsplit : ('_' :: (Nat.repr n).data) = ['_'] ++ (Nat.repr n).data := rfl
        rw [hsplit, getLast?_append_right (repr_data_ne_nil n)] at hc
        have hcm : c ∈ (Nat.repr n).data :=
          List.mem_of_getLast?_eq_some hc
        rw [repr_data] at hcm
        exact natChars_not_ws n c hcm
    · rw [string_ne_empty_iff, hdata]
      simp [hbne']

/-! ## Normalizer embedding (scripts/bridge/normalize.ts)

The loosely-typed values flowing through command `input`/`output` are
modelled by `JVal`; JavaScript numbers carry only their
`Number.isInteger` flag, which is all the normalizer inspects. -/

/-- Loose JSON-like value of a Wire Document field. -/
inductive JVal where
  | jnull : JVal
  | jbool : Bool → JVal
  | jnum : Bool → JVal
  | jstr : String → JVal
  | jarr : List JVal → JVal
  | jobj : List (String × JVal) → JVal

/-- The fixed command I/O type vocabulary (without optional suffix). -/
def ioBaseTokens : List String := ["string", "boolean", "int", "float", "timestamp", "json"]

/-- Test modelling `IO_TYPE_REGEX`: one of the base tokens, optionally
suffixed by a question mark. -/
def isIoTypeToken (s : String) : Bool :=
  ioBaseTokens.contains s ||
    ((s.data.getLast? == some '?') && ioBaseTokens.contains ⟨s.data.dropLast⟩)

/-- The placeholder sentinel keys dropped from command I/O dictionaries. -/
def placeholderKeys : List String := ["placeholder", "todo", "tbd", "example", "dummy", "mock"]

def isPlaceholderKey (k : String) : Bool := placeholderKeys.contains (jsLower k)

/-- Model of `maybeIoTypeString` (normalize.ts lines 27-51). -/
def maybeIoTypeString (value : String) : Option String :=
  let n := jsLower (jsTrim value)
  if n = "" then none
  else if isIoTypeToken n then some n
  else match n with
    | "integer" => some "int"
    | "real" | "number" => some "float"
    | "bool" => some "boolean"
    | "datetime" | "date" | "time" => some "timestamp"
    | "object" | "array" | "map" | "dict" => some "json"
    | _ => none

/-- Model of `scalarToIoType` (normalize.ts lines 53-64); the `none` input
case of the source (null or undefined) is split between `jnull` here and
the absent case handled by `toIoFieldDict`. -/
def scalarToIoType : JVal → Option String
  | .jstr s => some ((maybeIoTypeString s).getD "string")
  | .jbool _ => some "boolean"
  | .jnum isInt => some (if isInt then "int" else "float")
  | .jnull => none
  | .jarr _ => some "json"
  | .jobj _ => some "json"

/-- First-occurrence lookup in an association list, modelling JavaScript
property access (object keys are unique in JavaScript). -/
def lookupFirst {α : Type} (l : List (String × α)) (k : String) : Option α :=
  (l.find? (fun p => p.1 == k)).map (·.2)

/-- Model of the object spread `{...a, ...b}`: keys of `a` in order with
values overridden by `b` where present, then keys of `b` not in `a`. -/
def jsSpread {α : Type} (a b : List (String × α)) : List (String × α) :=
  (a.map (fun p =>
    match lookupFirst b p.1 with
    | some v => (p.1, v)
    | none => p)) ++ b.filter (fun q => (lookupFirst a q.1).isNone)

/-- Model of `unwrapRequest` (normalize.ts lines 66-73). -/
def unwrapRequest : Option JVal → Option JVal
  | some (.jobj fs) =>
    (match lookupFirst fs "request" with
     | some (.jobj rv) =>
        some (.jobj (jsSpread rv (fs.filter (fun p => !(p.1 == "request")))))
     | _ => some (.jobj fs))
  | x => x

/-- Model of `toIoFieldDict` (normalize.ts lines 75-87). -/
def toIoFieldDict (input : Option JVal) : List (String × String) :=
  match unwrapRequest input with
  | some (.jobj fs) =>
    fs.filterMap (fun p =>
      if jsTrim p.1 = "" then none
      else if isPlaceholderKey p.1 then none
      else (scalarToIoType p.2).map (fun t => (p.1, t)))
  | _ => []

/-- Model of `isInvalidIoFieldDict` (normalize.ts lines 89-95). -/
def isInvalidIoFieldDict (d : List (String × String)) : Bool :=
  d.isEmpty || d.any (fun p => isPlaceholderKey p.1) ||
    d.any (fun p => !(isIoTypeToken p.2))

def jsStartsWith (s pat : String) : Bool := pat.data.isPrefixOf s.data

/-- Synonym lists of `normalizeColumnType` (normalize.ts lines 225-260). -/
def intSynonyms : List String := ["int", "integer", "i32", "i64", "u32", "u64", "number_int"]

def realSynonyms : List String :=
  ["float", "double", "real", "decimal", "number_float", "number", "f32", "f64"]

def boolSynonyms : List String := ["bool", "boolean"]

def blobSynonyms : List String := ["blob", "binary", "bytes"]

def jsonSynonyms : List String :=
  ["json", "jsonb", "object", "map", "dict", "array", "list", "set", "any",
   "function", "vector", "typescript type", "optional string", "array<string>",
   "string?", "enum", "foreign_key"]

def dateSynonyms : List String := ["datetime", "timestamp", "date", "time"]

def textSynonyms : List String := ["string", "str", "text", "varchar", "char"]

/-- Branch chain of `normalizeColumnType` on the trimmed lowercased text. -/
def normalizeColumnTypeText (text : String) : String :=
  if text = "" then "TEXT"
  else if intSynonyms.contains text then "INTEGER"
  else if realSynonyms.contains text then "REAL"
  else if boolSynonyms.contains text then "BOOLEAN"
  else if blobSynonyms.contains text then "BLOB"
  else if jsonSynonyms.contains text then "JSON"
  else if dateSynonyms.contains text then "DATETIME"
  else if textSynonyms.contains text then "TEXT"
  else if jsStartsWith text "array<" then "JSON"
  else if text.data.getLast? == some '?' then "TEXT"
  else "TEXT"

/-- Model of `normalizeColumnType` (normalize.ts lines 225-260); the
argument is `none` when the raw value is not a string. -/
def normalizeColumnType (raw : Option String) : String :=
  normalizeColumnTypeText (match raw with
    | some s => jsLower (jsTrim s)
    | none => "")

/-- Model of `ioTypeFromColumnType` (normalize.ts lines 97-113). -/
def ioTypeFromColumnType (type : String) : String :=
  match normalizeColumnType (some type) with
  | "INTEGER" => "int"
  | "REAL" => "float"
  | "BOOLEAN" => "boolean"
  | "JSON" => "json"
  | "BLOB" => "json"
  | "DATETIME" => "timestamp"
  | _ => "string"

structure Column where
  name : String
  type : String
deriving Repr, DecidableEq

structure Table where
  name : String
  columns : List Column
deriving Repr, DecidableEq

/-- Model of `buildPayloadFromTable` (normalize.ts lines 115-126). -/
def buildPayloadFromTable : Option Table → List (String × String)
  | none => []
  | some t =>
    if t.columns.isEmpty then []
    else ((t.columns.filter (fun c => !(jsLower c.name == "id"))).take 6).map
      (fun c => (c.name, ioTypeFromColumnType c.type))

/-- Model of `buildCommandTemplate` (normalize.ts lines 128-160); the first
component is the input template, the second the output template. -/
def buildCommandTemplate (commandName : String) :
    (List (String × String)) × (List (String × String)) :=
  let lower := jsLower commandName
  if jsStartsWith lower "lint_" then
    ([("file_path", "string"), ("tool_type", "string?")],
     [("ok", "boolean"), ("message", "string?"), ("diagnostics", "json?")])
  else if jsStartsWith lower "apply_" || jsStartsWith lower "fix_" then
    ([("file_path", "string"), ("fix_ids", "json?")],
     [("ok", "boolean"), ("message", "string?"), ("changed", "boolean?"), ("diff", "string?")])
  else if jsStartsWith lower "connect_" then
    ([("endpoint", "string"), ("timeout_ms", "int?")],
     [("connected", "boolean"), ("endpoint", "string"), ("connected_at", "timestamp")])
  else if jsStartsWith lower "list_" then
    ([("query", "string?"), ("limit", "int?"), ("offset", "int?")],
     [("items", "json"), ("total", "int?")])
  else
    ([("payload", "json")], [("ok", "boolean"), ("result", "json?")])

/-- Model of `mergeMissing` (normalize.ts lines 162-164): `{...patch, ...base}`. -/
def mergeMissing (base patch : List (String × String)) : List (String × String) :=
  jsSpread patch base

/-- Words of the mutation-verb regex on line 190 of normalize.ts. -/
def mutationWords : List String :=
  ["create", "insert", "add", "save", "apply", "fix", "update", "delete", "remove"]

def hasMutationWord (text : String) : Bool :=
  mutationWords.any (fun w => decide (w.data <:+: (jsLower text).data))

def pairLe (x y : String × String) : Bool := strLe x.1 y.1

/-- Model of `Object.fromEntries(Object.entries(d).sort(([a],[b]) =>
a.localeCompare(b)))` on an association list. -/
def sortPairs (l : List (String × String)) : List (String × String) :=
  sortByB pairLe l

/-- Model of `validateCommandIO` (normalize.ts lines 166-223), minus the
`fixes` log, which no claim concerns. -/
def validateCommandIo (name purpose : String) (input output : Option JVal)
    (tables : List Table) : (List (String × String)) × (List (String × String)) :=
  let text := name ++ " " ++ purpose
  let inferredFromDataModel := buildPayloadFromTable tables.head?
  let template := buildCommandTemplate name
  let i0 := toIoFieldDict input
  let o0 := toIoFieldDict output
  let i1 := if isInvalidIoFieldDict i0 then
      (let a := mergeMissing i0 template.1
       if !inferredFromDataModel.isEmpty then mergeMissing a inferredFromDataModel else a)
    else i0
  let o1 := if isInvalidIoFieldDict o0 then
      (let b := mergeMissing o0 template.2
       if hasMutationWord text then mergeMissing b [("ok", "boolean")] else b)
    else o0
  let i2 := if isInvalidIoFieldDict i1 then [("payload", "json")] else i1
  let o2 := if isInvalidIoFieldDict o1 then [("ok", "boolean"), ("result", "json?")] else o1
  let i3 := i2.filter (fun p => !(p.1 == "request") && !(isPlaceholderKey p.1))
  let o3 := o2.filter (fun p => !(p.1 == "request") && !(isPlaceholderKey p.1))
  let i4 := if i3.isEmpty then [("payload", "json")] else i3
  let o4 := if o3.isEmpty then [("ok", "boolean"), ("result", "json?")] else o3
  (sortPairs i4, sortPairs o4)

/-! ### Wire Document shape, as read by the normalizer -/

structure WireApp where
  name : Option String
  one_liner : Option String
  one_sentence : Option String

structure WireScreen where
  name : Option String
  purpose : Option String
  primary_actions : Option (List String)

structure WireCommand where
  name : Option String
  purpose : Option String
  async : Option Bool
  input : Option JVal
  output : Option JVal

structure WireField where
  name : Option String
  type : Option String

structure WireTable where
  name : Option String
  columns : Option (List WireField)
  fields : Option (List WireField)

/-- Milestone week: a JavaScript number (integer part and nothing else is
ever used) or a string fed through `Number(...)`. -/
structure WireMilestone where
  week : Option (Int ⊕ String)
  tasks : Option (List String)

/-- Wire `mvp_plan`: either a flat array of strings or an object carrying
an optional `milestones` array. -/
inductive WireMvp where
  | strings : List String → WireMvp
  | milestones : Option (List WireMilestone) → WireMvp

structure WireDataModel where
  tables : Option (List (String ⊕ WireTable))

structure WireDoc where
  app : Option WireApp
  screens : Option (List (String ⊕ WireScreen))
  rust_commands : Option (List (String ⊕ WireCommand))
  data_model : Option WireDataModel
  mvp_plan : Option WireMvp
  acceptance_tests : Option (List (String ⊕ Option String))

/-! ### Canonical Document shape (schema v3) -/

structure Screen where
  name : String
  purpose : String
  primary_actions : List String
deriving Repr, DecidableEq

structure Command where
  name : String
  purpose : String
  async : Bool
  input : List (String × String)
  output : List (String × String)
deriving Repr, DecidableEq

structure DataModel where
  tables : List Table
deriving Repr, DecidableEq

structure App where
  name : String
  one_liner : String
deriving Repr, DecidableEq

structure Canonical where
  schema_version : Nat
  app : App
  screens : List Screen
  rust_commands : List Command
  data_model : DataModel
  mvp_plan : List String
  acceptance_tests : List String
deriving Repr, DecidableEq

/-! ### The normalizer itself (normalize.ts lines 274-497) -/

/-- Model of `asString` (normalize.ts lines 12-14). -/
def asString (v : Option String) (fallback : String) : String :=
  match v with
  | some s => if jsTrim s = "" then fallback else s
  | none => fallback

def screenOfItem (idx : Nat) : (String ⊕ WireScreen) → Screen
  | .inl s => ⟨s, s, ["Open", "Run"]⟩
  | .inr o =>
    ⟨asString o.name ("Screen " ++ Nat.repr (idx + 1)),
     asString o.purpose "Main workflow screen",
     o.primary_actions.getD ["Open", "Run"]⟩

/-- The screen uniquing loop (normalize.ts lines 317-324): renames through
the shared used-name set and rewrites `primary_actions` to its
deduplicated sorted form. -/
def screensUnique : List Screen → List String → List Screen
  | [], _ => []
  | s :: rest, used =>
    let n := uniqueName s.name used
    ⟨n, s.purpose, sortStr (dedupFirst s.primary_actions)⟩ :: screensUnique rest (n :: used)

def sortScreens (l : List Screen) : List Screen :=
  sortByB (fun a b => strLe a.name b.name) l

def normScreens (w : WireDoc) : List Screen :=
  let s1 := ((w.screens.getD []).enum.map (fun p => screenOfItem p.1 p.2)).filter
    (fun s => !(s.name == ""))
  let s2 := if s1.isEmpty then
      [⟨"Main", "Primary workflow screen", ["Input", "Run", "Export"]⟩]
    else s1
  sortScreens (screensUnique s2 [])

/-- Command record before I/O validation. -/
structure CommandW where
  name : String
  purpose : String
  async : Bool
  input : Option JVal
  output : Option JVal

def cmdOfItem (idx : Nat) : (String ⊕ WireCommand) → CommandW
  | .inl s => ⟨"cmd_" ++ Nat.repr (idx + 1), s, true, some (.jobj []), some (.jobj [])⟩
  | .inr o =>
    ⟨asString o.name ("cmd_" ++ Nat.repr (idx + 1)),
     asString o.purpose "Execute core operation",
     o.async.getD true, o.input, o.output⟩

def normCommandsRaw (w : WireDoc) : List CommandW :=
  let c1 := ((w.rust_commands.getD []).enum.map (fun p => cmdOfItem p.1 p.2)).filter
    (fun c => !(c.name == ""))
  if c1.isEmpty then
    [⟨"run_main_flow", "Execute core flow", true, some (.jobj []), some (.jobj [])⟩]
  else c1

/-- The command uniquing and I/O validation loop (normalize.ts lines 416-427). -/
def commandsUnique (tables : List Table) : List CommandW → List String → List Command
  | [], _ => []
  | c :: rest, used =>
    let n := uniqueName c.name used
    let v := validateCommandIo n c.purpose c.input c.output tables
    ⟨n, c.purpose, c.async, v.1, v.2⟩ :: commandsUnique tables rest (n :: used)

def sortCommands (l : List Command) : List Command :=
  sortByB (fun a b => strLe a.name b.name) l

def fieldOfWire (f : WireField) : Column :=
  ⟨asString f.name "field", normalizeColumnType f.type⟩

def tableOfItem (idx : Nat) : (String ⊕ WireTable) → Table
  | .inl s => ⟨s, [⟨"id", "TEXT"⟩]⟩
  | .inr o =>
    let rawCols := o.columns.getD (o.fields.getD [])
    let columns := (rawCols.map fieldOfWire).filter
      (fun c => !(c.name == "") && !(c.type == ""))
    ⟨asString o.name ("table_" ++ Nat.repr (idx + 1)),
     if columns.isEmpty then [⟨"id", "TEXT"⟩] else columns⟩

def columnsUnique : List Column → List String → List Column
  | [], _ => []
  | c :: rest, used =>
    let n := uniqueName c.name used
    ⟨n, normalizeColumnType (some c.type)⟩ :: columnsUnique rest (n :: used)

def sortColumns (l : List Column) : List Column :=
  sortByB (fun a b => strLe a.name b.name) l

def sortTables (l : List Table) : List Table :=
  sortByB (fun a b => strLe a.name b.name) l

/-- The table uniquing loop (normalize.ts lines 398-415). -/
def tablesUnique : List Table → List String → List Table
  | [], _ => []
  | t :: rest, used =>
    let n := uniqueName t.name used
    ⟨n, sortColumns (columnsUnique t.columns [])⟩ :: tablesUnique rest (n :: used)

def normTables (w : WireDoc) : List Table :=
  let t1 := (((w.data_model.bind WireDataModel.tables).getD []).enum.map
    (fun p => tableOfItem p.1 p.2)).filter (fun t => !(t.name == ""))
  let t2 := if t1.isEmpty then
      [⟨"records", [⟨"id", "TEXT"⟩, ⟨"created_at", "TEXT"⟩]⟩]
    else t1
  sortTables (tablesUnique t2 [])

structure Milestone where
  week : Int
  tasks : List String

/-- Week coercion of a milestone (normalize.ts line 435); `Number(s)` on a
string is modelled by `String.toInt?`, with zero and unparsable both
falling back to the index. -/
def weekOfMilestone (idx : Nat) (w : Option (Int ⊕ String)) : Int :=
  match w with
  | some (.inl i) => max 1 i
  | some (.inr s) =>
    (match s.toInt? with
     | some z => if z = 0 then ((idx : Int) + 1) else z
     | none => (idx : Int) + 1)
  | none => (idx : Int) + 1

def milestonesOf (w : WireDoc) : List Milestone :=
  let src := match w.mvp_plan with
    | some (.milestones (some l)) => l
    | _ => []
  (src.enum.map (fun p => ⟨weekOfMilestone p.1 p.2.week, p.2.tasks.getD []⟩)).filter
    (fun m => !m.tasks.isEmpty)

def mvpOf (w : WireDoc) : List String :=
  match w.mvp_plan with
  | some (.strings xs) =>
    (let ys := xs.filter (fun x => !(jsTrim x == ""))
     sortStr (if ys.isEmpty then ["week 1: Implement MVP flow"] else ys))
  | _ =>
    let milestones := milestonesOf w
    let ms := if milestones.isEmpty then [⟨1, ["Implement MVP flow"]⟩] else milestones
    let out := ms.flatMap (fun m => m.tasks.filterMap (fun t =>
      let task := jsTrim t
      if task = "" then none
      else some ("week " ++ toString m.week ++ ": " ++ task)))
    sortStr (if out.isEmpty then ["week 1: Implement MVP flow"] else out)

def testsOf (w : WireDoc) : List String :=
  let a1 := ((w.acceptance_tests.getD []).map (fun item =>
    match item with
    | .inl s => s
    | .inr t => asString t "")).filter (fun x => !(x == ""))
  sortStr (if a1.isEmpty then
      ["Given valid input, when run, then result is stored and displayed."]
    else a1)

def appOf (w : WireDoc) : App :=
  let oneLinerFromWire := match w.app with
    | none => none
    | some a => a.one_liner.or a.one_sentence
  ⟨asString (w.app.bind WireApp.name) "Untitled App",
   asString oneLinerFromWire "A desktop app generated from repository evidence."⟩

/-- Model of `normalizeWireToCanonical` (normalize.ts lines 274-497),
producing the canonical document; the `fixes`/`warnings` log and the
unused run metadata parameters are not modelled (no claim concerns them). -/
def normalizeWireToCanonical (w : WireDoc) : Canonical :=
  let tables := normTables w
  ⟨3, appOf w, normScreens w,
   sortCommands (commandsUnique tables (normCommandsRaw w) []),
   ⟨tables⟩, mvpOf w, testsOf w⟩

/-! ### Injection of a Canonical Document back into a Wire Document, for
the idempotence claim -/

def screenToWire (s : Screen) : String ⊕ WireScreen :=
  .inr ⟨some s.name, some s.purpose, some s.primary_actions⟩

def commandToWire (c : Command) : String ⊕ WireCommand :=
  .inr ⟨some c.name, some c.purpose, some c.async,
    some (.jobj (c.input.map (fun p => (p.1, JVal.jstr p.2)))),
    some (.jobj (c.output.map (fun p => (p.1, JVal.jstr p.2))))⟩

def columnToWire (c : Column) : WireField := ⟨some c.name, some c.type⟩

def tableToWire (t : Table) : String ⊕ WireTable :=
  .inr ⟨some t.name, some (t.columns.map columnToWire), none⟩

def canonicalToWire (c : Canonical) : WireDoc :=
  ⟨some ⟨some c.app.name, some c.app.one_liner, none⟩,
   some (c.screens.map screenToWire),
   some (c.rust_commands.map commandToWire),
   some ⟨some (c.data_model.tables.map tableToWire)⟩,
   some (.strings c.mvp_plan),
   some (c.acceptance_tests.map Sum.inl)⟩

/-! ## Gate-side canonical document

The evidence gate, quality gate and citation patch operations act on the
canonical document variant that carries a `citations` block and
id-bearing screens; only the fields those functions read are modelled
(run metadata and score fields are never touched by them). Citation
dictionaries are association lists in key insertion order. -/

structure GApp where
  name : String
  one_liner : String
deriving Repr, DecidableEq

structure GScreen where
  id : String
  name : String
  purpose : String
  primary_actions : List String
deriving Repr, DecidableEq

structure GCommand where
  name : String
  purpose : String
  async : Bool
  input : List (String × String)
  output : List (String × String)
deriving Repr, DecidableEq

structure GTable where
  name : String
  fields : List (String × String)
deriving Repr, DecidableEq

structure Citations where
  app : List String
  core_loop : List String
  screens : List (String × List String)
  commands : List (String × List String)
  tables : List (String × List String)
  acceptance_tests : List (String × List String)
deriving Repr, DecidableEq

structure GCanon where
  app : GApp
  core_loop : String
  screens : List GScreen
  rust_commands : List GCommand
  data_model_tables : List GTable
  mvp_plan : List String
  acceptance_tests : List String
  citations : Citations
deriving Repr, DecidableEq

/-! ### Evidence Gate (validateEvidence, src/unnamed/part_006) -/

/-- Model of `collectCitedEvidenceIds`: every citation list in insertion
order, deduplicated with first occurrences kept (the JavaScript `Set`). -/
def collectCitedEvidenceIds (canonical : GCanon) : List String :=
  dedupFirst (canonical.citations.app ++ canonical.citations.core_loop
    ++ canonical.citations.screens.flatMap (·.2)
    ++ canonical.citations.commands.flatMap (·.2)
    ++ canonical.citations.tables.flatMap (·.2)
    ++ canonical.citations.acceptance_tests.flatMap (·.2))

structure EvidenceGateResult where
  ok : Bool
  unknown_ids : List String
  notes : List String
deriving Repr, DecidableEq

/-- Model of `evidenceGate(canonical, allowedEvidenceIds)`. -/
def evidenceGate (canonical : GCanon) (allowedEvidenceIds : List String) :
    EvidenceGateResult :=
  let cited := collectCitedEvidenceIds canonical
  let unknown := cited.filter (fun id => !(allowedEvidenceIds.contains id))
  ⟨unknown.isEmpty, unknown,
   if unknown.isEmpty then [] else ["unknown evidence ids found in citations"]⟩

/-! ### Quality Gate (qualityGate, src/unnamed/part_012 lines 4-59) -/

structure QualityGateConfig where
  requireNonEmpty : Bool
  minCoverageRatio : ℚ
deriving Repr, DecidableEq

structure Coverage where
  total : Nat
  cited : Nat
  ratio : ℚ
deriving Repr, DecidableEq

structure QualityGateResult where
  ok : Bool
  empty_fields : List String
  coverage : Coverage
deriving Repr, DecidableEq

/-- Round a coverage fraction `cited / total` to four decimal places with
ties away from zero: exact-rational model of
`Number((cited / total).toFixed(4))`. -/
def roundRatio4 (cited total : Nat) : ℚ :=
  if 0 < total then (((20000 * cited + total) / (2 * total) : Nat) : ℚ) / 10000 else 1

/-- The required citation-bearing keys checked by the quality gate paired
with their citation lists, in check order. -/
def qualityChecks (canonical : GCanon) : List (String × List String) :=
  ("app", canonical.citations.app) :: ("core_loop", canonical.citations.core_loop) ::
    (canonical.screens.map (fun s =>
        ("screen:" ++ s.id, (lookupFirst canonical.citations.screens s.id).getD []))
      ++ canonical.rust_commands.map (fun cmd =>
        ("command:" ++ cmd.name, (lookupFirst canonical.citations.commands cmd.name).getD []))
      ++ canonical.data_model_tables.map (fun t =>
        ("table:" ++ t.name, (lookupFirst canonical.citations.tables t.name).getD []))
      ++ canonical.acceptance_tests.enum.map (fun p =>
        ("acceptance_test:" ++ Nat.repr p.1,
         (lookupFirst canonical.citations.acceptance_tests (Nat.repr p.1)).getD [])))

/-- Model of `qualityGate(canonical, config)`; the `notes` strings are not
modelled (no claim concerns them). -/
def qualityGate (canonical : GCanon) (config : QualityGateConfig) :
    QualityGateResult :=
  let checks := qualityChecks canonical
  let total := checks.length
  let emptyFields := (checks.filter (fun p => p.2.isEmpty)).map (·.1)
  let cited := (checks.filter (fun p => !p.2.isEmpty)).length
  let ratio := roundRatio4 cited total
  let ok := !((config.requireNonEmpty && !emptyFields.isEmpty) ||
    decide (ratio < config.minCoverageRatio))
  ⟨ok, emptyFields, ⟨total, cited, ratio⟩⟩

/-! ### Citation patch operations (patchOps, src/unnamed/part_012 lines 128-182) -/

/-- Model of `stableUnique`: deduplicate, then sort. -/
def stableUnique (ids : List String) : List String := sortStr (dedupFirst ids)

structure CitationsPatch where
  app : Option (List String)
  core_loop : Option (List String)
  screens : Option (List (String × List String))
  commands : Option (List (String × List String))
  tables : Option (List (String × List String))
  acceptance_tests : Option (List (String × List String))
deriving Repr, DecidableEq

/-- JavaScript keyed assignment `d[k] = v`: replace in place when the key
exists, append otherwise. -/
def setKey {α : Type} (d : List (String × α)) (k : String) (v : α) :
    List (String × α) :=
  if (lookupFirst d k).isSome then
    d.map (fun p => if p.1 == k then (k, v) else p)
  else d ++ [(k, v)]

/-- Apply the entry loop of `applyCitationsPatch` for one citation
dictionary. -/
def applyPatchDict (d : List (String × List String))
    (patch : Option (List (String × List String))) : List (String × List String) :=
  match patch with
  | none => d
  | some entries => entries.foldl (fun acc p => setKey acc p.1 (stableUnique p.2)) d

/-- Model of `applyCitationsPatch(canonical, patch)`; `structuredClone`
followed by citation-only writes becomes a citations-field replacement. -/
def applyCitationsPatch (canonical : GCanon) (patch : CitationsPatch) : GCanon :=
  { canonical with citations :=
    { app := match patch.app with
        | some l => stableUnique l
        | none => canonical.citations.app
      core_loop := match patch.core_loop with
        | some l => stableUnique l
        | none => canonical.citations.core_loop
      screens := applyPatchDict canonical.citations.screens patch.screens
      commands := applyPatchDict canonical.citations.commands patch.commands
      tables := applyPatchDict canonical.citations.tables patch.tables
      acceptance_tests :=
        applyPatchDict canonical.citations.acceptance_tests patch.acceptance_tests } }

/-- Model of `computeMissingCitationKeys(canonical, requireNonEmpty)`. The
`app` and `core_loop` keys are pushed unconditionally when empty, exactly
as in the source. -/
def computeMissingCitationKeys (canonical : GCanon) (requireNonEmpty : Bool) :
    List String :=
  (if canonical.citations.app.isEmpty then ["app"] else [])
    ++ (if canonical.citations.core_loop.isEmpty then ["core_loop"] else [])
    ++ canonical.screens.filterMap (fun s =>
      if requireNonEmpty && ((lookupFirst canonical.citations.screens s.id).getD []).isEmpty
      then some ("screen:" ++ s.id) else none)
    ++ canonical.rust_commands.filterMap (fun cmd =>
      if requireNonEmpty && ((lookupFirst canonical.citations.commands cmd.name).getD []).isEmpty
      then some ("command:" ++ cmd.name) else none)
    ++ canonical.data_model_tables.filterMap (fun t =>
      if requireNonEmpty && ((lookupFirst canonical.citations.tables t.name).getD []).isEmpty
      then some ("table:" ++ t.name) else none)
    ++ canonical.acceptance_tests.enum.filterMap (fun p =>
      if requireNonEmpty &&
          ((lookupFirst canonical.citations.acceptance_tests (Nat.repr p.1)).getD []).isEmpty
      then some ("acceptance_test:" ++ Nat.repr p.1) else none)

/-! ## Bridge Orchestrator (runBridge.ts)

`JSON.parse` and the zod schema validators are external libraries: the
outcome of each structural stage is a boolean oracle, and the repair LLM
call is a function from the attempt number to a thrown error or a parsed
patch. The canonical document handed to the gate loop stands for the
covered, validated document of the source. -/

structure StageResult where
  name : String
  ok : Bool
  error_code : Option String
  attempt : Option Nat
deriving Repr, DecidableEq

structure FinalResult where
  ok : Bool
  reason : Option String
  attempts_used : Nat
deriving Repr, DecidableEq

structure BridgeResult where
  ok : Bool
  canonical : Option GCanon
  stages : List StageResult
  final : FinalResult
deriving Repr, DecidableEq

/-- Every id mentioned in a citations patch, in field order; the walk of
`unknownIdsFromPatch` collects exactly the strings sitting in arrays. -/
def collectPatchIds (patch : CitationsPatch) : List String :=
  patch.app.getD [] ++ patch.core_loop.getD []
    ++ (patch.screens.getD []).flatMap (·.2)
    ++ (patch.commands.getD []).flatMap (·.2)
    ++ (patch.tables.getD []).flatMap (·.2)
    ++ (patch.acceptance_tests.getD []).flatMap (·.2)

/-- Model of `unknownIdsFromPatch(patch, allowedEvidenceIds)`. -/
def unknownIdsFromPatch (patch : CitationsPatch) (allowedEvidenceIds : List String) :
    List String :=
  dedupFirst ((collectPatchIds patch).filter
    (fun id => !(allowedEvidenceIds.contains id)))

def evidenceStage (ev : EvidenceGateResult) (attempt : Nat) : StageResult :=
  ⟨"evidence_gate", ev.ok,
   if ev.ok then none else some "UNKNOWN_EVIDENCE_IDS", some attempt⟩

def qualityStage (q : QualityGateResult) (attempt : Nat) : StageResult :=
  ⟨"quality_gate", q.ok,
   if q.ok then none else some "QUALITY_GATE_FAILED", some attempt⟩

/-- The gate-and-repair loop of `runBridge` (lines 172-281). The fuel is
`maxRepairAttempts + 1 - attempt`, the number of remaining loop
iterations; the fuel-exhausted base case is the dead `bridge exhausted`
fall-through after the `for` loop of the source. -/
def runBridgeLoop (allowed : List String) (config : QualityGateConfig)
    (maxRepairAttempts : Nat) (repair : Nat → Except Unit CitationsPatch) :
    Nat → GCanon → Nat → (List StageResult × FinalResult × Option GCanon)
  | 0, _, _ => ([], ⟨false, some "bridge exhausted", maxRepairAttempts⟩, none)
  | fuel + 1, c, attempt =>
    let ev := evidenceGate c allowed
    let q := qualityGate c config
    let stages0 := [evidenceStage ev attempt, qualityStage q attempt]
    if ev.ok && q.ok then
      (stages0, ⟨true, none, attempt⟩, some c)
    else
      let missingKeys := computeMissingCitationKeys c true
      if maxRepairAttempts ≤ attempt || missingKeys.isEmpty then
        (stages0,
         ⟨false, some (if ev.ok then "quality gate failed" else "evidence gate failed"),
          attempt⟩, none)
      else
        match repair (attempt + 1) with
        | .error _ =>
          let rest := runBridgeLoop allowed config maxRepairAttempts repair fuel c (attempt + 1)
          (stages0 ++ ⟨"repair", false, some "REPAIR_PATCH_FAILED", some (attempt + 1)⟩ :: rest.1,
           rest.2.1, rest.2.2)
        | .ok patch =>
          let unknown := unknownIdsFromPatch patch allowed
          if !unknown.isEmpty then
            let rest := runBridgeLoop allowed config maxRepairAttempts repair fuel c (attempt + 1)
            (stages0 ++ ⟨"repair", false, some "REPAIR_PATCH_UNKNOWN_ID", some (attempt + 1)⟩ :: rest.1,
             rest.2.1, rest.2.2)
          else
            let rest := runBridgeLoop allowed config maxRepairAttempts repair fuel
              (applyCitationsPatch c patch) (attempt + 1)
            (stages0 ++ ⟨"repair", true, none, some (attempt + 1)⟩ :: rest.1,
             rest.2.1, rest.2.2)

/-- Model of `runBridge`. `parseOk`, `wireOk`, `canonOk` (initial
canonical validation), `canonOk2` (canonical validation after cover) are
the boolean outcomes of the external parse and schema libraries; `c` is
the canonical document after `ensureCitationCoverage`. -/
def runBridge (parseOk wireOk canonOk canonOk2 : Bool) (c : GCanon)
    (allowed : List String) (config : QualityGateConfig)
    (maxRepairAttemptsParam : Option Int)
    (repair : Nat → Except Unit CitationsPatch) : BridgeResult :=
  let maxRepairAttempts := (maxRepairAttemptsParam.getD 2).toNat
  if !parseOk then
    ⟨false, none, [⟨"parse", false, some "PARSE_FAILED", some 0⟩],
     ⟨false, some "parse failed", 0⟩⟩
  else if !wireOk then
    ⟨false, none,
     [⟨"parse", true, none, some 0⟩,
      ⟨"wire_validate", false, some "WIRE_VALIDATE_FAILED", some 0⟩],
     ⟨false, some "wire validation failed", 0⟩⟩
  else
    let pre := [⟨"parse", true, none, some 0⟩, ⟨"wire_validate", true, none, some 0⟩,
      (⟨"normalize", true, none, none⟩ : StageResult)]
    if !canonOk then
      ⟨false, none, pre ++ [⟨"canonical_validate", false, some "CANONICAL_VALIDATE_FAILED", some 0⟩],
       ⟨false, some "canonical validation failed", 0⟩⟩
    else
      let pre2 := pre ++ [(⟨"cover", true, none, none⟩ : StageResult)]
      if !canonOk2 then
        ⟨false, none,
         pre2 ++ [⟨"canonical_validate", false, some "CANONICAL_VALIDATE_FAILED", some 0⟩],
         ⟨false, some "canonical validation failed after cover", 0⟩⟩
      else
        let pre3 := pre2 ++ [(⟨"canonical_validate", true, none, some 0⟩ : StageResult)]
        let res := runBridgeLoop allowed config maxRepairAttempts repair
          (maxRepairAttempts + 1) c 0
        ⟨res.2.1.ok, res.2.2, pre3 ++ res.1, res.2.1⟩

/-! ### Raw text parsing (parseRaw, runBridge.ts lines 30-41) -/

/-- Index of the first opening brace or bracket: the minimum of the two
`indexOf` results of the source restricted to found positions. -/
def firstJsonStart (s : String) : Option Nat :=
  s.data.findIdx? (fun c => c == '\x7b' || c == '[')

/-- Model of `value.slice(i)`. -/
def jsSliceFrom (s : String) (i : Nat) : String := ⟨s.data.drop i⟩

/-- Model of the success of `parseRaw` on a string input, with
`JSON.parse` abstracted as the total-parse oracle `jp`: try the whole
string, then the substring from the first `{` or `[`, and fail when
neither parses (the thrown error is the `false` outcome). -/
def parseRawOk (jp : String → Bool) (s : String) : Bool :=
  if jp s then true
  else
    match firstJsonStart s with
    | none => false
    | some i => jp (jsSliceFrom s i)

/-! ## Lemmas about association-list operations -/

theorem lookupFirst_cons {α : Type} (p : String × α) (d : List (String × α)) (k : String) :
    lookupFirst (p :: d) k = if p.1 == k then some p.2 else lookupFirst d k := by
  unfold lookupFirst
  cases hb : p.1 == k <;> simp [List.find?, hb]

theorem lookupFirst_eq_none_iff {α : Type} {d : List (String × α)} {k : String} :
    lookupFirst d k = none ↔ k ∉ d.map Prod.fst := by
  induction d with
  | nil => simp [lookupFirst]
  | cons p d ih =>
    rw [lookupFirst_cons]
    by_cases hbeq : p.1 = k
    · rw [if_pos (by simp [hbeq])]
      simp [hbeq]
    · rw [if_neg (by simp [hbeq]), ih]
      simp only [List.map_cons, List.mem_cons]
      constructor
      · intro h hc
        rcases hc with hc | hc
        · exact hbeq hc.symm
        · exact h hc
      · intro h hc
        exact h (Or.inr hc)

theorem lookupFirst_map_update_self {α : Type} (d : List (String × α)) (k : String)
    (v : α) (hs : (lookupFirst d k).isSome = true) :
    lookupFirst (d.map (fun p => if p.1 == k then (k, v) else p)) k = some v := by
  induction d with
  | nil => simp [lookupFirst, List.find?] at hs
  | cons p d ih =>
    rw [List.map_cons]
    by_cases hbeq : p.1 = k
    · rw [if_pos (by simp [hbeq]), lookupFirst_cons]
      simp
    · rw [if_neg (by simp [hbeq]), lookupFirst_cons, if_neg (by simp [hbeq])]
      rw [lookupFirst_cons, if_neg (by simp [hbeq])] at hs
      exact ih hs

theorem lookupFirst_map_update_other {α : Type} (d : List (String × α)) (k k₀ : String)
    (v : α) (hne : k ≠ k₀) :
    lookupFirst (d.map (fun p => if p.1 == k₀ then (k₀, v) else p)) k = lookupFirst d k := by
  induction d with
  | nil => rfl
  | cons p d ih =>
    rw [List.map_cons]
    by_cases hbeq : p.1 = k₀
    · have hk : ¬ p.1 = k := by
        rw [hbeq]
        exact fun hc => hne hc.symm
      rw [if_pos (by simp [hbeq]), lookupFirst_cons, lookupFirst_cons,
        if_neg (by simp; exact fun hc => hne hc.symm), if_neg (by simp [hk])]
      exact ih
    · rw [if_neg (by simp [hbeq]), lookupFirst_cons, lookupFirst_cons]
      split
      · rfl
      · exact ih

theorem lookupFirst_append_last_self {α : Type} (d : List (String × α)) (k : String)
    (v : α) (hn : lookupFirst d k = none) :
    lookupFirst (d ++ [(k, v)]) k = some v := by
  induction d with
  | nil => simp [lookupFirst, List.find?]
  | cons p d ih =>
    rw [lookupFirst_cons] at hn
    rw [List.cons_append, lookupFirst_cons]
    split at hn
    · exact absurd hn (by simp)
    · rename_i hb
      rw [if_neg hb]
      exact ih hn

theorem lookupFirst_append_last_other {α : Type} (d : List (String × α)) (k k₀ : String)
    (v : α) (hne : k ≠ k₀) :
    lookupFirst (d ++ [(k₀, v)]) k = lookupFirst d k := by
  induction d with
  | nil =>
    have hb : (k₀ == k) = false := by
      simp only [beq_eq_false_iff_ne, ne_eq]
      exact fun hc => hne hc.symm
    simp [lookupFirst, List.find?, hb]
  | cons p d ih =>
    rw [List.cons_append, lookupFirst_cons, lookupFirst_cons]
    split
    · rfl
    · exact ih

theorem lookupFirst_setKey_self {α : Type} (d : List (String × α)) (k : String) (v : α) :
    lookupFirst (setKey d k v) k = some v := by
  unfold setKey
  split
  · rename_i hs
    exact lookupFirst_map_update_self d k v hs
  · rename_i hs
    refine lookupFirst_append_last_self d k v ?_
    rcases hl : lookupFirst d k with _ | w
    · rfl
    · exact absurd (by rw [hl]; rfl) hs

theorem lookupFirst_setKey_other {α : Type} (d : List (String × α)) (k k₀ : String)
    (v : α) (hne : k ≠ k₀) : lookupFirst (setKey d k₀ v) k = lookupFirst d k := by
  unfold setKey
  split
  · exact lookupFirst_map_update_other d k k₀ v hne
  · exact lookupFirst_append_last_other d k k₀ v hne

/-! ## Claim C1: Evidence Gate specification -/

/-- Predicate: `id` is cited somewhere in the document. -/
def citedIn (c : GCanon) (id : String) : Prop :=
  id ∈ c.citations.app ∨ id ∈ c.citations.core_loop ∨
    (∃ p, p ∈ c.citations.screens ∧ id ∈ p.2) ∨
    (∃ p, p ∈ c.citations.commands ∧ id ∈ p.2) ∨
    (∃ p, p ∈ c.citations.tables ∧ id ∈ p.2) ∨
    (∃ p, p ∈ c.citations.acceptance_tests ∧ id ∈ p.2)

theorem mem_collectCited {c : GCanon} {id : String} :
    id ∈ collectCitedEvidenceIds c ↔ citedIn c id := by
  unfold collectCitedEvidenceIds citedIn
  rw [mem_dedupFirst]
  simp [List.mem_append, List.mem_flatMap, or_assoc]

/-- Example document of the claim scenario: cites `E-RD-001` and
`E-IS-099` on the app field. -/
def evidenceExampleDoc : GCanon :=
  ⟨⟨"A", "B"⟩, "loop", [], [], [], [], [],
   ⟨["E-RD-001", "E-IS-099"], [], [], [], [], []⟩⟩

/-- C1: the Evidence Gate returns ok exactly when every cited evidence id
is in the allow-list, its unknownIds list contains exactly the cited ids
not in the allow-list, and on a document citing E-RD-001 and E-IS-099
with allow-list [E-RD-001] it returns ok=false with
unknownIds=[E-IS-099]. -/
theorem evidence_gate_spec :
    (∀ (c : GCanon) (allowed : List String),
      ((evidenceGate c allowed).ok = true ↔ ∀ id, citedIn c id → id ∈ allowed) ∧
      (∀ id, id ∈ (evidenceGate c allowed).unknown_ids ↔ (citedIn c id ∧ id ∉ allowed))) ∧
    ((evidenceGate evidenceExampleDoc ["E-RD-001"]).ok = false ∧
      (evidenceGate evidenceExampleDoc ["E-RD-001"]).unknown_ids = ["E-IS-099"]) := by
  refine ⟨?_, by decide, by decide⟩
  intro c allowed
  constructor
  · show ((collectCitedEvidenceIds c).filter
      (fun id => !(allowed.contains id))).isEmpty = true ↔ _
    rw [List.isEmpty_iff, List.filter_eq_nil_iff]
    constructor
    · intro h id hcit
      have h2 := h id (mem_collectCited.mpr hcit)
      cases hb : allowed.contains id
      · exact absurd (by rw [hb]; rfl) h2
      · exact contains_true_iff.mp hb
    · intro h id hm
      have h2 := h id (mem_collectCited.mp hm)
      have hb : allowed.contains id = true := contains_true_iff.mpr h2
      rw [hb]
      simp
  · intro id
    show id ∈ (collectCitedEvidenceIds c).filter (fun id => !(allowed.contains id)) ↔ _
    rw [List.mem_filter, mem_collectCited]
    constructor
    · rintro ⟨h1, h2⟩
      refine ⟨h1, ?_⟩
      simp only [Bool.not_eq_true'] at h2
      exact contains_false_iff.mp h2
    · rintro ⟨h1, h2⟩
      refine ⟨h1, ?_⟩
      simp only [Bool.not_eq_true']
      exact contains_false_iff.mpr h2

/-! ## Claim C5: Citations Patch application -/

theorem stableUnique_spec (l : List String) :
    (stableUnique l).Pairwise (strLe · ·) ∧ (stableUnique l).Nodup ∧
      (∀ id, id ∈ stableUnique l ↔ id ∈ l) := by
  refine ⟨sortStr_sorted _, ?_, ?_⟩
  · exact ((sortByB_perm strLe (dedupFirst l)).nodup_iff).mpr (dedupFirst_nodup l)
  · intro id
    rw [show stableUnique l = sortStr (dedupFirst l) from rfl, mem_sortStr, mem_dedupFirst]

theorem applyPatchDict_some_lookup (d entries : List (String × List String))
    (hnd : (entries.map Prod.fst).Nodup) :
    (∀ k v, lookupFirst entries k = some v →
      lookupFirst (applyPatchDict d (some entries)) k = some (stableUnique v)) ∧
    (∀ k, lookupFirst entries k = none →
      lookupFirst (applyPatchDict d (some entries)) k = lookupFirst d k) := by
  induction entries generalizing d with
  | nil =>
    refine ⟨?_, ?_⟩
    · intro k v hv
      simp [lookupFirst, List.find?] at hv
    · intro k _
      rfl
  | cons e rest ih =>
    obtain ⟨hnd1, hnd2⟩ := List.nodup_cons.mp hnd
    have step : applyPatchDict d (some (e :: rest)) =
        applyPatchDict (setKey d e.1 (stableUnique e.2)) (some rest) := rfl
    refine ⟨?_, ?_⟩
    · intro k v hv
      rw [lookupFirst_cons] at hv
      by_cases hbeq : e.1 = k
      · rw [if_pos (by simp [hbeq])] at hv
        have hv2 : v = e.2 := by
          injection hv with h
          exact h.symm
        subst hv2
        subst hbeq
        have hrest : lookupFirst rest e.1 = none := by
          rw [lookupFirst_eq_none_iff]
          exact hnd1
        rw [step, (ih _ hnd2).2 e.1 hrest]
        exact lookupFirst_setKey_self d e.1 (stableUnique e.2)
      · rw [if_neg (by simp [hbeq])] at hv
        rw [step]
        exact (ih _ hnd2).1 k v hv
    · intro k hk
      rw [lookupFirst_cons] at hk
      by_cases hbeq : e.1 = k
      · rw [if_pos (by simp [hbeq])] at hk
        exact absurd hk (by simp)
      · rw [if_neg (by simp [hbeq])] at hk
        rw [step, (ih _ hnd2).2 k hk]
        exact lookupFirst_setKey_other d k e.1 (stableUnique e.2)
          (fun hc => hbeq hc.symm)

/-- Well-formedness of a patch: each citation dictionary present in it has
distinct keys (JavaScript object keys are always distinct). -/
def PatchWF (p : CitationsPatch) : Prop :=
  (∀ d, p.screens = some d → (d.map Prod.fst).Nodup) ∧
  (∀ d, p.commands = some d → (d.map Prod.fst).Nodup) ∧
  (∀ d, p.tables = some d → (d.map Prod.fst).Nodup) ∧
  (∀ d, p.acceptance_tests = some d → (d.map Prod.fst).Nodup)

/-- Replacement behavior on one list-valued citation field. -/
def ReplacedList (old new : List String) (patch : Option (List String)) : Prop :=
  match patch with
  | none => new = old
  | some l => new.Pairwise (strLe · ·) ∧ new.Nodup ∧ (∀ id, id ∈ new ↔ id ∈ l)

/-- Replacement behavior on one dictionary-valued citation field: keys
present in the patch are replaced by their deduplicated sorted value,
keys absent from it keep their old binding. -/
def ReplacedDict (old new : List (String × List String))
    (patch : Option (List (String × List String))) : Prop :=
  match patch with
  | none => new = old
  | some entries =>
    (∀ k v, lookupFirst entries k = some v →
      ∃ w, lookupFirst new k = some w ∧ w.Pairwise (strLe · ·) ∧ w.Nodup ∧
        (∀ id, id ∈ w ↔ id ∈ v)) ∧
    (∀ k, lookupFirst entries k = none → lookupFirst new k = lookupFirst old k)

theorem replacedList_of_patch (old : List String) :
    ∀ patch : Option (List String),
      ReplacedList old (match patch with
        | some l => stableUnique l
        | none => old) patch := by
  intro patch
  cases patch with
  | none => rfl
  | some l =>
    obtain ⟨h1, h2, h3⟩ := stableUnique_spec l
    exact ⟨h1, h2, h3⟩

theorem replacedDict_of_patch (old : List (String × List String))
    (patch : Option (List (String × List String)))
    (hnd : ∀ d, patch = some d → (d.map Prod.fst).Nodup) :
    ReplacedDict old (applyPatchDict old patch) patch := by
  cases patch with
  | none => rfl
  | some entries =>
    obtain ⟨ha, hb⟩ := applyPatchDict_some_lookup old entries (hnd entries rfl)
    refine ⟨?_, hb⟩
    intro k v hv
    obtain ⟨h1, h2, h3⟩ := stableUnique_spec v
    exact ⟨stableUnique v, ha k v hv, h1, h2, h3⟩

/-- C5: applying a Citations Patch replaces, for every key present in the
patch, the citation list with the deduplicated sorted patch value, leaves
citation keys absent from the patch untouched, and changes no
non-citation field of the document. -/
theorem apply_citations_patch_spec (c : GCanon) (p : CitationsPatch)
    (hwf : PatchWF p) :
    (applyCitationsPatch c p).app = c.app ∧
    (applyCitationsPatch c p).core_loop = c.core_loop ∧
    (applyCitationsPatch c p).screens = c.screens ∧
    (applyCitationsPatch c p).rust_commands = c.rust_commands ∧
    (applyCitationsPatch c p).data_model_tables = c.data_model_tables ∧
    (applyCitationsPatch c p).mvp_plan = c.mvp_plan ∧
    (applyCitationsPatch c p).acceptance_tests = c.acceptance_tests ∧
    ReplacedList c.citations.app (applyCitationsPatch c p).citations.app p.app ∧
    ReplacedList c.citations.core_loop (applyCitationsPatch c p).citations.core_loop
      p.core_loop ∧
    ReplacedDict c.citations.screens (applyCitationsPatch c p).citations.screens
      p.screens ∧
    ReplacedDict c.citations.commands (applyCitationsPatch c p).citations.commands
      p.commands ∧
    ReplacedDict c.citations.tables (applyCitationsPatch c p).citations.tables
      p.tables ∧
    ReplacedDict c.citations.acceptance_tests
      (applyCitationsPatch c p).citations.acceptance_tests p.acceptance_tests := by
  obtain ⟨hw1, hw2, hw3, hw4⟩ := hwf
  refine ⟨rfl, rfl, rfl, rfl, rfl, rfl, rfl, ?_, ?_, ?_, ?_, ?_, ?_⟩
  · exact replacedList_of_patch c.citations.app p.app
  · exact replacedList_of_patch c.citations.core_loop p.core_loop
  · exact replacedDict_of_patch c.citations.screens p.screens hw1
  · exact replacedDict_of_patch c.citations.commands p.commands hw2
  · exact replacedDict_of_patch c.citations.tables p.tables hw3
  · exact replacedDict_of_patch c.citations.acceptance_tests p.acceptance_tests hw4

/-- Witness for C5 at a concrete document and patch, following the
patchOps test fixture: the patch rewrites the app citations and the save
command citations, everything else is untouched. -/
theorem apply_citations_patch_witness :
    (applyCitationsPatch
      ⟨⟨"A", "B"⟩, "x", [⟨"main", "Main", "p", ["a"]⟩],
       [⟨"save", "p", true, [], []⟩], [⟨"items", [("id", "TEXT")]⟩], [], ["test1"],
       ⟨[], [], [("main", [])], [("save", [])], [("items", [])], [("0", [])]⟩⟩
      ⟨some ["E-RD-001", "E-RD-001"], none, none, some [("save", ["E-IS-001"])],
       none, none⟩).citations.app = ["E-RD-001"] ∧
    (applyCitationsPatch
      ⟨⟨"A", "B"⟩, "x", [⟨"main", "Main", "p", ["a"]⟩],
       [⟨"save", "p", true, [], []⟩], [⟨"items", [("id", "TEXT")]⟩], [], ["test1"],
       ⟨[], [], [("main", [])], [("save", [])], [("items", [])], [("0", [])]⟩⟩
      ⟨some ["E-RD-001", "E-RD-001"], none, none, some [("save", ["E-IS-001"])],
       none, none⟩).screens = [⟨"main", "Main", "p", ["a"]⟩] := by
  have h := apply_citations_patch_spec
    ⟨⟨"A", "B"⟩, "x", [⟨"main", "Main", "p", ["a"]⟩],
     [⟨"save", "p", true, [], []⟩], [⟨"items", [("id", "TEXT")]⟩], [], ["test1"],
     ⟨[], [], [("main", [])], [("save", [])], [("items", [])], [("0", [])]⟩⟩
    ⟨some ["E-RD-001", "E-RD-001"], none, none, some [("save", ["E-IS-001"])],
     none, none⟩
    ⟨(by intro d hd; cases hd), (by intro d hd; injection hd with h2; rw [← h2]; decide),
     (by intro d hd; cases hd), (by intro d hd; cases hd)⟩
  exact ⟨by decide, h.2.2.1⟩

/-! ## Claim C8: column type canonicalization -/

def columnTypeVocab : List String :=
  ["TEXT", "INTEGER", "REAL", "BOOLEAN", "BLOB", "JSON", "DATETIME"]

/-- C8 counterexample: the raw type string `string?` ends in a question
mark yet is mapped to JSON, not TEXT, because it sits in the JSON synonym
list, which is consulted before the question-mark rule. -/
theorem column_type_question_mark_counterexample :
    normalizeColumnType (some "string?") = "JSON" ∧
    ("string?").data.getLast? = some '?' ∧
    ("JSON" : String) ≠ "TEXT" := by
  refine ⟨by decide, by decide, by decide⟩

theorem nct_int : ∀ t, intSynonyms.contains t = true →
    normalizeColumnTypeText t = "INTEGER" := by
  intro t h
  have hm := contains_true_iff.mp h
  simp only [intSynonyms, List.mem_cons, List.not_mem_nil, or_false] at hm
  rcases hm with rfl | rfl | rfl | rfl | rfl | rfl | rfl <;> decide

theorem nct_real : ∀ t, realSynonyms.contains t = true →
    normalizeColumnTypeText t = "REAL" := by
  intro t h
  have hm := contains_true_iff.mp h
  simp only [realSynonyms, List.mem_cons, List.not_mem_nil, or_false] at hm
  rcases hm with rfl | rfl | rfl | rfl | rfl | rfl | rfl | rfl <;> decide

theorem nct_bool : ∀ t, boolSynonyms.contains t = true →
    normalizeColumnTypeText t = "BOOLEAN" := by
  intro t h
  have hm := contains_true_iff.mp h
  simp only [boolSynonyms, List.mem_cons, List.not_mem_nil, or_false] at hm
  rcases hm with rfl | rfl <;> decide

theorem nct_blob : ∀ t, blobSynonyms.contains t = true →
    normalizeColumnTypeText t = "BLOB" := by
  intro t h
  have hm := contains_true_iff.mp h
  simp only [blobSynonyms, List.mem_cons, List.not_mem_nil, or_false] at hm
  rcases hm with rfl | rfl | rfl <;> decide

theorem nct_json : ∀ t, jsonSynonyms.contains t = true →
    normalizeColumnTypeText t = "JSON" := by
  intro t h
  have hm := contains_true_iff.mp h
  simp only [jsonSynonyms, List.mem_cons, List.not_mem_nil, or_false] at hm
  rcases hm with rfl | rfl | rfl | rfl | rfl | rfl | rfl | rfl | rfl | rfl | rfl | rfl |
    rfl | rfl | rfl | rfl | rfl <;> decide

theorem nct_date : ∀ t, dateSynonyms.contains t = true →
    normalizeColumnTypeText t = "DATETIME" := by
  intro t h
  have hm := contains_true_iff.mp h
  simp only [dateSynonyms, List.mem_cons, List.not_mem_nil, or_false] at hm
  rcases hm with rfl | rfl | rfl | rfl <;> decide

theorem nct_text : ∀ t, textSynonyms.contains t = true →
    normalizeColumnTypeText t = "TEXT" := by
  intro t h
  have hm := contains_true_iff.mp h
  simp only [textSynonyms, List.mem_cons, List.not_mem_nil, or_false] at hm
  rcases hm with rfl | rfl | rfl | rfl | rfl <;> decide

theorem nct_vocab : ∀ t, normalizeColumnTypeText t ∈ columnTypeVocab := by
  intro t
  unfold normalizeColumnTypeText
  split
  · decide
  all_goals split
  all_goals first
    | decide
    | (split
       all_goals first
         | decide
         | (split
            all_goals first
              | decide
              | (split
                 all_goals first
                   | decide
                   | (split
                      all_goals first
                        | decide
                        | (split
                           all_goals first
                             | decide
                             | (split
                                all_goals first
                                  | decide
                                  | (split
                                     all_goals first
                                       | decide
                                       | (split <;> decide))))))))

theorem nct_else : ∀ t,
    intSynonyms.contains t = false → realSynonyms.contains t = false →
    boolSynonyms.contains t = false → blobSynonyms.contains t = false →
    jsonSynonyms.contains t = false → dateSynonyms.contains t = false →
    textSynonyms.contains t = false →
    (jsStartsWith t "array<" = true → normalizeColumnTypeText t = "JSON") ∧
    (jsStartsWith t "array<" = false → normalizeColumnTypeText t = "TEXT") := by
  intro t h1 h2 h3 h4 h5 h6 h7
  constructor
  · intro ha
    have hne : ¬ t = "" := by
      intro hc
      subst hc
      exact absurd ha (by decide)
    unfold normalizeColumnTypeText
    rw [if_neg hne, if_neg (by rw [h1]; simp), if_neg (by rw [h2]; simp),
      if_neg (by rw [h3]; simp), if_neg (by rw [h4]; simp), if_neg (by rw [h5]; simp),
      if_neg (by rw [h6]; simp), if_neg (by rw [h7]; simp), if_pos ha]
  · intro ha
    by_cases hne : t = ""
    · subst hne
      decide
    · unfold normalizeColumnTypeText
      rw [if_neg hne, if_neg (by rw [h1]; simp), if_neg (by rw [h2]; simp),
        if_neg (by rw [h3]; simp), if_neg (by rw [h4]; simp), if_neg (by rw [h5]; simp),
        if_neg (by rw [h6]; simp), if_neg (by rw [h7]; simp), if_neg (by rw [ha]; simp)]
      split <;> rfl

/-- C8 amended: the mapping is as the claim states for the synonym
families it lists, and every result lies in the fixed column vocabulary,
but the else branch differs: the JSON synonym list additionally contains
function, vector, typescript type, optional string, array<string>,
string? and foreign_key; number_int maps to INTEGER and number_float,
f32, f64 to REAL; any other string starting with array< maps to JSON; and
only the remaining strings - including the remaining ones ending in a
question mark - map to TEXT. -/
theorem column_type_map_amended :
    (∀ raw : Option String, normalizeColumnType raw ∈ columnTypeVocab) ∧
    (∀ s : String,
      (intSynonyms.contains (jsLower (jsTrim s)) = true →
        normalizeColumnType (some s) = "INTEGER") ∧
      (realSynonyms.contains (jsLower (jsTrim s)) = true →
        normalizeColumnType (some s) = "REAL") ∧
      (boolSynonyms.contains (jsLower (jsTrim s)) = true →
        normalizeColumnType (some s) = "BOOLEAN") ∧
      (blobSynonyms.contains (jsLower (jsTrim s)) = true →
        normalizeColumnType (some s) = "BLOB") ∧
      (jsonSynonyms.contains (jsLower (jsTrim s)) = true →
        normalizeColumnType (some s) = "JSON") ∧
      (dateSynonyms.contains (jsLower (jsTrim s)) = true →
        normalizeColumnType (some s) = "DATETIME") ∧
      (textSynonyms.contains (jsLower (jsTrim s)) = true →
        normalizeColumnType (some s) = "TEXT") ∧
      (intSynonyms.contains (jsLower (jsTrim s)) = false →
       realSynonyms.contains (jsLower (jsTrim s)) = false →
       boolSynonyms.contains (jsLower (jsTrim s)) = false →
       blobSynonyms.contains (jsLower (jsTrim s)) = false →
       jsonSynonyms.contains (jsLower (jsTrim s)) = false →
       dateSynonyms.contains (jsLower (jsTrim s)) = false →
       textSynonyms.contains (jsLower (jsTrim s)) = false →
        (jsStartsWith (jsLower (jsTrim s)) "array<" = true →
          normalizeColumnType (some s) = "JSON") ∧
        (jsStartsWith (jsLower (jsTrim s)) "array<" = false →
          normalizeColumnType (some s) = "TEXT"))) := by
  constructor
  · intro raw
    cases raw with
    | none => decide
    | some s => exact nct_vocab (jsLower (jsTrim s))
  · intro s
    have hnc : normalizeColumnType (some s) = normalizeColumnTypeText (jsLower (jsTrim s)) :=
      rfl
    rw [hnc]
    exact ⟨nct_int _, nct_real _, nct_bool _, nct_blob _, nct_json _, nct_date _,
      nct_text _, fun h1 h2 h3 h4 h5 h6 h7 => nct_else _ h1 h2 h3 h4 h5 h6 h7⟩

/-- Witness for C8 amended at concrete inputs: i64 maps to INTEGER, and
the unknown string uuid maps to TEXT. -/
theorem column_type_map_amended_witness :
    normalizeColumnType (some "i64") = "INTEGER" ∧
    normalizeColumnType (some "uuid") = "TEXT" := by
  refine ⟨(column_type_map_amended.2 "i64").1 (by decide), ?_⟩
  have h := ((column_type_map_amended.2 "uuid").2.2.2.2.2.2.2
    (by decide) (by decide) (by decide) (by decide) (by decide) (by decide) (by decide)).2
  exact h (by decide)

theorem roundRatio4_close (c t : Nat) (ht : 0 < t) :
    |roundRatio4 c t - (c : ℚ) / (t : ℚ)| ≤ 1 / 20000 := by
  unfold roundRatio4
  rw [if_pos ht]
  set q := (20000 * c + t) / (2 * t) with hq
  have hdm := Nat.div_add_mod (20000 * c + t) (2 * t)
  set med := (20000 * c + t) % (2 * t) with hmed
  have hmlt : med < 2 * t := Nat.mod_lt _ (by omega)
  have hT : (0 : ℚ) < (t : ℚ) := by exact_mod_cast ht
  have hcast : 2 * (t : ℚ) * (q : ℚ) + (med : ℚ) = 20000 * (c : ℚ) + (t : ℚ) := by
    have h2 : (2 * t) * q + med = 20000 * c + t := hdm
    exact_mod_cast congrArg (Nat.cast : Nat → ℚ) h2
  have heq : (q : ℚ) / 10000 - (c : ℚ) / (t : ℚ) =
      ((t : ℚ) - (med : ℚ)) / (20000 * (t : ℚ)) := by
    rw [div_sub_div _ _ (by norm_num : (10000 : ℚ) ≠ 0) (ne_of_gt hT), div_eq_div_iff
      (by positivity) (by positivity)]
    ring_nf
    nlinarith [hcast]
  rw [heq, abs_div, abs_of_pos (by positivity : (0 : ℚ) < 20000 * (t : ℚ)),
    div_le_div_iff₀ (by positivity) (by norm_num : (0 : ℚ) < 20000)]
  have hm0 : (0 : ℚ) ≤ (med : ℚ) := by positivity
  have hm2 : (med : ℚ) < 2 * (t : ℚ) := by exact_mod_cast hmlt
  have habs : |(t : ℚ) - (med : ℚ)| ≤ (t : ℚ) := by
    rw [abs_le]
    constructor <;> linarith
  nlinarith [habs]

/-! ## Claim C3: Quality Gate -/

/-- Counterexample document for C3: three required keys (app, core_loop,
one acceptance test), one of them cited. -/
def qualityCexDoc : GCanon :=
  ⟨⟨"A", "B"⟩, "loop", [], [], [], [], ["t1"],
   ⟨["E-1"], [], [], [], [], [("0", [])]⟩⟩

/-- C3 counterexample: with one cited key out of three and
minCoverageRatio exactly 1/3, the gate reports ratio 0.3333 (the fraction
rounded to four decimal places, not cited/total) and fails, although the
claim (ratio = cited/total = 1/3, requireNonEmpty unset) predicts
success. -/
theorem quality_gate_rounding_counterexample :
    (qualityGate qualityCexDoc ⟨false, 1/3⟩).coverage.cited = 1 ∧
    (qualityGate qualityCexDoc ⟨false, 1/3⟩).coverage.total = 3 ∧
    (qualityGate qualityCexDoc ⟨false, 1/3⟩).coverage.ratio ≠ 1/3 ∧
    (qualityGate qualityCexDoc ⟨false, 1/3⟩).ok = false := by
  have h1 : ((qualityChecks qualityCexDoc).filter (fun p => !p.2.isEmpty)).length = 1 := by
    decide
  have h2 : (qualityChecks qualityCexDoc).length = 3 := by decide
  have hlt : roundRatio4 1 3 < (1 : ℚ) / 3 := by
    unfold roundRatio4
    norm_num
  refine ⟨by decide, by decide, ?_, ?_⟩
  · show roundRatio4 ((qualityChecks qualityCexDoc).filter (fun p => !p.2.isEmpty)).length
      (qualityChecks qualityCexDoc).length ≠ 1/3
    rw [h1, h2]
    unfold roundRatio4
    norm_num
  · show (!((false && !(((qualityChecks qualityCexDoc).filter
      (fun p => p.2.isEmpty)).map (·.1)).isEmpty) ||
      decide (roundRatio4 ((qualityChecks qualityCexDoc).filter
        (fun p => !p.2.isEmpty)).length (qualityChecks qualityCexDoc).length < 1/3))) = false
    rw [h1, h2, decide_eq_true hlt]
    rfl

/-- Scenario document for C3: five required keys (app, core_loop, one
screen, one command, one table), core_loop uncited. -/
def qualityFiveDoc : GCanon :=
  ⟨⟨"A", "B"⟩, "loop", [⟨"s", "S", "p", []⟩], [⟨"c", "p", true, [], []⟩],
   [⟨"t", []⟩], [], [],
   ⟨["E-1"], [], [("s", ["E-1"])], [("c", ["E-1"])], [("t", ["E-1"])], []⟩⟩

/-- C3 amended: the Quality Gate counts one required key per
citation-bearing field, reports the uncited keys as emptyFields, computes
the coverage ratio as cited/total rounded to four decimal places (within
1/20000 of the exact fraction; 1 when total = 0), and fails exactly when
requireNonEmpty is set and some key is uncited or the rounded ratio is
below minCoverageRatio; with minCoverageRatio 1 and one empty field out
of five keys it fails with ratio 0.8. -/
theorem quality_gate_spec_amended :
    (∀ (c : GCanon) (cfg : QualityGateConfig),
      (qualityGate c cfg).coverage.total =
        2 + c.screens.length + c.rust_commands.length + c.data_model_tables.length +
          c.acceptance_tests.length ∧
      (qualityGate c cfg).coverage.cited + (qualityGate c cfg).empty_fields.length =
        (qualityGate c cfg).coverage.total ∧
      (∀ k, k ∈ (qualityGate c cfg).empty_fields ↔ (k, []) ∈ qualityChecks c) ∧
      (qualityGate c cfg).coverage.ratio =
        roundRatio4 (qualityGate c cfg).coverage.cited (qualityGate c cfg).coverage.total ∧
      (0 < (qualityGate c cfg).coverage.total →
        |(qualityGate c cfg).coverage.ratio -
          ((qualityGate c cfg).coverage.cited : ℚ) / ((qualityGate c cfg).coverage.total : ℚ)| ≤
          1 / 20000) ∧
      ((qualityGate c cfg).ok = false ↔
        (cfg.requireNonEmpty = true ∧ (qualityGate c cfg).empty_fields ≠ []) ∨
          (qualityGate c cfg).coverage.ratio < cfg.minCoverageRatio)) ∧
    ((qualityGate qualityFiveDoc ⟨true, 1⟩).ok = false ∧
      (qualityGate qualityFiveDoc ⟨true, 1⟩).coverage.total = 5 ∧
      (qualityGate qualityFiveDoc ⟨true, 1⟩).coverage.ratio = 4/5 ∧
      (qualityGate qualityFiveDoc ⟨true, 1⟩).empty_fields = ["core_loop"]) := by
  constructor
  · intro c cfg
    refine ⟨?_, ?_, ?_, rfl, ?_, ?_⟩
    · show (qualityChecks c).length = _
      unfold qualityChecks
      simp [List.length_append, List.enum_length]
      omega
    · show ((qualityChecks c).filter (fun p => !p.2.isEmpty)).length +
        (((qualityChecks c).filter (fun p => p.2.isEmpty)).map (·.1)).length =
        (qualityChecks c).length
      rw [List.length_map]
      have h := List.length_eq_length_filter_add (l := qualityChecks c)
        (fun p => p.2.isEmpty)
      omega
    · intro k
      show k ∈ ((qualityChecks c).filter (fun p => p.2.isEmpty)).map (·.1) ↔ _
      rw [List.mem_map]
      constructor
      · rintro ⟨p, hp, rfl⟩
        obtain ⟨hp1, hp2⟩ := List.mem_filter.mp hp
        have : p.2 = [] := by simpa using hp2
        have hpe : p = (p.1, []) := by
          cases p
          simp_all
        rw [hpe] at hp1
        exact hp1
      · intro hk
        refine ⟨(k, []), List.mem_filter.mpr ⟨hk, by simp⟩, rfl⟩
    · intro ht
      have hr : (qualityGate c cfg).coverage.ratio =
          roundRatio4 (qualityGate c cfg).coverage.cited
            (qualityGate c cfg).coverage.total := rfl
      rw [hr]
      exact roundRatio4_close _ _ ht
    · have hok : (qualityGate c cfg).ok =
          !((cfg.requireNonEmpty && !(qualityGate c cfg).empty_fields.isEmpty) ||
            decide ((qualityGate c cfg).coverage.ratio < cfg.minCoverageRatio)) := rfl
      rw [hok]
      rw [Bool.not_eq_false', Bool.or_eq_true, Bool.and_eq_true, decide_eq_true_eq]
      constructor
      · rintro (⟨h1, h2⟩ | h)
        · refine Or.inl ⟨h1, ?_⟩
          rw [Bool.not_eq_true'] at h2
          intro hc
          rw [hc] at h2
          simp at h2
        · exact Or.inr h
      · rintro (⟨h1, h2⟩ | h)
        · refine Or.inl ⟨h1, ?_⟩
          rw [Bool.not_eq_true']
          rcases he : (qualityGate c cfg).empty_fields with _ | ⟨x, xs⟩
          · exact absurd he h2
          · rfl
        · exact Or.inr h
  · have h1 : ((qualityChecks qualityFiveDoc).filter (fun p => !p.2.isEmpty)).length = 4 := by
      decide
    have h2 : (qualityChecks qualityFiveDoc).length = 5 := by decide
    refine ⟨by decide, by decide, ?_, by decide⟩
    show roundRatio4 ((qualityChecks qualityFiveDoc).filter (fun p => !p.2.isEmpty)).length
      (qualityChecks qualityFiveDoc).length = 4/5
    rw [h1, h2]
    unfold roundRatio4
    norm_num

/-- Witness for C1 at the scenario input: the unknown id E-IS-099 is
reported, by the membership characterization. -/
theorem evidence_gate_spec_witness :
    "E-IS-099" ∈ (evidenceGate evidenceExampleDoc ["E-RD-001"]).unknown_ids :=
  ((evidence_gate_spec.1 evidenceExampleDoc ["E-RD-001"]).2 "E-IS-099").mpr
    ⟨Or.inl (by decide), by decide⟩

/-- Witness for C3 amended at the scenario input: the reported ratio is
within 1/20000 of the exact coverage fraction. -/
theorem quality_gate_spec_amended_witness :
    |(qualityGate qualityFiveDoc ⟨true, 1⟩).coverage.ratio -
      ((qualityGate qualityFiveDoc ⟨true, 1⟩).coverage.cited : ℚ) /
      ((qualityGate qualityFiveDoc ⟨true, 1⟩).coverage.total : ℚ)| ≤ 1 / 20000 :=
  (quality_gate_spec_amended.1 qualityFiveDoc ⟨true, 1⟩).2.2.2.2.1 (by decide)

/-! ## Claim C6: terminal failures of the structural stages -/

/-- C6: a failure of the parse stage, the wire_validate stage, or the
initial canonical_validate stage makes the bridge return immediately with
ok=false and that stage's error code; no repair stage appears and
attempts_used stays 0. -/
theorem terminal_stage_failures (parseOk wireOk canonOk canonOk2 : Bool) (c : GCanon)
    (allowed : List String) (config : QualityGateConfig) (m : Option Int)
    (repair : Nat → Except Unit CitationsPatch) :
    (parseOk = false →
      (runBridge parseOk wireOk canonOk canonOk2 c allowed config m repair).ok = false ∧
      (⟨"parse", false, some "PARSE_FAILED", some 0⟩ : StageResult) ∈
        (runBridge parseOk wireOk canonOk canonOk2 c allowed config m repair).stages ∧
      (∀ st ∈ (runBridge parseOk wireOk canonOk canonOk2 c allowed config m repair).stages,
        st.name ≠ "repair") ∧
      (runBridge parseOk wireOk canonOk canonOk2 c allowed config m repair).final.attempts_used
        = 0) ∧
    (parseOk = true → wireOk = false →
      (runBridge parseOk wireOk canonOk canonOk2 c allowed config m repair).ok = false ∧
      (⟨"wire_validate", false, some "WIRE_VALIDATE_FAILED", some 0⟩ : StageResult) ∈
        (runBridge parseOk wireOk canonOk canonOk2 c allowed config m repair).stages ∧
      (∀ st ∈ (runBridge parseOk wireOk canonOk canonOk2 c allowed config m repair).stages,
        st.name ≠ "repair") ∧
      (runBridge parseOk wireOk canonOk canonOk2 c allowed config m repair).final.attempts_used
        = 0) ∧
    (parseOk = true → wireOk = true → canonOk = false →
      (runBridge parseOk wireOk canonOk canonOk2 c allowed config m repair).ok = false ∧
      (⟨"canonical_validate", false, some "CANONICAL_VALIDATE_FAILED", some 0⟩ : StageResult) ∈
        (runBridge parseOk wireOk canonOk canonOk2 c allowed config m repair).stages ∧
      (∀ st ∈ (runBridge parseOk wireOk canonOk canonOk2 c allowed config m repair).stages,
        st.name ≠ "repair") ∧
      (runBridge parseOk wireOk canonOk canonOk2 c allowed config m repair).final.attempts_used
        = 0) := by
  refine ⟨?_, ?_, ?_⟩
  · intro hp
    subst hp
    have hstages : (runBridge false wireOk canonOk canonOk2 c allowed config m
        repair).stages = [⟨"parse", false, some "PARSE_FAILED", some 0⟩] := rfl
    refine ⟨rfl, ?_, ?_, rfl⟩
    · rw [hstages]
      exact List.mem_singleton_self _
    · intro st hst
      rw [hstages] at hst
      simp only [List.mem_singleton] at hst
      subst hst
      decide
  · intro hp hw
    subst hp
    subst hw
    have hstages : (runBridge true false canonOk canonOk2 c allowed config m
        repair).stages = [⟨"parse", true, none, some 0⟩,
          ⟨"wire_validate", false, some "WIRE_VALIDATE_FAILED", some 0⟩] := rfl
    refine ⟨rfl, ?_, ?_, rfl⟩
    · rw [hstages]
      exact List.mem_cons_of_mem _ (List.mem_singleton_self _)
    · intro st hst
      rw [hstages] at hst
      simp only [List.mem_cons, List.not_mem_nil, or_false] at hst
      rcases hst with rfl | rfl <;> decide
  · intro hp hw hc
    subst hp
    subst hw
    subst hc
    have hstages : (runBridge true true false canonOk2 c allowed config m
        repair).stages = [⟨"parse", true, none, some 0⟩,
          ⟨"wire_validate", true, none, some 0⟩, ⟨"normalize", true, none, none⟩,
          ⟨"canonical_validate", false, some "CANONICAL_VALIDATE_FAILED", some 0⟩] := rfl
    refine ⟨rfl, ?_, ?_, rfl⟩
    · rw [hstages]
      exact List.mem_cons_of_mem _ (List.mem_cons_of_mem _ (List.mem_cons_of_mem _
        (List.mem_singleton_self _)))
    · intro st hst
      rw [hstages] at hst
      simp only [List.mem_cons, List.not_mem_nil, or_false] at hst
      rcases hst with rfl | rfl | rfl | rfl <;> decide

/-- Witness for C6 at a concrete input: a wire_validate failure is
terminal with the right error code and no repair stage. -/
theorem terminal_stage_failures_witness :
    (runBridge true false true true evidenceExampleDoc [] ⟨true, 1⟩ none
      (fun _ => Except.error ())).ok = false ∧
    (⟨"wire_validate", false, some "WIRE_VALIDATE_FAILED", some 0⟩ : StageResult) ∈
      (runBridge true false true true evidenceExampleDoc [] ⟨true, 1⟩ none
        (fun _ => Except.error ())).stages :=
  ⟨((terminal_stage_failures true false true true evidenceExampleDoc [] ⟨true, 1⟩ none
      (fun _ => Except.error ())).2.1 rfl rfl).1,
   ((terminal_stage_failures true false true true evidenceExampleDoc [] ⟨true, 1⟩ none
      (fun _ => Except.error ())).2.1 rfl rfl).2.1⟩

/-! ## Claim C10: parse-stage behavior on raw strings -/

/-- C10: when the raw input string is not valid JSON in its entirety, the
parse stage succeeds exactly when the string contains an opening brace or
bracket and the substring from the first such character parses as JSON;
otherwise the stage fails, the bridge reports PARSE_FAILED and returns
ok=false (the model is a total function, so nothing is thrown). -/
theorem parse_stage_spec (jp : String → Bool) (s : String) (hwhole : jp s = false)
    (wireOk canonOk canonOk2 : Bool) (c : GCanon) (allowed : List String)
    (config : QualityGateConfig) (m : Option Int)
    (repair : Nat → Except Unit CitationsPatch) :
    (parseRawOk jp s = true ↔
      ∃ i, firstJsonStart s = some i ∧ jp (jsSliceFrom s i) = true) ∧
    (parseRawOk jp s = false →
      (runBridge (parseRawOk jp s) wireOk canonOk canonOk2 c allowed config m repair).ok
        = false ∧
      (⟨"parse", false, some "PARSE_FAILED", some 0⟩ : StageResult) ∈
        (runBridge (parseRawOk jp s) wireOk canonOk canonOk2 c allowed config m
          repair).stages ∧
      (runBridge (parseRawOk jp s) wireOk canonOk canonOk2 c allowed config m
        repair).final.attempts_used = 0) := by
  constructor
  · unfold parseRawOk
    rw [if_neg (by rw [hwhole]; simp)]
    cases hf : firstJsonStart s with
    | none =>
      constructor
      · intro hc
        exact Bool.noConfusion hc
      · rintro ⟨i, hi, _⟩
        exact Option.noConfusion hi
    | some i =>
      constructor
      · intro h
        exact ⟨i, rfl, h⟩
      · rintro ⟨j, hj, hjp⟩
        have hij : i = j := by injection hj
        rw [hij]
        exact hjp
  · intro hfail
    have h := (terminal_stage_failures (parseRawOk jp s) wireOk canonOk canonOk2 c allowed
      config m repair).1 hfail
    exact ⟨h.1, h.2.1, h.2.2.2⟩

/-- Witness for C10: a raw string with model preamble before a JSON
array, with the parse oracle accepting exactly that array. -/
theorem parse_stage_spec_witness :
    parseRawOk (fun t => t == "[1]") "note [1]" = true :=
  (parse_stage_spec (fun t => t == "[1]") "note [1]" (by decide) true true true
    evidenceExampleDoc [] ⟨true, 1⟩ none (fun _ => Except.error ())).1.mpr
    ⟨5, by decide, by decide⟩

/-! ## Claim C4: repair attempt accounting -/

theorem gateStages_filter_repair (ev : EvidenceGateResult) (q : QualityGateResult)
    (a : Nat) :
    ([evidenceStage ev a, qualityStage q a].filter (fun st => st.name == "repair")) = [] :=
  rfl

/-- Repair stages recorded by the gate loop: there are at most
`maxR - attempt` of them, the i-th carries attempt index
`attempt + 1 + i`, and the final attempts_used stays at most `maxR`. -/
theorem runBridgeLoop_repair_spec (allowed : List String) (config : QualityGateConfig)
    (maxR : Nat) (repair : Nat → Except Unit CitationsPatch) :
    ∀ (fuel : Nat) (c : GCanon) (attempt : Nat), attempt + fuel = maxR + 1 →
      ((attempt ≤ maxR →
        ((runBridgeLoop allowed config maxR repair fuel c attempt).1.filter
          (fun st => st.name == "repair")).length + attempt ≤ maxR) ∧
       (∀ i (hi : i < ((runBridgeLoop allowed config maxR repair fuel c attempt).1.filter
            (fun st => st.name == "repair")).length),
          (((runBridgeLoop allowed config maxR repair fuel c attempt).1.filter
            (fun st => st.name == "repair")).get ⟨i, hi⟩).attempt =
            some (attempt + 1 + i)) ∧
       (runBridgeLoop allowed config maxR repair fuel c attempt).2.1.attempts_used ≤ maxR) := by
  intro fuel
  induction fuel with
  | zero =>
    intro c attempt h
    refine ⟨?_, ?_, ?_⟩
    · intro hle
      omega
    · intro i hi
      exact absurd hi (Nat.not_lt_zero i)
    · show maxR ≤ maxR
      exact le_refl maxR
  | succ fuel ih =>
    intro c attempt h
    by_cases hgate : ((evidenceGate c allowed).ok && (qualityGate c config).ok) = true
    · have heq : runBridgeLoop allowed config maxR repair (fuel + 1) c attempt =
        ([evidenceStage (evidenceGate c allowed) attempt,
          qualityStage (qualityGate c config) attempt],
         ⟨true, none, attempt⟩, some c) := by
        simp only [runBridgeLoop]
        rw [if_pos hgate]
      rw [heq]
      refine ⟨?_, ?_, ?_⟩
      · intro _
        show 0 + attempt ≤ maxR
        omega
      · intro i hi
        exact absurd hi (Nat.not_lt_zero i)
      · show attempt ≤ maxR
        omega
    · by_cases hterm : (decide (maxR ≤ attempt) ||
          (computeMissingCitationKeys c true).isEmpty) = true
      · have heq : runBridgeLoop allowed config maxR repair (fuel + 1) c attempt =
          ([evidenceStage (evidenceGate c allowed) attempt,
            qualityStage (qualityGate c config) attempt],
           ⟨false, some (if (evidenceGate c allowed).ok then "quality gate failed"
              else "evidence gate failed"), attempt⟩, none) := by
          simp only [runBridgeLoop]
          rw [if_neg hgate, if_pos hterm]
        rw [heq]
        refine ⟨?_, ?_, ?_⟩
        · intro _
          show 0 + attempt ≤ maxR
          omega
        · intro i hi
          exact absurd hi (Nat.not_lt_zero i)
        · show attempt ≤ maxR
          omega
      · have hlt : attempt < maxR := by
          by_contra hge
          exact hterm (by rw [decide_eq_true (by omega : maxR ≤ attempt)]; rfl)
        have hnext : attempt + 1 + fuel = maxR + 1 := by omega
        cases hrep : repair (attempt + 1) with
        | error e =>
          have heq : runBridgeLoop allowed config maxR repair (fuel + 1) c attempt =
            ([evidenceStage (evidenceGate c allowed) attempt,
              qualityStage (qualityGate c config) attempt] ++
             (⟨"repair", false, some "REPAIR_PATCH_FAILED", some (attempt + 1)⟩ :
                StageResult) ::
             (runBridgeLoop allowed config maxR repair fuel c (attempt + 1)).1,
             (runBridgeLoop allowed config maxR repair fuel c (attempt + 1)).2) := by
            simp only [runBridgeLoop]
            rw [if_neg hgate, if_neg hterm, hrep]
          rw [heq]
          obtain ⟨ih1, ih2, ih3⟩ := ih c (attempt + 1) hnext
          have hfilter : (([evidenceStage (evidenceGate c allowed) attempt,
              qualityStage (qualityGate c config) attempt] ++
              (⟨"repair", false, some "REPAIR_PATCH_FAILED", some (attempt + 1)⟩ :
                StageResult) ::
              (runBridgeLoop allowed config maxR repair fuel c (attempt + 1)).1).filter
              (fun st => st.name == "repair")) =
              (⟨"repair", false, some "REPAIR_PATCH_FAILED", some (attempt + 1)⟩ :
                StageResult) ::
              ((runBridgeLoop allowed config maxR repair fuel c (attempt + 1)).1.filter
                (fun st => st.name == "repair")) := by
            rw [List.filter_append, gateStages_filter_repair, List.nil_append,
              List.filter_cons_of_pos (by rfl)]
          rw [hfilter]
          refine ⟨?_, ?_, ?_⟩
          · intro _
            have := ih1 (by omega)
            simp only [List.length_cons]
            omega
          · intro i hi
            cases i with
            | zero => rfl
            | succ j =>
              have hj : j < ((runBridgeLoop allowed config maxR repair fuel c
                  (attempt + 1)).1.filter (fun st => st.name == "repair")).length :=
                Nat.lt_of_succ_lt_succ hi
              show (((runBridgeLoop allowed config maxR repair fuel c
                (attempt + 1)).1.filter (fun st => st.name == "repair")).get
                ⟨j, hj⟩).attempt = some (attempt + 1 + (j + 1))
              rw [ih2 j hj]
              congr 1
              omega
          · exact ih3
        | ok patch =>
          by_cases hunk : (unknownIdsFromPatch patch allowed).isEmpty = true
          · have heq : runBridgeLoop allowed config maxR repair (fuel + 1) c attempt =
              ([evidenceStage (evidenceGate c allowed) attempt,
                qualityStage (qualityGate c config) attempt] ++
               (⟨"repair", true, none, some (attempt + 1)⟩ : StageResult) ::
               (runBridgeLoop allowed config maxR repair fuel
                 (applyCitationsPatch c patch) (attempt + 1)).1,
               (runBridgeLoop allowed config maxR repair fuel
                 (applyCitationsPatch c patch) (attempt + 1)).2) := by
              simp only [runBridgeLoop]
              rw [if_neg hgate, if_neg hterm, hrep]
              dsimp only
              rw [hunk]
              rfl
            rw [heq]
            obtain ⟨ih1, ih2, ih3⟩ := ih (applyCitationsPatch c patch) (attempt + 1) hnext
            have hfilter : (([evidenceStage (evidenceGate c allowed) attempt,
                qualityStage (qualityGate c config) attempt] ++
                (⟨"repair", true, none, some (attempt + 1)⟩ : StageResult) ::
                (runBridgeLoop allowed config maxR repair fuel
                  (applyCitationsPatch c patch) (attempt + 1)).1).filter
                (fun st => st.name == "repair")) =
                (⟨"repair", true, none, some (attempt + 1)⟩ : StageResult) ::
                ((runBridgeLoop allowed config maxR repair fuel
                  (applyCitationsPatch c patch) (attempt + 1)).1.filter
                  (fun st => st.name == "repair")) := by
              rw [List.filter_append, gateStages_filter_repair, List.nil_append,
                List.filter_cons_of_pos (by rfl)]
            rw [hfilter]
            refine ⟨?_, ?_, ?_⟩
            · intro _
              have := ih1 (by omega)
              simp only [List.length_cons]
              omega
            · intro i hi
              cases i with
              | zero => rfl
              | succ j =>
                have hj : j < ((runBridgeLoop allowed config maxR repair fuel
                    (applyCitationsPatch c patch) (attempt + 1)).1.filter
                    (fun st => st.name == "repair")).length :=
                  Nat.lt_of_succ_lt_succ hi
                show (((runBridgeLoop allowed config maxR repair fuel
                  (applyCitationsPatch c patch) (attempt + 1)).1.filter
                  (fun st => st.name == "repair")).get ⟨j, hj⟩).attempt =
                  some (attempt + 1 + (j + 1))
                rw [ih2 j hj]
                congr 1
                omega
            · exact ih3
          · have heq : runBridgeLoop allowed config maxR repair (fuel + 1) c attempt =
              ([evidenceStage (evidenceGate c allowed) attempt,
                qualityStage (qualityGate c config) attempt] ++
               (⟨"repair", false, some "REPAIR_PATCH_UNKNOWN_ID", some (attempt + 1)⟩ :
                  StageResult) ::
               (runBridgeLoop allowed config maxR repair fuel c (attempt + 1)).1,
               (runBridgeLoop allowed config maxR repair fuel c (attempt + 1)).2) := by
              have hunk' : (unknownIdsFromPatch patch allowed).isEmpty = false := by
                cases he : (unknownIdsFromPatch patch allowed).isEmpty
                · rfl
                · exact absurd he hunk
              simp only [runBridgeLoop]
              rw [if_neg hgate, if_neg hterm, hrep]
              dsimp only
              rw [hunk']
              rfl
            rw [heq]
            obtain ⟨ih1, ih2, ih3⟩ := ih c (attempt + 1) hnext
            have hfilter : (([evidenceStage (evidenceGate c allowed) attempt,
                qualityStage (qualityGate c config) attempt] ++
                (⟨"repair", false, some "REPAIR_PATCH_UNKNOWN_ID", some (attempt + 1)⟩ :
                  StageResult) ::
                (runBridgeLoop allowed config maxR repair fuel c (attempt + 1)).1).filter
                (fun st => st.name == "repair")) =
                (⟨"repair", false, some "REPAIR_PATCH_UNKNOWN_ID", some (attempt + 1)⟩ :
                  StageResult) ::
                ((runBridgeLoop allowed config maxR repair fuel c (attempt + 1)).1.filter
                  (fun st => st.name == "repair")) := by
              rw [List.filter_append, gateStages_filter_repair, List.nil_append,
                List.filter_cons_of_pos (by rfl)]
            rw [hfilter]
            refine ⟨?_, ?_, ?_⟩
            · intro _
              have := ih1 (by omega)
              simp only [List.length_cons]
              omega
            · intro i hi
              cases i with
              | zero => rfl
              | succ j =>
                have hj : j < ((runBridgeLoop allowed config maxR repair fuel c
                    (attempt + 1)).1.filter (fun st => st.name == "repair")).length :=
                  Nat.lt_of_succ_lt_succ hi
                show (((runBridgeLoop allowed config maxR repair fuel c
                  (attempt + 1)).1.filter (fun st => st.name == "repair")).get
                  ⟨j, hj⟩).attempt = some (attempt + 1 + (j + 1))
                rw [ih2 j hj]
                congr 1
                omega
            · exact ih3

/-- A canonical document with only `app` and `core_loop` citation slots,
both empty, so both quality checks fail and both keys are missing. -/
def repairCexDoc : GCanon :=
  ⟨⟨"Miner", "mine github topics"⟩, "collect and rank", [], [], [], [], [],
   ⟨[], [], [], [], [], []⟩⟩

def repairCexConfig : QualityGateConfig := ⟨true, 1⟩

/-- A patch filling both missing keys with the allowed id. -/
def repairCexGoodPatch : CitationsPatch :=
  ⟨some ["E-1"], some ["E-1"], none, none, none, none⟩

/-- A repair oracle that returns an out-of-allow-list id on the first
call and the good patch on every later call. -/
def repairCexOracle : Nat → Except Unit CitationsPatch := fun attempt =>
  if attempt = 1 then Except.ok ⟨some ["BAD"], none, none, none, none, none⟩
  else Except.ok repairCexGoodPatch

/-- C4, counterexample. With `maxRepairAttempts = 1` and a repair oracle whose
first patch carries the unknown id "BAD" while every later patch would pass
both gates, the run fails after exactly one repair round (recorded failed with
attempt index 1, `attempts_used = 1`): the round whose patch had unknown ids
did consume the single repair attempt, and the good patch available at the
next oracle call was never requested, contradicting the claim that such a
failed round does not consume one of the `maxRepairAttempts` attempts. -/
theorem repair_attempt_consumption_counterexample :
    (runBridge true true true true repairCexDoc ["E-1"] repairCexConfig (some 1)
        repairCexOracle).ok = false ∧
    (runBridge true true true true repairCexDoc ["E-1"] repairCexConfig (some 1)
        repairCexOracle).final.attempts_used = 1 ∧
    ((runBridge true true true true repairCexDoc ["E-1"] repairCexConfig (some 1)
        repairCexOracle).stages.filter (fun st => st.name == "repair")) =
      [⟨"repair", false, some "REPAIR_PATCH_UNKNOWN_ID", some 1⟩] ∧
    repairCexOracle 2 = Except.ok repairCexGoodPatch ∧
    (evidenceGate (applyCitationsPatch repairCexDoc repairCexGoodPatch) ["E-1"]).ok
      = true ∧
    (qualityGate (applyCitationsPatch repairCexDoc repairCexGoodPatch)
        repairCexConfig).ok = true := by
  refine ⟨rfl, rfl, rfl, rfl, rfl, ?_⟩
  have hratio : ¬(roundRatio4 2 2 < (1 : ℚ)) := by
    unfold roundRatio4
    norm_num
  have h : (qualityGate (applyCitationsPatch repairCexDoc repairCexGoodPatch)
      repairCexConfig).ok = !(false || decide (roundRatio4 2 2 < (1 : ℚ))) := rfl
  rw [h, decide_eq_false hratio]
  rfl

/-- C4, amended. The run records at most `maxRepairAttempts` repair stages in
total — every repair round, also one failed by a thrown repair call or by
unknown patch ids, consumes one of the `maxRepairAttempts` attempts — the
i-th recorded repair stage carries attempt index `i + 1`, and the final
`attempts_used` never exceeds `maxRepairAttempts`
(with `maxRepairAttempts = (m.getD 2).toNat`). -/
theorem repair_attempts_amended (parseOk wireOk canonOk canonOk2 : Bool)
    (c : GCanon) (allowed : List String) (config : QualityGateConfig)
    (m : Option Int) (repair : Nat → Except Unit CitationsPatch) :
    ((runBridge parseOk wireOk canonOk canonOk2 c allowed config m repair).stages.filter
      (fun st => st.name == "repair")).length ≤ (m.getD 2).toNat ∧
    (∀ i (hi : i < ((runBridge parseOk wireOk canonOk canonOk2 c allowed config m
          repair).stages.filter (fun st => st.name == "repair")).length),
      (((runBridge parseOk wireOk canonOk canonOk2 c allowed config m
          repair).stages.filter (fun st => st.name == "repair")).get ⟨i, hi⟩).attempt =
        some (i + 1)) ∧
    (runBridge parseOk wireOk canonOk canonOk2 c allowed config m
      repair).final.attempts_used ≤ (m.getD 2).toNat := by
  cases parseOk with
  | false =>
    exact ⟨Nat.zero_le _, fun i hi => absurd hi (Nat.not_lt_zero i), Nat.zero_le _⟩
  | true =>
  cases wireOk with
  | false =>
    exact ⟨Nat.zero_le _, fun i hi => absurd hi (Nat.not_lt_zero i), Nat.zero_le _⟩
  | true =>
  cases canonOk with
  | false =>
    exact ⟨Nat.zero_le _, fun i hi => absurd hi (Nat.not_lt_zero i), Nat.zero_le _⟩
  | true =>
  cases canonOk2 with
  | false =>
    exact ⟨Nat.zero_le _, fun i hi => absurd hi (Nat.not_lt_zero i), Nat.zero_le _⟩
  | true =>
    obtain ⟨h1, h2, h3⟩ := runBridgeLoop_repair_spec allowed config
      ((m.getD 2).toNat) repair ((m.getD 2).toNat + 1) c 0 (by omega)
    have hst : (runBridge true true true true c allowed config m repair).stages =
        [(⟨"parse", true, none, some 0⟩ : StageResult),
         ⟨"wire_validate", true, none, some 0⟩, ⟨"normalize", true, none, none⟩,
         ⟨"cover", true, none, none⟩, ⟨"canonical_validate", true, none, some 0⟩] ++
        (runBridgeLoop allowed config ((m.getD 2).toNat) repair
          ((m.getD 2).toNat + 1) c 0).1 := rfl
    have hfil : ((runBridge true true true true c allowed config m
        repair).stages.filter (fun st => st.name == "repair")) =
        ((runBridgeLoop allowed config ((m.getD 2).toNat) repair
          ((m.getD 2).toNat + 1) c 0).1.filter (fun st => st.name == "repair")) := by
      rw [hst, List.filter_append]
      rw [show ([(⟨"parse", true, none, some 0⟩ : StageResult),
         ⟨"wire_validate", true, none, some 0⟩, ⟨"normalize", true, none, none⟩,
         ⟨"cover", true, none, none⟩,
         ⟨"canonical_validate", true, none, some 0⟩].filter
           (fun st => st.name == "repair")) = [] from rfl, List.nil_append]
    refine ⟨?_, ?_, ?_⟩
    · rw [hfil]
      have := h1 (Nat.zero_le _)
      omega
    · rw [hfil]
      intro i hi
      rw [h2 i hi]
      exact congrArg some (by omega)
    · exact h3

/-- C4 amended, witness: on the counterexample run the single recorded repair
stage carries attempt index 1. -/
theorem repair_attempts_amended_witness :
    (((runBridge true true true true repairCexDoc ["E-1"] repairCexConfig (some 1)
        repairCexOracle).stages.filter (fun st => st.name == "repair")).get
      ⟨0, by decide⟩).attempt = some (0 + 1) :=
  (repair_attempts_amended true true true true repairCexDoc ["E-1"] repairCexConfig
    (some 1) repairCexOracle).2.1 0 (by decide)

/-! ## Claim C2: command I/O dictionary invariant -/

theorem bool_eq_false {b : Bool} (h : ¬ b = true) : b = false := by
  cases b
  · rfl
  · exact absurd rfl h

/-- A dictionary that `isInvalidIoFieldDict` accepts is non-empty,
placeholder-free, and all its values are I/O type tokens. -/
theorem isInvalidIoFieldDict_false {d : List (String × String)}
    (h : isInvalidIoFieldDict d = false) :
    d ≠ [] ∧ ∀ p ∈ d, isPlaceholderKey p.1 = false ∧ isIoTypeToken p.2 = true := by
  unfold isInvalidIoFieldDict at h
  rcases Bool.or_eq_false_iff.mp h with ⟨h12, h3⟩
  rcases Bool.or_eq_false_iff.mp h12 with ⟨h1, h2⟩
  constructor
  · intro hc
    rw [hc] at h1
    exact Bool.noConfusion h1
  · intro p hp
    constructor
    · cases hb : isPlaceholderKey p.1
      · rfl
      · exfalso
        have : d.any (fun p => isPlaceholderKey p.1) = true :=
          List.any_eq_true.mpr ⟨p, hp, hb⟩
        rw [this] at h2
        exact Bool.noConfusion h2
    · cases hb : isIoTypeToken p.2
      · exfalso
        have : d.any (fun p => !(isIoTypeToken p.2)) = true :=
          List.any_eq_true.mpr ⟨p, hp, by rw [hb]; rfl⟩
        rw [this] at h3
        exact Bool.noConfusion h3
      · rfl

/-- The final sanitizing steps of `validateCommandIO`: filtering the
request/placeholder keys out of a token-valued dictionary, substituting
the fallback when the rest is empty, and sorting, yields a non-empty
placeholder-free token-valued dictionary. -/
theorem sanitize_good (d2 fb : List (String × String)) (hfb : fb ≠ [])
    (hfbgood : ∀ p ∈ fb, isPlaceholderKey p.1 = false ∧ isIoTypeToken p.2 = true)
    (hd2 : ∀ p ∈ d2, isIoTypeToken p.2 = true) :
    sortPairs (if (d2.filter (fun p => !(p.1 == "request") &&
          !(isPlaceholderKey p.1))).isEmpty then fb
        else d2.filter (fun p => !(p.1 == "request") && !(isPlaceholderKey p.1))) ≠ [] ∧
    ∀ p ∈ sortPairs (if (d2.filter (fun p => !(p.1 == "request") &&
          !(isPlaceholderKey p.1))).isEmpty then fb
        else d2.filter (fun p => !(p.1 == "request") && !(isPlaceholderKey p.1))),
      isPlaceholderKey p.1 = false ∧ isIoTypeToken p.2 = true := by
  by_cases h3 : (d2.filter (fun p => !(p.1 == "request") &&
      !(isPlaceholderKey p.1))).isEmpty = true
  · rw [if_pos h3]
    constructor
    · intro hc
      have hc' : sortByB pairLe fb = [] := hc
      have hlen := (sortByB_perm pairLe fb).length_eq
      rw [hc'] at hlen
      cases fb with
      | nil => exact hfb rfl
      | cons x xs => exact Nat.noConfusion hlen
    · intro p hp
      exact hfbgood p (mem_sortByB.mp hp)
  · rw [if_neg h3]
    constructor
    · intro hc
      have hc' : sortByB pairLe (d2.filter (fun p => !(p.1 == "request") &&
        !(isPlaceholderKey p.1))) = [] := hc
      have hlen := (sortByB_perm pairLe (d2.filter (fun p => !(p.1 == "request") &&
        !(isPlaceholderKey p.1)))).length_eq
      rw [hc'] at hlen
      cases he : d2.filter (fun p => !(p.1 == "request") && !(isPlaceholderKey p.1)) with
      | nil => exact h3 (by rw [he]; rfl)
      | cons x xs =>
        rw [he] at hlen
        exact Nat.noConfusion hlen
    · intro p hp
      have hp' := mem_sortByB.mp hp
      rcases List.mem_filter.mp hp' with ⟨hmem, hcond⟩
      refine ⟨?_, hd2 p hmem⟩
      cases hb : isPlaceholderKey p.1
      · rfl
      · exfalso
        rw [hb] at hcond
        simp at hcond

/-- The tail of the `validateCommandIO` pipeline from the first
revalidation on: whatever the repaired dictionary `d1` is, the result is
non-empty, placeholder-free and token-valued. -/
theorem io_pipeline_good (d1 fb : List (String × String)) (hfb : fb ≠ [])
    (hfbgood : ∀ p ∈ fb, isPlaceholderKey p.1 = false ∧ isIoTypeToken p.2 = true) :
    sortPairs (if ((if isInvalidIoFieldDict d1 then fb else d1).filter
          (fun p => !(p.1 == "request") && !(isPlaceholderKey p.1))).isEmpty then fb
        else (if isInvalidIoFieldDict d1 then fb else d1).filter
          (fun p => !(p.1 == "request") && !(isPlaceholderKey p.1))) ≠ [] ∧
    ∀ p ∈ sortPairs (if ((if isInvalidIoFieldDict d1 then fb else d1).filter
          (fun p => !(p.1 == "request") && !(isPlaceholderKey p.1))).isEmpty then fb
        else (if isInvalidIoFieldDict d1 then fb else d1).filter
          (fun p => !(p.1 == "request") && !(isPlaceholderKey p.1))),
      isPlaceholderKey p.1 = false ∧ isIoTypeToken p.2 = true := by
  refine sanitize_good (if isInvalidIoFieldDict d1 then fb else d1) fb hfb hfbgood ?_
  by_cases hinv : isInvalidIoFieldDict d1 = true
  · rw [if_pos hinv]
    intro p hp
    exact (hfbgood p hp).2
  · rw [if_neg hinv]
    intro p hp
    exact ((isInvalidIoFieldDict_false (bool_eq_false hinv)).2 p hp).2

/-- `validateCommandIO` always returns non-empty, placeholder-free,
token-valued input and output dictionaries. -/
theorem validateCommandIo_good (name purpose : String) (input output : Option JVal)
    (tables : List Table) :
    ((validateCommandIo name purpose input output tables).1 ≠ [] ∧
     ∀ p ∈ (validateCommandIo name purpose input output tables).1,
       isPlaceholderKey p.1 = false ∧ isIoTypeToken p.2 = true) ∧
    ((validateCommandIo name purpose input output tables).2 ≠ [] ∧
     ∀ p ∈ (validateCommandIo name purpose input output tables).2,
       isPlaceholderKey p.1 = false ∧ isIoTypeToken p.2 = true) := by
  constructor
  · exact io_pipeline_good
      (if isInvalidIoFieldDict (toIoFieldDict input) then
        (let a := mergeMissing (toIoFieldDict input) (buildCommandTemplate name).1
         if !(buildPayloadFromTable tables.head?).isEmpty then
           mergeMissing a (buildPayloadFromTable tables.head?) else a)
       else toIoFieldDict input)
      [("payload", "json")] (by intro hc; exact List.noConfusion hc) (by decide)
  · exact io_pipeline_good
      (if isInvalidIoFieldDict (toIoFieldDict output) then
        (let b := mergeMissing (toIoFieldDict output) (buildCommandTemplate name).2
         if hasMutationWord (name ++ " " ++ purpose) then
           mergeMissing b [("ok", "boolean")] else b)
       else toIoFieldDict output)
      [("ok", "boolean"), ("result", "json?")]
      (by intro hc; exact List.noConfusion hc) (by decide)

/-- Every command produced by the uniquing loop carries I/O dictionaries
returned by `validateCommandIO`. -/
theorem commandsUnique_mem (tables : List Table) :
    ∀ (cs : List CommandW) (used : List String) (cmd : Command),
      cmd ∈ commandsUnique tables cs used →
      ∃ (n : String) (c : CommandW),
        cmd.input = (validateCommandIo n c.purpose c.input c.output tables).1 ∧
        cmd.output = (validateCommandIo n c.purpose c.input c.output tables).2 := by
  intro cs
  induction cs with
  | nil =>
    intro used cmd h
    exact absurd h (List.not_mem_nil cmd)
  | cons c rest ihr =>
    intro used cmd h
    simp only [commandsUnique] at h
    rcases List.mem_cons.mp h with rfl | hm
    · exact ⟨uniqueName c.name used, c, rfl, rfl⟩
    · exact ihr _ cmd hm

/-- C2. For every Wire Document, every command of the normalized document has
non-empty input and output dictionaries, no placeholder key (placeholder,
todo, tbd, example, dummy, mock, case-insensitive), and every value is one of
the fixed I/O type tokens string, boolean, int, float, timestamp, json,
optionally suffixed with a question mark. -/
theorem command_io_invariant (w : WireDoc) :
    ∀ cmd ∈ (normalizeWireToCanonical w).rust_commands,
      cmd.input ≠ [] ∧ cmd.output ≠ [] ∧
      (∀ p ∈ cmd.input, isPlaceholderKey p.1 = false ∧ isIoTypeToken p.2 = true) ∧
      (∀ p ∈ cmd.output, isPlaceholderKey p.1 = false ∧ isIoTypeToken p.2 = true) := by
  intro cmd hc
  have hrw : (normalizeWireToCanonical w).rust_commands =
      sortCommands (commandsUnique (normTables w) (normCommandsRaw w) []) := rfl
  rw [hrw] at hc
  have hc' : cmd ∈ commandsUnique (normTables w) (normCommandsRaw w) [] :=
    mem_sortByB.mp hc
  obtain ⟨n, c, hi, ho⟩ :=
    commandsUnique_mem (normTables w) (normCommandsRaw w) [] cmd hc'
  have h := validateCommandIo_good n c.purpose c.input c.output (normTables w)
  rw [hi, ho]
  exact ⟨h.1.1, h.2.1, h.1.2, h.2.2⟩

/-- C2 witness: the invariant instantiated on the empty Wire Document and its
single default command. -/
theorem command_io_invariant_witness :
    (⟨"run_main_flow", "Execute core flow", true,
      [("created_at", "string"), ("payload", "json")],
      [("ok", "boolean"), ("result", "json?")]⟩ : Command).input ≠ [] ∧
    isIoTypeToken "json" = true :=
  ⟨(command_io_invariant ⟨none, none, none, none, none, none⟩
      ⟨"run_main_flow", "Execute core flow", true,
        [("created_at", "string"), ("payload", "json")],
        [("ok", "boolean"), ("result", "json?")]⟩ (by decide)).1,
   ((command_io_invariant ⟨none, none, none, none, none, none⟩
      ⟨"run_main_flow", "Execute core flow", true,
        [("created_at", "string"), ("payload", "json")],
        [("ok", "boolean"), ("result", "json?")]⟩ (by decide)).2.2.1
      ("payload", "json") (by decide)).2⟩

/-! ## Claim C7: sibling name uniqueness -/

/-- The screen uniquing loop emits names outside the used set, pairwise
distinct. -/
theorem screensUnique_nodup : ∀ (l : List Screen) (used : List String),
    (∀ x ∈ (screensUnique l used).map Screen.name, x ∉ used) ∧
    ((screensUnique l used).map Screen.name).Nodup := by
  intro l
  induction l with
  | nil =>
    intro used
    exact ⟨fun x hx => absurd hx (List.not_mem_nil x), List.nodup_nil⟩
  | cons s rest ih =>
    intro used
    simp only [screensUnique, List.map_cons]
    constructor
    · intro x hx
      rcases List.mem_cons.mp hx with rfl | hx'
      · exact uniqueName_not_mem s.name used
      · intro hu
        exact (ih (uniqueName s.name used :: used)).1 x hx'
          (List.mem_cons_of_mem _ hu)
    · refine List.nodup_cons.mpr ⟨?_, (ih (uniqueName s.name used :: used)).2⟩
      intro hmem
      exact (ih (uniqueName s.name used :: used)).1 _ hmem
        (List.mem_cons_self _ _)

theorem commandsUnique_nodup (tables : List Table) :
    ∀ (l : List CommandW) (used : List String),
    (∀ x ∈ (commandsUnique tables l used).map Command.name, x ∉ used) ∧
    ((commandsUnique tables l used).map Command.name).Nodup := by
  intro l
  induction l with
  | nil =>
    intro used
    exact ⟨fun x hx => absurd hx (List.not_mem_nil x), List.nodup_nil⟩
  | cons c rest ih =>
    intro used
    simp only [commandsUnique, List.map_cons]
    constructor
    · intro x hx
      rcases List.mem_cons.mp hx with rfl | hx'
      · exact uniqueName_not_mem c.name used
      · intro hu
        exact (ih (uniqueName c.name used :: used)).1 x hx'
          (List.mem_cons_of_mem _ hu)
    · refine List.nodup_cons.mpr ⟨?_, (ih (uniqueName c.name used :: used)).2⟩
      intro hmem
      exact (ih (uniqueName c.name used :: used)).1 _ hmem
        (List.mem_cons_self _ _)

theorem tablesUnique_nodup : ∀ (l : List Table) (used : List String),
    (∀ x ∈ (tablesUnique l used).map Table.name, x ∉ used) ∧
    ((tablesUnique l used).map Table.name).Nodup := by
  intro l
  induction l with
  | nil =>
    intro used
    exact ⟨fun x hx => absurd hx (List.not_mem_nil x), List.nodup_nil⟩
  | cons t rest ih =>
    intro used
    simp only [tablesUnique, List.map_cons]
    constructor
    · intro x hx
      rcases List.mem_cons.mp hx with rfl | hx'
      · exact uniqueName_not_mem t.name used
      · intro hu
        exact (ih (uniqueName t.name used :: used)).1 x hx'
          (List.mem_cons_of_mem _ hu)
    · refine List.nodup_cons.mpr ⟨?_, (ih (uniqueName t.name used :: used)).2⟩
      intro hmem
      exact (ih (uniqueName t.name used :: used)).1 _ hmem
        (List.mem_cons_self _ _)

theorem columnsUnique_nodup : ∀ (l : List Column) (used : List String),
    (∀ x ∈ (columnsUnique l used).map Column.name, x ∉ used) ∧
    ((columnsUnique l used).map Column.name).Nodup := by
  intro l
  induction l with
  | nil =>
    intro used
    exact ⟨fun x hx => absurd hx (List.not_mem_nil x), List.nodup_nil⟩
  | cons c rest ih =>
    intro used
    simp only [columnsUnique, List.map_cons]
    constructor
    · intro x hx
      rcases List.mem_cons.mp hx with rfl | hx'
      · exact uniqueName_not_mem c.name used
      · intro hu
        exact (ih (uniqueName c.name used :: used)).1 x hx'
          (List.mem_cons_of_mem _ hu)
    · refine List.nodup_cons.mpr ⟨?_, (ih (uniqueName c.name used :: used)).2⟩
      intro hmem
      exact (ih (uniqueName c.name used :: used)).1 _ hmem
        (List.mem_cons_self _ _)

/-- Output names of the screen loop correspond in order to the inputs:
the trimmed base name, or that base with an `_n` suffix, `n ≥ 2`. -/
theorem screensUnique_shape : ∀ (l : List Screen) (used : List String),
    List.Forall₂ (fun (s o : Screen) => o.name = trimBase s.name ∨
      ∃ n, 2 ≤ n ∧ o.name = trimBase s.name ++ "_" ++ Nat.repr n)
      l (screensUnique l used) := by
  intro l
  induction l with
  | nil => intro used; exact List.Forall₂.nil
  | cons s rest ih =>
    intro used
    simp only [screensUnique]
    exact List.Forall₂.cons (uniqueName_shape s.name used) (ih _)

theorem commandsUnique_shape (tables : List Table) :
    ∀ (l : List CommandW) (used : List String),
    List.Forall₂ (fun (c : CommandW) (o : Command) => o.name = trimBase c.name ∨
      ∃ n, 2 ≤ n ∧ o.name = trimBase c.name ++ "_" ++ Nat.repr n)
      l (commandsUnique tables l used) := by
  intro l
  induction l with
  | nil => intro used; exact List.Forall₂.nil
  | cons c rest ih =>
    intro used
    simp only [commandsUnique]
    exact List.Forall₂.cons (uniqueName_shape c.name used) (ih _)

theorem tablesUnique_shape : ∀ (l : List Table) (used : List String),
    List.Forall₂ (fun (t o : Table) => o.name = trimBase t.name ∨
      ∃ n, 2 ≤ n ∧ o.name = trimBase t.name ++ "_" ++ Nat.repr n)
      l (tablesUnique l used) := by
  intro l
  induction l with
  | nil => intro used; exact List.Forall₂.nil
  | cons t rest ih =>
    intro used
    simp only [tablesUnique]
    exact List.Forall₂.cons (uniqueName_shape t.name used) (ih _)

theorem columnsUnique_shape : ∀ (l : List Column) (used : List String),
    List.Forall₂ (fun (c o : Column) => o.name = trimBase c.name ∨
      ∃ n, 2 ≤ n ∧ o.name = trimBase c.name ++ "_" ++ Nat.repr n)
      l (columnsUnique l used) := by
  intro l
  induction l with
  | nil => intro used; exact List.Forall₂.nil
  | cons c rest ih =>
    intro used
    simp only [columnsUnique]
    exact List.Forall₂.cons (uniqueName_shape c.name used) (ih _)

/-- Every table of the uniquing loop carries column lists produced by
sorting the column uniquing loop. -/
theorem tablesUnique_mem : ∀ (l : List Table) (used : List String) (t : Table),
    t ∈ tablesUnique l used →
    ∃ (t0 : Table) (n : String),
      t = ⟨n, sortColumns (columnsUnique t0.columns [])⟩ := by
  intro l
  induction l with
  | nil =>
    intro used t h
    exact absurd h (List.not_mem_nil t)
  | cons t1 rest ih =>
    intro used t h
    simp only [tablesUnique] at h
    rcases List.mem_cons.mp h with rfl | hm
    · exact ⟨t1, uniqueName t1.name used, rfl⟩
    · exact ih _ t hm

theorem sorted_screens_nodup (l : List Screen) :
    ((sortScreens (screensUnique l [])).map Screen.name).Nodup :=
  (((sortByB_perm (fun (a b : Screen) => strLe a.name b.name)
    (screensUnique l [])).map Screen.name).nodup_iff).mpr (screensUnique_nodup l []).2

theorem sorted_commands_nodup (tables : List Table) (l : List CommandW) :
    ((sortCommands (commandsUnique tables l [])).map Command.name).Nodup :=
  (((sortByB_perm (fun (a b : Command) => strLe a.name b.name)
    (commandsUnique tables l [])).map Command.name).nodup_iff).mpr
    (commandsUnique_nodup tables l []).2

theorem sorted_tables_nodup (l : List Table) :
    ((sortTables (tablesUnique l [])).map Table.name).Nodup :=
  (((sortByB_perm (fun (a b : Table) => strLe a.name b.name)
    (tablesUnique l [])).map Table.name).nodup_iff).mpr (tablesUnique_nodup l []).2

theorem sorted_tables_columns_nodup (l : List Table) :
    ∀ t ∈ sortTables (tablesUnique l []), (t.columns.map Column.name).Nodup := by
  intro t ht
  obtain ⟨t0, n, rfl⟩ := tablesUnique_mem l [] t (mem_sortByB.mp ht)
  exact (((sortByB_perm (fun (a b : Column) => strLe a.name b.name)
    (columnsUnique t0.columns [])).map Column.name).nodup_iff).mpr
    (columnsUnique_nodup t0.columns []).2

/-- C7. For every Wire Document, the normalized screens, commands and tables
have pairwise-distinct names, and within every table the column names are
pairwise distinct; the uniquing loops assign, in input order, either the
trimmed base name or the base followed by an `_n` suffix with `n ≥ 2`; and a
Wire Document with two commands both named "save" normalizes to commands
named "save" and "save_2". -/
theorem name_uniqueness (w : WireDoc) :
    ((normalizeWireToCanonical w).screens.map Screen.name).Nodup ∧
    ((normalizeWireToCanonical w).rust_commands.map Command.name).Nodup ∧
    ((normalizeWireToCanonical w).data_model.tables.map Table.name).Nodup ∧
    (∀ t ∈ (normalizeWireToCanonical w).data_model.tables,
      (t.columns.map Column.name).Nodup) ∧
    (∀ (l : List Screen) (used : List String),
      List.Forall₂ (fun (s o : Screen) => o.name = trimBase s.name ∨
        ∃ n, 2 ≤ n ∧ o.name = trimBase s.name ++ "_" ++ Nat.repr n)
        l (screensUnique l used)) ∧
    (∀ (tables : List Table) (l : List CommandW) (used : List String),
      List.Forall₂ (fun (c : CommandW) (o : Command) => o.name = trimBase c.name ∨
        ∃ n, 2 ≤ n ∧ o.name = trimBase c.name ++ "_" ++ Nat.repr n)
        l (commandsUnique tables l used)) ∧
    (∀ (l : List Table) (used : List String),
      List.Forall₂ (fun (t o : Table) => o.name = trimBase t.name ∨
        ∃ n, 2 ≤ n ∧ o.name = trimBase t.name ++ "_" ++ Nat.repr n)
        l (tablesUnique l used)) ∧
    (∀ (l : List Column) (used : List String),
      List.Forall₂ (fun (c o : Column) => o.name = trimBase c.name ∨
        ∃ n, 2 ≤ n ∧ o.name = trimBase c.name ++ "_" ++ Nat.repr n)
        l (columnsUnique l used)) ∧
    ((normalizeWireToCanonical (⟨none, none,
        some [Sum.inr ⟨some "save", none, none, none, none⟩,
          Sum.inr ⟨some "save", none, none, none, none⟩],
        none, none, none⟩ : WireDoc)).rust_commands.map Command.name) =
      ["save", "save_2"] :=
  ⟨sorted_screens_nodup _, sorted_commands_nodup _ _, sorted_tables_nodup _,
   sorted_tables_columns_nodup _, screensUnique_shape, commandsUnique_shape,
   tablesUnique_shape, columnsUnique_shape, rfl⟩

/-- C7 witness: the default table of the empty Wire Document has distinct
column names. -/
theorem name_uniqueness_witness :
    (((⟨"records", [⟨"created_at", "TEXT"⟩, ⟨"id", "TEXT"⟩]⟩ : Table).columns.map
      Column.name).Nodup) :=
  (name_uniqueness ⟨none, none, none, none, none, none⟩).2.2.2.1
    ⟨"records", [⟨"created_at", "TEXT"⟩, ⟨"id", "TEXT"⟩]⟩ (by decide)

/-! ## Claim C9: idempotence of normalization -/

theorem asString_of_trim {s : String} (fb : String) (h : jsTrim s ≠ "") :
    asString (some s) fb = s := by
  unfold asString
  dsimp only
  rw [if_neg h]

theorem asString_trim_ne (v : Option String) {fb : String} (h : jsTrim fb ≠ "") :
    jsTrim (asString v fb) ≠ "" := by
  cases v with
  | none => exact h
  | some s =>
    unfold asString
    dsimp only
    by_cases hs : jsTrim s = ""
    · rw [if_pos hs]
      exact h
    · rw [if_neg hs]
      exact hs

/-- Deduplicate-then-sort is a fixpoint of itself. -/
theorem sortStr_dedup_fix (l : List String) :
    sortStr (dedupFirst (sortStr (dedupFirst l))) = sortStr (dedupFirst l) := by
  have hnd : (sortStr (dedupFirst l)).Nodup :=
    ((sortByB_perm strLe (dedupFirst l)).nodup_iff).mpr (dedupFirst_nodup l)
  rw [dedupFirst_of_nodup hnd]
  exact sortStr_of_sorted (sortStr_sorted (dedupFirst l))

theorem dropWhile_ne_nil {p : Char → Bool} {l : List Char} {c : Char}
    (hc : c ∈ l) (hp : p c = false) : l.dropWhile p ≠ [] := by
  induction l with
  | nil => exact absurd hc (List.not_mem_nil c)
  | cons x xs ih =>
    by_cases hx : p x = true
    · rw [List.dropWhile_cons_of_pos hx]
      rcases List.mem_cons.mp hc with rfl | hc'
      · simp [hx] at hp
      · exact ih hc'
    · rw [List.dropWhile_cons_of_neg hx]
      exact List.cons_ne_nil x xs

/-- A string holding a non-whitespace character does not trim to empty. -/
theorem jsTrim_ne_of_mem {s : String} {c : Char} (hc : c ∈ s.data)
    (hp : jsWs c = false) : jsTrim s ≠ "" := by
  intro hcontra
  have hdata : (jsTrim s).data = [] := by rw [hcontra]
  rw [jsTrim_data] at hdata
  unfold trimChars at hdata
  have h1 : s.data.dropWhile jsWs ≠ [] := dropWhile_ne_nil hc hp
  obtain ⟨d, t, hdt⟩ : ∃ d t, s.data.dropWhile jsWs = d :: t := by
    cases hd : s.data.dropWhile jsWs with
    | nil => exact absurd hd h1
    | cons d t => exact ⟨d, t, rfl⟩
  have hdns : jsWs d = false := by
    refine bool_eq_false ?_
    have hh := dropWhile_head_not (p := jsWs) (l := s.data)
    rw [hdt] at hh
    exact hh d rfl
  have hdmem : d ∈ (s.data.dropWhile jsWs).reverse := by
    rw [hdt]
    exact List.mem_reverse.mpr (List.mem_cons_self d t)
  have h2 : (s.data.dropWhile jsWs).reverse.dropWhile jsWs ≠ [] :=
    dropWhile_ne_nil hdmem hdns
  rw [List.reverse_eq_nil_iff] at hdata
  exact h2 hdata

/-- All twelve I/O type tokens. -/
theorem token_cases {v : String} (h : isIoTypeToken v = true) :
    v ∈ ["string", "boolean", "int", "float", "timestamp", "json",
      "string?", "boolean?", "int?", "float?", "timestamp?", "json?"] := by
  unfold isIoTypeToken at h
  rcases Bool.or_eq_true_iff.mp h with h1 | h2
  · have hv := contains_true_iff.mp h1
    simp only [ioBaseTokens, List.mem_cons, List.not_mem_nil, or_false] at hv
    rcases hv with rfl | rfl | rfl | rfl | rfl | rfl <;> decide
  · have hq : (v.data.getLast? == some '?') = true := by
      cases hgl : (v.data.getLast? == some '?')
      · rw [hgl, Bool.false_and] at h2
        exact Bool.noConfusion h2
      · rfl
    have hbase : ioBaseTokens.contains (⟨v.data.dropLast⟩ : String) = true := by
      cases hgb : ioBaseTokens.contains (⟨v.data.dropLast⟩ : String)
      · rw [hgb, Bool.and_false] at h2
        exact Bool.noConfusion h2
      · rfl
    have hlast : v.data.getLast? = some '?' := eq_of_beq hq
    have hne : v.data ≠ [] := by
      intro hcn
      rw [hcn] at hlast
      exact Option.noConfusion hlast
    have hvdata : v.data = v.data.dropLast ++ ['?'] := by
      have h3 := List.dropLast_append_getLast hne
      have h4 : v.data.getLast hne = '?' := by
        have h5 := List.getLast?_eq_getLast v.data hne
        rw [h5] at hlast
        exact Option.some.inj hlast
      rw [h4] at h3
      exact h3.symm
    have hb := contains_true_iff.mp hbase
    simp only [ioBaseTokens, List.mem_cons, List.not_mem_nil, or_false] at hb
    rw [show v.data.dropLast = String.data ⟨v.data.dropLast⟩ from rfl] at hvdata
    rcases hb with hb | hb | hb | hb | hb | hb <;>
      (rw [hb] at hvdata
       rw [string_eq_of_data (hvdata.trans rfl)]
       decide)

theorem maybeIo_fix : ∀ v ∈ ["string", "boolean", "int", "float", "timestamp",
    "json", "string?", "boolean?", "int?", "float?", "timestamp?", "json?"],
    maybeIoTypeString v = some v := by decide

theorem scalar_fix {v : String} (h : isIoTypeToken v = true) :
    scalarToIoType (JVal.jstr v) = some v := by
  have hm : maybeIoTypeString v = some v := maybeIo_fix v (token_cases h)
  show some ((maybeIoTypeString v).getD "string") = some v
  rw [hm]
  rfl

theorem maybeIo_token (s : String) :
    isIoTypeToken ((maybeIoTypeString s).getD "string") = true := by
  unfold maybeIoTypeString
  dsimp only
  generalize jsLower (jsTrim s) = n
  by_cases h1 : n = ""
  · rw [if_pos h1]
    rfl
  · rw [if_neg h1]
    by_cases h2 : isIoTypeToken n = true
    · rw [if_pos h2]
      exact h2
    · rw [if_neg h2]
      split <;> rfl

theorem scalarToIoType_token {v : JVal} {t : String}
    (h : scalarToIoType v = some t) : isIoTypeToken t = true := by
  cases v with
  | jstr s =>
    have ht : t = (maybeIoTypeString s).getD "string" := (Option.some.inj h).symm
    rw [ht]
    exact maybeIo_token s
  | jbool b =>
    rw [← Option.some.inj h]
    rfl
  | jnum isInt =>
    rw [← Option.some.inj h]
    cases isInt <;> rfl
  | jnull => exact Option.noConfusion h
  | jarr l =>
    rw [← Option.some.inj h]
    rfl
  | jobj fs =>
    rw [← Option.some.inj h]
    rfl

/-- Every entry of a `jsSpread` carries a key of `a` or is an entry of `b`. -/
theorem jsSpread_keys {α : Type} {a b : List (String × α)} :
    ∀ p ∈ jsSpread a b, (∃ q ∈ a, p.1 = q.1) ∨ p ∈ b := by
  intro p hp
  rcases List.mem_append.mp hp with hl | hr
  · obtain ⟨q, hq, hpq⟩ := List.mem_map.mp hl
    left
    refine ⟨q, hq, ?_⟩
    rw [← hpq]
    cases lookupFirst b q.1 <;> rfl
  · right
    exact (List.mem_filter.mp hr).1

theorem jsSpread_key_trim {α : Type} {a b : List (String × α)}
    (ha : ∀ p ∈ a, jsTrim p.1 ≠ "") (hb : ∀ p ∈ b, jsTrim p.1 ≠ "") :
    ∀ p ∈ jsSpread a b, jsTrim p.1 ≠ "" := by
  intro p hp
  rcases jsSpread_keys p hp with ⟨q, hq, hkey⟩ | hp'
  · rw [hkey]
    exact ha q hq
  · exact hb p hp'

/-- Entries of `toIoFieldDict` have non-blank keys, no placeholder key, and
token values. -/
theorem toIoFieldDict_props (input : Option JVal) :
    ∀ p ∈ toIoFieldDict input,
      jsTrim p.1 ≠ "" ∧ isPlaceholderKey p.1 = false ∧ isIoTypeToken p.2 = true := by
  intro p hp
  unfold toIoFieldDict at hp
  cases hu : unwrapRequest input with
  | none =>
    rw [hu] at hp
    exact absurd hp (List.not_mem_nil p)
  | some jv =>
    cases jv with
    | jobj fs =>
      rw [hu] at hp
      obtain ⟨q, hq, hf⟩ := List.mem_filterMap.mp hp
      by_cases ht : jsTrim q.1 = ""
      · rw [if_pos ht] at hf
        exact Option.noConfusion hf
      · rw [if_neg ht] at hf
        by_cases hpl : isPlaceholderKey q.1 = true
        · rw [if_pos hpl] at hf
          exact Option.noConfusion hf
        · rw [if_neg hpl] at hf
          obtain ⟨t, hsc, hpt⟩ := Option.map_eq_some'.mp hf
          rw [← hpt]
          exact ⟨ht, bool_eq_false hpl, scalarToIoType_token hsc⟩
    | jnull => rw [hu] at hp; exact absurd hp (List.not_mem_nil p)
    | jbool b => rw [hu] at hp; exact absurd hp (List.not_mem_nil p)
    | jnum i => rw [hu] at hp; exact absurd hp (List.not_mem_nil p)
    | jstr s => rw [hu] at hp; exact absurd hp (List.not_mem_nil p)
    | jarr l => rw [hu] at hp; exact absurd hp (List.not_mem_nil p)

theorem ioTypeFromColumnType_token (t : String) :
    isIoTypeToken (ioTypeFromColumnType t) = true := by
  unfold ioTypeFromColumnType
  split <;> rfl

theorem template_in_props (name : String) :
    ∀ p ∈ (buildCommandTemplate name).1, jsTrim p.1 ≠ "" ∧ isIoTypeToken p.2 = true := by
  unfold buildCommandTemplate
  dsimp only
  split_ifs <;> (intro p hp; fin_cases hp <;> exact ⟨by decide, by decide⟩)

theorem template_out_props (name : String) :
    ∀ p ∈ (buildCommandTemplate name).2, jsTrim p.1 ≠ "" ∧ isIoTypeToken p.2 = true := by
  unfold buildCommandTemplate
  dsimp only
  split_ifs <;> (intro p hp; fin_cases hp <;> exact ⟨by decide, by decide⟩)

theorem buildPayload_props (ot : Option Table)
    (h : ∀ t, ot = some t → ∀ c ∈ t.columns, jsTrim c.name ≠ "") :
    ∀ p ∈ buildPayloadFromTable ot, jsTrim p.1 ≠ "" ∧ isIoTypeToken p.2 = true := by
  cases ot with
  | none =>
    intro p hp
    exact absurd hp (List.not_mem_nil p)
  | some t =>
    intro p hp
    unfold buildPayloadFromTable at hp
    dsimp only at hp
    by_cases he : t.columns.isEmpty = true
    · rw [if_pos he] at hp
      exact absurd hp (List.not_mem_nil p)
    · rw [if_neg he] at hp
      obtain ⟨c, hc, hpc⟩ := List.mem_map.mp hp
      have hc' : c ∈ t.columns :=
        (List.mem_filter.mp (List.mem_of_mem_take hc)).1
      rw [← hpc]
      exact ⟨h t rfl c hc', ioTypeFromColumnType_token c.type⟩

/-- Entry invariant of normalized command I/O dictionaries. -/
def GoodPair (p : String × String) : Prop :=
  jsTrim p.1 ≠ "" ∧ p.1 ≠ "request" ∧ isPlaceholderKey p.1 = false ∧
    isIoTypeToken p.2 = true

/-- Dictionary invariant of normalized command I/O dictionaries: non-empty,
key-sorted, every entry good. -/
def GoodDict (d : List (String × String)) : Prop :=
  d ≠ [] ∧ d.Pairwise (pairLe · ·) ∧ ∀ p ∈ d, GoodPair p

theorem pairLe_trans : ∀ x y z : String × String,
    pairLe x y → pairLe y z → pairLe x z := by
  intro x y z h1 h2
  exact strLe_trans x.1 y.1 z.1 h1 h2

theorem pairLe_total : ∀ x y : String × String, pairLe x y || pairLe y x := by
  intro x y
  exact strLe_total x.1 y.1

theorem string_ne_of_beq_false {a b : String} (h : (a == b) = false) : a ≠ b := by
  intro he
  rw [he] at h
  simp at h

/-- The sanitizing tail of `validateCommandIO` yields a good dictionary
whenever the entries arriving at it have non-blank keys and token values. -/
theorem sanitize_inv (d2 fb : List (String × String)) (hfb : fb ≠ [])
    (hfbgood : ∀ p ∈ fb, GoodPair p)
    (hd2 : ∀ p ∈ d2, jsTrim p.1 ≠ "" ∧ isIoTypeToken p.2 = true) :
    GoodDict (sortPairs (if (d2.filter (fun p => !(p.1 == "request") &&
        !(isPlaceholderKey p.1))).isEmpty then fb
      else d2.filter (fun p => !(p.1 == "request") && !(isPlaceholderKey p.1)))) := by
  refine ⟨?_, sortByB_sorted pairLe_trans pairLe_total _, ?_⟩
  · by_cases h3 : (d2.filter (fun p => !(p.1 == "request") &&
        !(isPlaceholderKey p.1))).isEmpty = true
    · rw [if_pos h3]
      intro hc
      have hc' : sortByB pairLe fb = [] := hc
      have hlen := (sortByB_perm pairLe fb).length_eq
      rw [hc'] at hlen
      cases fb with
      | nil => exact hfb rfl
      | cons x xs => exact Nat.noConfusion hlen
    · rw [if_neg h3]
      intro hc
      have hc' : sortByB pairLe (d2.filter (fun p => !(p.1 == "request") &&
        !(isPlaceholderKey p.1))) = [] := hc
      have hlen := (sortByB_perm pairLe (d2.filter (fun p => !(p.1 == "request") &&
        !(isPlaceholderKey p.1)))).length_eq
      rw [hc'] at hlen
      cases he : d2.filter (fun p => !(p.1 == "request") && !(isPlaceholderKey p.1)) with
      | nil => exact h3 (by rw [he]; rfl)
      | cons x xs =>
        rw [he] at hlen
        exact Nat.noConfusion hlen
  · intro p hp
    have hp' := mem_sortByB.mp hp
    by_cases h3 : (d2.filter (fun p => !(p.1 == "request") &&
        !(isPlaceholderKey p.1))).isEmpty = true
    · rw [if_pos h3] at hp'
      exact hfbgood p hp'
    · rw [if_neg h3] at hp'
      rcases List.mem_filter.mp hp' with ⟨hmem, hcond⟩
      obtain ⟨hk, hv⟩ := hd2 p hmem
      have hreq : (p.1 == "request") = false := by
        cases hr : (p.1 == "request")
        · rfl
        · rw [hr] at hcond
          simp at hcond
      have hpl : isPlaceholderKey p.1 = false := by
        cases hq : isPlaceholderKey p.1
        · rfl
        · rw [hq] at hcond
          simp at hcond
      exact ⟨hk, string_ne_of_beq_false hreq, hpl, hv⟩

/-- The `validateCommandIO` pipeline from the first revalidation on yields a
good dictionary whenever the repaired dictionary has non-blank keys. -/
theorem pipeline_inv (d1 fb : List (String × String)) (hfb : fb ≠ [])
    (hfbgood : ∀ p ∈ fb, GoodPair p)
    (hd1 : ∀ p ∈ d1, jsTrim p.1 ≠ "") :
    GoodDict (sortPairs (if ((if isInvalidIoFieldDict d1 then fb else d1).filter
          (fun p => !(p.1 == "request") && !(isPlaceholderKey p.1))).isEmpty then fb
        else (if isInvalidIoFieldDict d1 then fb else d1).filter
          (fun p => !(p.1 == "request") && !(isPlaceholderKey p.1)))) := by
  refine sanitize_inv (if isInvalidIoFieldDict d1 then fb else d1) fb hfb hfbgood ?_
  by_cases hinv : isInvalidIoFieldDict d1 = true
  · rw [if_pos hinv]
    intro p hp
    exact ⟨(hfbgood p hp).1, (hfbgood p hp).2.2.2⟩
  · rw [if_neg hinv]
    intro p hp
    exact ⟨hd1 p hp, ((isInvalidIoFieldDict_false (bool_eq_false hinv)).2 p hp).2⟩

/-- `validateCommandIO` returns good dictionaries whenever the first table's
column names are non-blank. -/
theorem validateCommandIo_inv (name purpose : String) (input output : Option JVal)
    (tables : List Table)
    (htab : ∀ t, tables.head? = some t → ∀ c ∈ t.columns, jsTrim c.name ≠ "") :
    GoodDict (validateCommandIo name purpose input output tables).1 ∧
    GoodDict (validateCommandIo name purpose input output tables).2 := by
  constructor
  · refine pipeline_inv
      (if isInvalidIoFieldDict (toIoFieldDict input) then
        (let a := mergeMissing (toIoFieldDict input) (buildCommandTemplate name).1
         if !(buildPayloadFromTable tables.head?).isEmpty then
           mergeMissing a (buildPayloadFromTable tables.head?) else a)
       else toIoFieldDict input)
      [("payload", "json")] (by intro hc; exact List.noConfusion hc)
      (by intro p hp
          rcases List.mem_singleton.mp hp with rfl
          exact ⟨by decide, by decide, by decide, by decide⟩) ?_
    by_cases hinv : isInvalidIoFieldDict (toIoFieldDict input) = true
    · rw [if_pos hinv]
      dsimp only
      have hbase : ∀ p ∈ mergeMissing (toIoFieldDict input) (buildCommandTemplate name).1,
          jsTrim p.1 ≠ "" := by
        refine jsSpread_key_trim (fun p hp => (template_in_props name p hp).1)
          (fun p hp => (toIoFieldDict_props input p hp).1)
      by_cases hpe : (!(buildPayloadFromTable tables.head?).isEmpty) = true
      · rw [if_pos hpe]
        exact jsSpread_key_trim (fun p hp => (buildPayload_props tables.head? htab p hp).1)
          hbase
      · rw [if_neg hpe]
        exact hbase
    · rw [if_neg hinv]
      exact fun p hp => (toIoFieldDict_props input p hp).1
  · refine pipeline_inv
      (if isInvalidIoFieldDict (toIoFieldDict output) then
        (let b := mergeMissing (toIoFieldDict output) (buildCommandTemplate name).2
         if hasMutationWord (name ++ " " ++ purpose) then
           mergeMissing b [("ok", "boolean")] else b)
       else toIoFieldDict output)
      [("ok", "boolean"), ("result", "json?")] (by intro hc; exact List.noConfusion hc)
      (by intro p hp
          rcases List.mem_cons.mp hp with rfl | hp'
          · exact ⟨by decide, by decide, by decide, by decide⟩
          · rcases List.mem_singleton.mp hp' with rfl
            exact ⟨by decide, by decide, by decide, by decide⟩) ?_
    by_cases hinv : isInvalidIoFieldDict (toIoFieldDict output) = true
    · rw [if_pos hinv]
      dsimp only
      have hbase : ∀ p ∈ mergeMissing (toIoFieldDict output) (buildCommandTemplate name).2,
          jsTrim p.1 ≠ "" := by
        refine jsSpread_key_trim (fun p hp => (template_out_props name p hp).1)
          (fun p hp => (toIoFieldDict_props output p hp).1)
      by_cases hmw : hasMutationWord (name ++ " " ++ purpose) = true
      · rw [if_pos hmw]
        refine jsSpread_key_trim (fun p hp => ?_) hbase
        rcases List.mem_singleton.mp hp with rfl
        decide
      · rw [if_neg hmw]
        exact hbase
    · rw [if_neg hinv]
      exact fun p hp => (toIoFieldDict_props output p hp).1

theorem isInvalid_false_of_good (d : List (String × String)) (hne : d ≠ [])
    (hgood : ∀ p ∈ d, isPlaceholderKey p.1 = false ∧ isIoTypeToken p.2 = true) :
    isInvalidIoFieldDict d = false := by
  have h1 : d.isEmpty = false := by
    cases d with
    | nil => exact absurd rfl hne
    | cons x xs => rfl
  have h2 : d.any (fun p => isPlaceholderKey p.1) = false := by
    cases ha : d.any (fun p => isPlaceholderKey p.1)
    · rfl
    · exfalso
      obtain ⟨p, hp, hb⟩ := List.any_eq_true.mp ha
      rw [(hgood p hp).1] at hb
      exact Bool.noConfusion hb
  have h3 : d.any (fun p => !(isIoTypeToken p.2)) = false := by
    cases ha : d.any (fun p => !(isIoTypeToken p.2))
    · rfl
    · exfalso
      obtain ⟨p, hp, hb⟩ := List.any_eq_true.mp ha
      rw [(hgood p hp).2] at hb
      exact Bool.noConfusion hb
  unfold isInvalidIoFieldDict
  rw [h1, h2, h3]
  rfl

theorem lookupFirst_map_jstr {l : List (String × String)} {k : String} {v : JVal}
    (h : lookupFirst (l.map (fun q => (q.1, JVal.jstr q.2))) k = some v) :
    ∃ w, v = JVal.jstr w := by
  unfold lookupFirst at h
  obtain ⟨p, hfind, hv⟩ := Option.map_eq_some'.mp h
  have hp := List.mem_of_find?_eq_some hfind
  obtain ⟨q, _, hq⟩ := List.mem_map.mp hp
  refine ⟨q.2, ?_⟩
  rw [← hv, ← hq]

theorem unwrap_jobj_map (l : List (String × String)) :
    unwrapRequest (some (.jobj (l.map (fun q => (q.1, JVal.jstr q.2))))) =
      some (.jobj (l.map (fun q => (q.1, JVal.jstr q.2)))) := by
  unfold unwrapRequest
  dsimp only
  cases hl : lookupFirst (l.map (fun q => (q.1, JVal.jstr q.2))) "request" with
  | none => rfl
  | some v =>
    obtain ⟨w, rfl⟩ := lookupFirst_map_jstr hl
    rfl

theorem toIoFieldDict_roundtrip (d : List (String × String))
    (hgood : ∀ p ∈ d, jsTrim p.1 ≠ "" ∧ isPlaceholderKey p.1 = false ∧
      isIoTypeToken p.2 = true) :
    toIoFieldDict (some (.jobj (d.map (fun q => (q.1, JVal.jstr q.2))))) = d := by
  unfold toIoFieldDict
  rw [unwrap_jobj_map]
  dsimp only
  induction d with
  | nil => rfl
  | cons q rest ih =>
    have hq := hgood q (List.mem_cons_self q rest)
    rw [List.map_cons, List.filterMap_cons]
    have hg : (if jsTrim (q.1, JVal.jstr q.2).1 = "" then none
        else if isPlaceholderKey (q.1, JVal.jstr q.2).1 = true then none
        else (scalarToIoType (q.1, JVal.jstr q.2).2).map
          (fun t => ((q.1, JVal.jstr q.2).1, t))) = some q := by
      rw [if_neg hq.1, if_neg (by rw [hq.2.1]; exact Bool.noConfusion)]
      show (scalarToIoType (JVal.jstr q.2)).map (fun t => (q.1, t)) = some q
      rw [scalar_fix hq.2.2]
      rfl
    rw [hg]
    rw [ih (fun p hp => hgood p (List.mem_cons_of_mem q hp))]

theorem filter_id_of_good (d : List (String × String))
    (hgood : ∀ p ∈ d, p.1 ≠ "request" ∧ isPlaceholderKey p.1 = false) :
    d.filter (fun p => !(p.1 == "request") && !(isPlaceholderKey p.1)) = d := by
  refine List.filter_eq_self.mpr ?_
  intro p hp
  have hreq : (p.1 == "request") = false := by
    cases hb : (p.1 == "request")
    · rfl
    · exact absurd (eq_of_beq hb) (hgood p hp).1
  rw [hreq, (hgood p hp).2]
  rfl

/-- A good dictionary pair fed back into `validateCommandIO` as JSON objects
is returned unchanged. -/
theorem validateCommandIo_fixpoint (name purpose : String) (tables : List Table)
    (d e : List (String × String)) (hd : GoodDict d) (he : GoodDict e) :
    validateCommandIo name purpose
      (some (.jobj (d.map (fun q => (q.1, JVal.jstr q.2)))))
      (some (.jobj (e.map (fun q => (q.1, JVal.jstr q.2))))) tables = (d, e) := by
  obtain ⟨hdne, hdsort, hdgood⟩ := hd
  obtain ⟨hene, hesort, hegood⟩ := he
  have hi0 : toIoFieldDict (some (.jobj (d.map (fun q => (q.1, JVal.jstr q.2))))) = d :=
    toIoFieldDict_roundtrip d (fun p hp =>
      ⟨(hdgood p hp).1, (hdgood p hp).2.2.1, (hdgood p hp).2.2.2⟩)
  have ho0 : toIoFieldDict (some (.jobj (e.map (fun q => (q.1, JVal.jstr q.2))))) = e :=
    toIoFieldDict_roundtrip e (fun p hp =>
      ⟨(hegood p hp).1, (hegood p hp).2.2.1, (hegood p hp).2.2.2⟩)
  have hdval : isInvalidIoFieldDict d = false :=
    isInvalid_false_of_good d hdne (fun p hp =>
      ⟨(hdgood p hp).2.2.1, (hdgood p hp).2.2.2⟩)
  have heval : isInvalidIoFieldDict e = false :=
    isInvalid_false_of_good e hene (fun p hp =>
      ⟨(hegood p hp).2.2.1, (hegood p hp).2.2.2⟩)
  have hdfil : d.filter (fun p => !(p.1 == "request") && !(isPlaceholderKey p.1)) = d :=
    filter_id_of_good d (fun p hp => ⟨(hdgood p hp).2.1, (hdgood p hp).2.2.1⟩)
  have hefil : e.filter (fun p => !(p.1 == "request") && !(isPlaceholderKey p.1)) = e :=
    filter_id_of_good e (fun p hp => ⟨(hegood p hp).2.1, (hegood p hp).2.2.1⟩)
  have hde : d.isEmpty = false := by
    cases d with
    | nil => exact absurd rfl hdne
    | cons x xs => rfl
  have hee : e.isEmpty = false := by
    cases e with
    | nil => exact absurd rfl hene
    | cons x xs => rfl
  unfold validateCommandIo
  dsimp only
  rw [hi0, ho0]
  simp only [hdval, heval, Bool.false_eq_true, if_false, hdfil, hefil, hde, hee]
  unfold sortPairs
  rw [sortByB_of_sorted hdsort, sortByB_of_sorted hesort]

theorem nct_idem : ∀ t ∈ columnTypeVocab, normalizeColumnType (some t) = t := by
  decide

theorem vocab_ne_empty : ∀ t ∈ columnTypeVocab, t ≠ "" := by
  decide

theorem normalizeColumnType_vocab (raw : Option String) :
    normalizeColumnType raw ∈ columnTypeVocab := by
  unfold normalizeColumnType
  exact nct_vocab _

theorem screensUnique_length : ∀ (l : List Screen) (used : List String),
    (screensUnique l used).length = l.length := by
  intro l
  induction l with
  | nil => intro used; rfl
  | cons s rest ih =>
    intro used
    simp only [screensUnique, List.length_cons]
    rw [ih]

theorem commandsUnique_length (tables : List Table) :
    ∀ (l : List CommandW) (used : List String),
    (commandsUnique tables l used).length = l.length := by
  intro l
  induction l with
  | nil => intro used; rfl
  | cons c rest ih =>
    intro used
    simp only [commandsUnique, List.length_cons]
    rw [ih]

theorem tablesUnique_length : ∀ (l : List Table) (used : List String),
    (tablesUnique l used).length = l.length := by
  intro l
  induction l with
  | nil => intro used; rfl
  | cons t rest ih =>
    intro used
    simp only [tablesUnique, List.length_cons]
    rw [ih]

theorem columnsUnique_length : ∀ (l : List Column) (used : List String),
    (columnsUnique l used).length = l.length := by
  intro l
  induction l with
  | nil => intro used; rfl
  | cons c rest ih =>
    intro used
    simp only [columnsUnique, List.length_cons]
    rw [ih]

/-- Every screen of the uniquing loop has a trimmed non-empty name and
deduplicated sorted primary actions. -/
theorem screensUnique_props : ∀ (l : List Screen) (used : List String),
    ∀ s ∈ screensUnique l used, jsTrim s.name = s.name ∧ s.name ≠ "" ∧
      sortStr (dedupFirst s.primary_actions) = s.primary_actions := by
  intro l
  induction l with
  | nil =>
    intro used s hs
    exact absurd hs (List.not_mem_nil s)
  | cons s0 rest ih =>
    intro used s hs
    simp only [screensUnique] at hs
    rcases List.mem_cons.mp hs with rfl | hm
    · obtain ⟨ht, hne⟩ := uniqueName_trimmed s0.name used
      exact ⟨ht, hne, sortStr_dedup_fix s0.primary_actions⟩
    · exact ih _ s hm

/-- Every command of the uniquing loop has a trimmed non-empty name and good
I/O dictionaries, provided the first table has non-blank column names. -/
theorem commandsUnique_props (tables : List Table)
    (htab : ∀ t, tables.head? = some t → ∀ c ∈ t.columns, jsTrim c.name ≠ "") :
    ∀ (l : List CommandW) (used : List String),
    ∀ c ∈ commandsUnique tables l used, jsTrim c.name = c.name ∧ c.name ≠ "" ∧
      GoodDict c.input ∧ GoodDict c.output := by
  intro l
  induction l with
  | nil =>
    intro used c hc
    exact absurd hc (List.not_mem_nil c)
  | cons c0 rest ih =>
    intro used c hc
    simp only [commandsUnique] at hc
    rcases List.mem_cons.mp hc with rfl | hm
    · obtain ⟨ht, hne⟩ := uniqueName_trimmed c0.name used
      obtain ⟨hgi, hgo⟩ := validateCommandIo_inv (uniqueName c0.name used) c0.purpose
        c0.input c0.output tables htab
      exact ⟨ht, hne, hgi, hgo⟩
    · exact ih _ c hm

/-- Every column of the uniquing loop has a trimmed non-empty name and a
vocabulary type. -/
theorem columnsUnique_props : ∀ (l : List Column) (used : List String),
    ∀ c ∈ columnsUnique l used, jsTrim c.name = c.name ∧ c.name ≠ "" ∧
      c.type ∈ columnTypeVocab := by
  intro l
  induction l with
  | nil =>
    intro used c hc
    exact absurd hc (List.not_mem_nil c)
  | cons c0 rest ih =>
    intro used c hc
    simp only [columnsUnique] at hc
    rcases List.mem_cons.mp hc with rfl | hm
    · obtain ⟨ht, hne⟩ := uniqueName_trimmed c0.name used
      exact ⟨ht, hne, normalizeColumnType_vocab (some c0.type)⟩
    · exact ih _ c hm

/-- Properties of every table of the uniquing loop: a trimmed non-empty
name and sorted, deduplicated, well-formed columns, non-empty when the
source columns are. -/
theorem tablesUnique_props : ∀ (l : List Table) (used : List String),
    (∀ t ∈ l, t.columns ≠ []) →
    ∀ t ∈ tablesUnique l used, jsTrim t.name = t.name ∧ t.name ≠ "" ∧
      t.columns ≠ [] ∧ t.columns.Pairwise (fun a b => strLe a.name b.name) ∧
      (t.columns.map Column.name).Nodup ∧
      ∀ c ∈ t.columns, jsTrim c.name = c.name ∧ c.name ≠ "" ∧
        c.type ∈ columnTypeVocab := by
  intro l
  induction l with
  | nil =>
    intro used hcols t ht
    exact absurd ht (List.not_mem_nil t)
  | cons t0 rest ih =>
    intro used hcols t ht
    simp only [tablesUnique] at ht
    rcases List.mem_cons.mp ht with rfl | hm
    · obtain ⟨htr, hne⟩ := uniqueName_trimmed t0.name used
      refine ⟨htr, hne, ?_, ?_, ?_, ?_⟩
      · intro hc
        have hc' : sortByB (fun (a b : Column) => strLe a.name b.name)
            (columnsUnique t0.columns []) = [] := hc
        have hlen := (sortByB_perm (fun (a b : Column) => strLe a.name b.name)
          (columnsUnique t0.columns [])).length_eq
        rw [hc', columnsUnique_length] at hlen
        have h0 := hcols t0 (List.mem_cons_self t0 rest)
        cases hcc : t0.columns with
        | nil => exact h0 hcc
        | cons x xs =>
          rw [hcc] at hlen
          exact Nat.noConfusion hlen
      · exact sortByB_sorted
          (fun a b c h1 h2 => strLe_trans a.name b.name c.name h1 h2)
          (fun a b => strLe_total a.name b.name) _
      · exact (((sortByB_perm (fun (a b : Column) => strLe a.name b.name)
          (columnsUnique t0.columns [])).map Column.name).nodup_iff).mpr
          (columnsUnique_nodup t0.columns []).2
      · intro c hc
        exact columnsUnique_props t0.columns [] c (mem_sortByB.mp hc)
    · exact ih _ (fun t' ht' => hcols t' (List.mem_cons_of_mem t0 ht')) t hm

theorem sortStr_ne_nil {l : List String} (h : l ≠ []) : sortStr l ≠ [] := by
  intro hc
  have hc' : sortByB strLe l = [] := hc
  have hlen := (sortByB_perm strLe l).length_eq
  rw [hc'] at hlen
  cases l with
  | nil => exact h rfl
  | cons x xs => exact Nat.noConfusion hlen

theorem ite_ne_nil {α : Type} {c : Prop} [Decidable c] {a b : List α}
    (ha : a ≠ []) (hb : b ≠ []) : (if c then a else b) ≠ [] := by
  by_cases h : c
  · rw [if_pos h]; exact ha
  · rw [if_neg h]; exact hb

theorem isEmpty_false_ne_nil {α : Type} {l : List α} (h : ¬ l.isEmpty = true) :
    l ≠ [] := by
  intro hc
  rw [hc] at h
  exact h rfl

/-- Shape invariant of the `sortStr (if empty then default else entries)`
pattern used for mvp_plan and acceptance_tests. -/
theorem sortStr_guard_inv (P : String → Prop) (L : List String) (D : String)
    (hD : P D) (hL : ∀ x ∈ L, P x) :
    sortStr (if L.isEmpty then [D] else L) ≠ [] ∧
    (sortStr (if L.isEmpty then [D] else L)).Pairwise (strLe · ·) ∧
    ∀ x ∈ sortStr (if L.isEmpty then [D] else L), P x := by
  refine ⟨?_, sortStr_sorted _, ?_⟩
  · refine sortStr_ne_nil ?_
    by_cases h : L.isEmpty = true
    · rw [if_pos h]
      exact List.cons_ne_nil _ _
    · rw [if_neg h]
      exact isEmpty_false_ne_nil h
  · intro x hx
    have hx' := mem_sortStr.mp hx
    by_cases h : L.isEmpty = true
    · rw [if_pos h] at hx'
      rcases List.mem_singleton.mp hx' with rfl
      exact hD
    · rw [if_neg h] at hx'
      exact hL x hx'

theorem filter_trim_prop (xs : List String) :
    ∀ x ∈ xs.filter (fun x => !(jsTrim x == "")), jsTrim x ≠ "" := by
  intro x hx
  have hcond := (List.mem_filter.mp hx).2
  refine string_ne_of_beq_false ?_
  cases hb : (jsTrim x == "")
  · rfl
  · rw [hb] at hcond
    simp at hcond

theorem filter_ne_prop (xs : List String) :
    ∀ x ∈ xs.filter (fun x => !(x == "")), x ≠ "" := by
  intro x hx
  have hcond := (List.mem_filter.mp hx).2
  refine string_ne_of_beq_false ?_
  cases hb : (x == "")
  · rfl
  · rw [hb] at hcond
    simp at hcond

/-- Every generated milestone task line has a non-blank trim. -/
theorem mvp_out_trim (ms : List Milestone) :
    ∀ x ∈ ms.flatMap (fun m => m.tasks.filterMap (fun t =>
      if jsTrim t = "" then none
      else some ("week " ++ toString m.week ++ ": " ++ jsTrim t))), jsTrim x ≠ "" := by
  intro x hx
  obtain ⟨m, _, hxt⟩ := List.mem_flatMap.mp hx
  obtain ⟨t, _, hft⟩ := List.mem_filterMap.mp hxt
  by_cases htt : jsTrim t = ""
  · rw [if_pos htt] at hft
    exact absurd hft Option.noConfusion
  · rw [if_neg htt] at hft
    rw [← Option.some.inj hft]
    refine jsTrim_ne_of_mem (c := 'w') ?_ (by decide)
    rw [string_data_append, string_data_append, string_data_append]
    exact List.mem_append.mpr (Or.inl (List.mem_append.mpr (Or.inl
      (List.mem_append.mpr (Or.inl (by decide))))))

/-- The normalized MVP plan is non-empty, sorted, and every entry has a
non-blank trim. -/
theorem mvpOf_inv (w : WireDoc) :
    mvpOf w ≠ [] ∧ (mvpOf w).Pairwise (strLe · ·) ∧
    ∀ x ∈ mvpOf w, jsTrim x ≠ "" := by
  unfold mvpOf
  cases hmv : w.mvp_plan with
  | none =>
    exact sortStr_guard_inv (fun x => jsTrim x ≠ "") _ _ (by decide) (mvp_out_trim _)
  | some mv =>
    cases mv with
    | strings xs =>
      exact sortStr_guard_inv (fun x => jsTrim x ≠ "") _ _ (by decide)
        (filter_trim_prop xs)
    | milestones om =>
      exact sortStr_guard_inv (fun x => jsTrim x ≠ "") _ _ (by decide) (mvp_out_trim _)

/-- The normalized acceptance tests are non-empty, sorted, with no empty
entry. -/
theorem testsOf_inv (w : WireDoc) :
    testsOf w ≠ [] ∧ (testsOf w).Pairwise (strLe · ·) ∧
    ∀ x ∈ testsOf w, x ≠ "" := by
  unfold testsOf
  exact sortStr_guard_inv (fun x => x ≠ "") _ _ (by decide) (filter_ne_prop _)

theorem appOf_inv (w : WireDoc) :
    jsTrim (appOf w).name ≠ "" ∧ jsTrim (appOf w).one_liner ≠ "" := by
  unfold appOf
  dsimp only
  exact ⟨asString_trim_ne _ (by decide), asString_trim_ne _ (by decide)⟩

theorem ite_isEmpty_ne_nil {α : Type} {l d : List α} (hd : d ≠ []) :
    (if l.isEmpty then d else l) ≠ [] := by
  by_cases h : l.isEmpty = true
  · rw [if_pos h]
    exact hd
  · rw [if_neg h]
    exact isEmpty_false_ne_nil h

theorem ite_isEmpty_forall {α : Type} {P : α → Prop} {l d : List α}
    (hd : ∀ x ∈ d, P x) (hl : ∀ x ∈ l, P x) :
    ∀ x ∈ (if l.isEmpty then d else l), P x := by
  by_cases h : l.isEmpty = true
  · rw [if_pos h]
    exact hd
  · rw [if_neg h]
    exact hl

theorem sortScreens_unique_ne_nil {L : List Screen} (h : L ≠ []) :
    sortScreens (screensUnique L []) ≠ [] := by
  intro hc
  have hc' : sortByB (fun (a b : Screen) => strLe a.name b.name)
      (screensUnique L []) = [] := hc
  have hlen := (sortByB_perm (fun (a b : Screen) => strLe a.name b.name)
    (screensUnique L [])).length_eq
  rw [hc', screensUnique_length] at hlen
  cases L with
  | nil => exact h rfl
  | cons x xs => exact Nat.noConfusion hlen

theorem sortCommands_unique_ne_nil {tables : List Table} {L : List CommandW}
    (h : L ≠ []) : sortCommands (commandsUnique tables L []) ≠ [] := by
  intro hc
  have hc' : sortByB (fun (a b : Command) => strLe a.name b.name)
      (commandsUnique tables L []) = [] := hc
  have hlen := (sortByB_perm (fun (a b : Command) => strLe a.name b.name)
    (commandsUnique tables L [])).length_eq
  rw [hc', commandsUnique_length] at hlen
  cases L with
  | nil => exact h rfl
  | cons x xs => exact Nat.noConfusion hlen

theorem sortTables_unique_ne_nil {L : List Table} (h : L ≠ []) :
    sortTables (tablesUnique L []) ≠ [] := by
  intro hc
  have hc' : sortByB (fun (a b : Table) => strLe a.name b.name)
      (tablesUnique L []) = [] := hc
  have hlen := (sortByB_perm (fun (a b : Table) => strLe a.name b.name)
    (tablesUnique L [])).length_eq
  rw [hc', tablesUnique_length] at hlen
  cases L with
  | nil => exact h rfl
  | cons x xs => exact Nat.noConfusion hlen

theorem tableOfItem_columns_ne (idx : Nat) (item : String ⊕ WireTable) :
    (tableOfItem idx item).columns ≠ [] := by
  cases item with
  | inl s => exact List.cons_ne_nil _ _
  | inr o =>
    show (if ((o.columns.getD (o.fields.getD [])).map fieldOfWire).filter
        (fun c => !(c.name == "") && !(c.type == "")) |>.isEmpty
      then [(⟨"id", "TEXT"⟩ : Column)]
      else ((o.columns.getD (o.fields.getD [])).map fieldOfWire).filter
        (fun c => !(c.name == "") && !(c.type == ""))) ≠ []
    exact ite_isEmpty_ne_nil (List.cons_ne_nil _ _)

/-- Invariants of the normalized screens: non-empty, name-sorted, distinct
trimmed non-empty names, deduplicated sorted primary actions. -/
theorem normScreens_inv (w : WireDoc) :
    normScreens w ≠ [] ∧
    (normScreens w).Pairwise (fun a b => strLe a.name b.name) ∧
    ((normScreens w).map Screen.name).Nodup ∧
    ∀ s ∈ normScreens w, jsTrim s.name = s.name ∧ s.name ≠ "" ∧
      sortStr (dedupFirst s.primary_actions) = s.primary_actions := by
  refine ⟨sortScreens_unique_ne_nil (ite_isEmpty_ne_nil (List.cons_ne_nil _ _)),
    sortByB_sorted (fun a b c h1 h2 => strLe_trans a.name b.name c.name h1 h2)
      (fun a b => strLe_total a.name b.name) _,
    sorted_screens_nodup _, ?_⟩
  intro s hs
  exact screensUnique_props _ [] s (mem_sortByB.mp hs)

/-- Invariants of the normalized tables: non-empty, name-sorted, distinct
trimmed non-empty names, and per table non-empty sorted columns with
distinct trimmed non-empty names and vocabulary types. -/
theorem normTables_inv (w : WireDoc) :
    normTables w ≠ [] ∧
    (normTables w).Pairwise (fun a b => strLe a.name b.name) ∧
    ((normTables w).map Table.name).Nodup ∧
    ∀ t ∈ normTables w, jsTrim t.name = t.name ∧ t.name ≠ "" ∧
      t.columns ≠ [] ∧ t.columns.Pairwise (fun a b => strLe a.name b.name) ∧
      (t.columns.map Column.name).Nodup ∧
      ∀ c ∈ t.columns, jsTrim c.name = c.name ∧ c.name ≠ "" ∧
        c.type ∈ columnTypeVocab := by
  refine ⟨sortTables_unique_ne_nil (ite_isEmpty_ne_nil (List.cons_ne_nil _ _)),
    sortByB_sorted (fun a b c h1 h2 => strLe_trans a.name b.name c.name h1 h2)
      (fun a b => strLe_total a.name b.name) _,
    sorted_tables_nodup _, ?_⟩
  intro t ht
  refine tablesUnique_props _ [] ?_ t (mem_sortByB.mp ht)
  refine ite_isEmpty_forall ?_ ?_
  · intro t' ht'
    rcases List.mem_singleton.mp ht' with rfl
    exact List.cons_ne_nil _ _
  · intro t' ht'
    obtain ⟨q, _, hq⟩ := List.mem_map.mp (List.mem_filter.mp ht').1
    rw [← hq]
    exact tableOfItem_columns_ne q.1 q.2

/-- Invariants of the normalized commands: non-empty, name-sorted, distinct
trimmed non-empty names, good I/O dictionaries. -/
theorem normCommands_inv (w : WireDoc) :
    sortCommands (commandsUnique (normTables w) (normCommandsRaw w) []) ≠ [] ∧
    (sortCommands (commandsUnique (normTables w)
      (normCommandsRaw w) [])).Pairwise (fun a b => strLe a.name b.name) ∧
    ((sortCommands (commandsUnique (normTables w)
      (normCommandsRaw w) [])).map Command.name).Nodup ∧
    ∀ c ∈ sortCommands (commandsUnique (normTables w) (normCommandsRaw w) []),
      jsTrim c.name = c.name ∧ c.name ≠ "" ∧
      GoodDict c.input ∧ GoodDict c.output := by
  have htab : ∀ t, (normTables w).head? = some t →
      ∀ c ∈ t.columns, jsTrim c.name ≠ "" := by
    intro t hth c hc
    have htm : t ∈ normTables w := by
      cases hnt : normTables w with
      | nil =>
        rw [hnt] at hth
        exact Option.noConfusion hth
      | cons a rest =>
        rw [hnt] at hth
        have ha : a = t := Option.some.inj hth
        rw [← ha]
        exact List.mem_cons_self a rest
    obtain ⟨_, _, _, _, _, hcols⟩ := (normTables_inv w).2.2.2 t htm
    have h := hcols c hc
    rw [h.1]
    exact h.2.1
  refine ⟨sortCommands_unique_ne_nil (ite_isEmpty_ne_nil (List.cons_ne_nil _ _)),
    sortByB_sorted (fun a b c h1 h2 => strLe_trans a.name b.name c.name h1 h2)
      (fun a b => strLe_total a.name b.name) _,
    sorted_commands_nodup _ _, ?_⟩
  intro c hc
  exact commandsUnique_props (normTables w) htab _ [] c (mem_sortByB.mp hc)

/-- The Wire command a normalized command reads back as, before I/O
validation. -/
def cmdWify (c : Command) : CommandW :=
  ⟨c.name, c.purpose, c.async,
   some (.jobj (c.input.map (fun q => (q.1, JVal.jstr q.2)))),
   some (.jobj (c.output.map (fun q => (q.1, JVal.jstr q.2))))⟩

theorem beq_empty_false {a : String} (h : a ≠ "") : (a == "") = false := by
  cases hb : (a == "")
  · rfl
  · exact absurd (eq_of_beq hb) h

theorem screens_roundtrip : ∀ (l : List Screen) (k : Nat),
    (∀ s ∈ l, jsTrim s.name ≠ "" ∧ jsTrim s.purpose ≠ "") →
    (List.enumFrom k (l.map screenToWire)).map (fun p => screenOfItem p.1 p.2) = l := by
  intro l
  induction l with
  | nil => intro k _; rfl
  | cons s rest ih =>
    intro k h
    obtain ⟨h1, h2⟩ := h s (List.mem_cons_self s rest)
    rcases s with ⟨sn, sp, spa⟩
    rw [List.map_cons, List.enumFrom_cons, List.map_cons]
    have hhead : screenOfItem k (screenToWire ⟨sn, sp, spa⟩) = ⟨sn, sp, spa⟩ := by
      show (⟨asString (some sn) ("Screen " ++ Nat.repr (k + 1)),
        asString (some sp) "Main workflow screen",
        (some spa).getD ["Open", "Run"]⟩ : Screen) = ⟨sn, sp, spa⟩
      rw [asString_of_trim _ h1, asString_of_trim _ h2]
      rfl
    rw [hhead, ih (k + 1) (fun s' hs' => h s' (List.mem_cons_of_mem _ hs'))]

theorem cmds_roundtrip : ∀ (cl : List Command) (k : Nat),
    (∀ c ∈ cl, jsTrim c.name ≠ "" ∧ jsTrim c.purpose ≠ "") →
    (List.enumFrom k (cl.map commandToWire)).map (fun p => cmdOfItem p.1 p.2) =
      cl.map cmdWify := by
  intro cl
  induction cl with
  | nil => intro k _; rfl
  | cons c rest ih =>
    intro k h
    obtain ⟨h1, h2⟩ := h c (List.mem_cons_self c rest)
    rw [List.map_cons, List.enumFrom_cons, List.map_cons, List.map_cons]
    have hhead : cmdOfItem k (commandToWire c) = cmdWify c := by
      show (⟨asString (some c.name) ("cmd_" ++ Nat.repr (k + 1)),
        asString (some c.purpose) "Execute core operation",
        (some c.async).getD true,
        some (.jobj (c.input.map (fun q => (q.1, JVal.jstr q.2)))),
        some (.jobj (c.output.map (fun q => (q.1, JVal.jstr q.2))))⟩ : CommandW) =
        cmdWify c
      rw [asString_of_trim _ h1, asString_of_trim _ h2]
      rfl
    rw [hhead, ih (k + 1) (fun c' hc' => h c' (List.mem_cons_of_mem _ hc'))]

theorem cols_map_id (cols : List Column)
    (h : ∀ c ∈ cols, jsTrim c.name ≠ "" ∧ c.type ∈ columnTypeVocab) :
    (cols.map columnToWire).map fieldOfWire = cols := by
  induction cols with
  | nil => rfl
  | cons c rest ih =>
    obtain ⟨h1, h2⟩ := h c (List.mem_cons_self c rest)
    rw [List.map_cons, List.map_cons]
    have hhead : fieldOfWire (columnToWire c) = c := by
      show (⟨asString (some c.name) "field", normalizeColumnType (some c.type)⟩ :
        Column) = c
      rw [asString_of_trim _ h1, nct_idem c.type h2]
    rw [hhead, ih (fun c' hc' => h c' (List.mem_cons_of_mem _ hc'))]

theorem tables_roundtrip : ∀ (tl : List Table) (k : Nat),
    (∀ t ∈ tl, jsTrim t.name ≠ "" ∧ t.columns ≠ [] ∧
      ∀ c ∈ t.columns, jsTrim c.name ≠ "" ∧ c.type ∈ columnTypeVocab) →
    (List.enumFrom k (tl.map tableToWire)).map (fun p => tableOfItem p.1 p.2) = tl := by
  intro tl
  induction tl with
  | nil => intro k _; rfl
  | cons t rest ih =>
    intro k h
    obtain ⟨h1, h2, h3⟩ := h t (List.mem_cons_self t rest)
    rw [List.map_cons, List.enumFrom_cons, List.map_cons]
    have hhead : tableOfItem k (tableToWire t) = t := by
      show (⟨asString (some t.name) ("table_" ++ Nat.repr (k + 1)),
        if (((some (t.columns.map columnToWire)).getD ((none : Option (List WireField)).getD [])).map
            fieldOfWire).filter (fun c => !(c.name == "") && !(c.type == "")) |>.isEmpty
        then [(⟨"id", "TEXT"⟩ : Column)]
        else (((some (t.columns.map columnToWire)).getD ((none : Option (List WireField)).getD [])).map
            fieldOfWire).filter (fun c => !(c.name == "") && !(c.type == ""))⟩ : Table) = t
      have hcols : ((some (t.columns.map columnToWire)).getD
          ((none : Option (List WireField)).getD [])).map fieldOfWire = t.columns := by
        show (t.columns.map columnToWire).map fieldOfWire = t.columns
        exact cols_map_id t.columns h3
      rw [hcols]
      have hfil : t.columns.filter (fun c => !(c.name == "") && !(c.type == "")) =
          t.columns := by
        refine List.filter_eq_self.mpr ?_
        intro c hc
        obtain ⟨hc1, hc2⟩ := h3 c hc
        have hcn : c.name ≠ "" := by
          intro hcn
          exact hc1 (by rw [hcn]; rfl)
        rw [beq_empty_false hcn, beq_empty_false (vocab_ne_empty c.type hc2)]
        rfl
      rw [hfil]
      have hie : t.columns.isEmpty = false := by
        cases hcc : t.columns with
        | nil => exact absurd hcc h2
        | cons x xs => rfl
      rw [hie]
      rw [asString_of_trim _ h1]
      simp only [Bool.false_eq_true, if_false]
    rw [hhead, ih (k + 1) (fun t' ht' => h t' (List.mem_cons_of_mem _ ht'))]

theorem screensUnique_fix : ∀ (l : List Screen) (used : List String),
    (∀ s ∈ l, jsTrim s.name = s.name ∧ s.name ≠ "" ∧ s.name ∉ used ∧
      sortStr (dedupFirst s.primary_actions) = s.primary_actions) →
    (l.map Screen.name).Nodup →
    screensUnique l used = l := by
  intro l
  induction l with
  | nil => intro used _ _; rfl
  | cons s rest ih =>
    intro used h hnd
    simp only [List.map_cons] at hnd
    obtain ⟨ht, hne, hnm, hpa⟩ := h s (List.mem_cons_self s rest)
    have hn : uniqueName s.name used = s.name := uniqueName_eq_self used ht hne hnm
    simp only [screensUnique]
    rw [hn, hpa]
    have hrest : ∀ s' ∈ rest, jsTrim s'.name = s'.name ∧ s'.name ≠ "" ∧
        s'.name ∉ s.name :: used ∧
        sortStr (dedupFirst s'.primary_actions) = s'.primary_actions := by
      intro s' hs'
      obtain ⟨ht', hne', hnm', hpa'⟩ := h s' (List.mem_cons_of_mem _ hs')
      refine ⟨ht', hne', ?_, hpa'⟩
      intro hc
      rcases List.mem_cons.mp hc with heq | hmem
      · exact (List.nodup_cons.mp hnd).1
          (heq ▸ List.mem_map_of_mem Screen.name hs')
      · exact hnm' hmem
    rw [ih (s.name :: used) hrest (List.nodup_cons.mp hnd).2]

theorem columnsUnique_fix : ∀ (l : List Column) (used : List String),
    (∀ c ∈ l, jsTrim c.name = c.name ∧ c.name ≠ "" ∧ c.name ∉ used ∧
      c.type ∈ columnTypeVocab) →
    (l.map Column.name).Nodup →
    columnsUnique l used = l := by
  intro l
  induction l with
  | nil => intro used _ _; rfl
  | cons c rest ih =>
    intro used h hnd
    simp only [List.map_cons] at hnd
    obtain ⟨ht, hne, hnm, hvoc⟩ := h c (List.mem_cons_self c rest)
    have hn : uniqueName c.name used = c.name := uniqueName_eq_self used ht hne hnm
    simp only [columnsUnique]
    rw [hn, nct_idem c.type hvoc]
    have hrest : ∀ c' ∈ rest, jsTrim c'.name = c'.name ∧ c'.name ≠ "" ∧
        c'.name ∉ c.name :: used ∧ c'.type ∈ columnTypeVocab := by
      intro c' hc'
      obtain ⟨ht', hne', hnm', hvoc'⟩ := h c' (List.mem_cons_of_mem _ hc')
      refine ⟨ht', hne', ?_, hvoc'⟩
      intro hcc
      rcases List.mem_cons.mp hcc with heq | hmem
      · exact (List.nodup_cons.mp hnd).1
          (heq ▸ List.mem_map_of_mem Column.name hc')
      · exact hnm' hmem
    rw [ih (c.name :: used) hrest (List.nodup_cons.mp hnd).2]

theorem tablesUnique_fix : ∀ (tl : List Table) (used : List String),
    (∀ t ∈ tl, jsTrim t.name = t.name ∧ t.name ≠ "" ∧ t.name ∉ used ∧
      t.columns.Pairwise (fun a b => strLe a.name b.name) ∧
      (t.columns.map Column.name).Nodup ∧
      ∀ c ∈ t.columns, jsTrim c.name = c.name ∧ c.name ≠ "" ∧
        c.type ∈ columnTypeVocab) →
    (tl.map Table.name).Nodup →
    tablesUnique tl used = tl := by
  intro tl
  induction tl with
  | nil => intro used _ _; rfl
  | cons t rest ih =>
    intro used h hnd
    simp only [List.map_cons] at hnd
    obtain ⟨ht, hne, hnm, hsort, hcnd, hcols⟩ := h t (List.mem_cons_self t rest)
    have hn : uniqueName t.name used = t.name := uniqueName_eq_self used ht hne hnm
    simp only [tablesUnique]
    rw [hn]
    have hcu : columnsUnique t.columns [] = t.columns := by
      refine columnsUnique_fix t.columns [] ?_ hcnd
      intro c hc
      obtain ⟨h1, h2, h3⟩ := hcols c hc
      exact ⟨h1, h2, List.not_mem_nil c.name, h3⟩
    rw [hcu]
    have hsc : sortColumns t.columns = t.columns := sortByB_of_sorted hsort
    rw [show sortColumns (t.columns) = t.columns from hsc]
    have hrest : ∀ t' ∈ rest, jsTrim t'.name = t'.name ∧ t'.name ≠ "" ∧
        t'.name ∉ t.name :: used ∧
        t'.columns.Pairwise (fun a b => strLe a.name b.name) ∧
        (t'.columns.map Column.name).Nodup ∧
        ∀ c ∈ t'.columns, jsTrim c.name = c.name ∧ c.name ≠ "" ∧
          c.type ∈ columnTypeVocab := by
      intro t' ht'
      obtain ⟨h1, h2, h3, h4, h5, h6⟩ := h t' (List.mem_cons_of_mem _ ht')
      refine ⟨h1, h2, ?_, h4, h5, h6⟩
      intro hcc
      rcases List.mem_cons.mp hcc with heq | hmem
      · exact (List.nodup_cons.mp hnd).1
          (heq ▸ List.mem_map_of_mem Table.name ht')
      · exact h3 hmem
    rw [ih (t.name :: used) hrest (List.nodup_cons.mp hnd).2]

theorem commandsUnique_fix : ∀ (cl : List Command) (used : List String)
    (tables : List Table),
    (∀ c ∈ cl, jsTrim c.name = c.name ∧ c.name ≠ "" ∧ c.name ∉ used ∧
      GoodDict c.input ∧ GoodDict c.output) →
    (cl.map Command.name).Nodup →
    commandsUnique tables (cl.map cmdWify) used = cl := by
  intro cl
  induction cl with
  | nil => intro used tables _ _; rfl
  | cons c rest ih =>
    intro used tables h hnd
    simp only [List.map_cons] at hnd
    obtain ⟨ht, hne, hnm, hgi, hgo⟩ := h c (List.mem_cons_self c rest)
    rw [List.map_cons]
    simp only [commandsUnique]
    have hn : uniqueName (cmdWify c).name used = c.name := by
      show uniqueName c.name used = c.name
      exact uniqueName_eq_self used ht hne hnm
    rw [hn]
    have hv : validateCommandIo c.name (cmdWify c).purpose (cmdWify c).input
        (cmdWify c).output tables = (c.input, c.output) := by
      show validateCommandIo c.name c.purpose
        (some (.jobj (c.input.map (fun q => (q.1, JVal.jstr q.2)))))
        (some (.jobj (c.output.map (fun q => (q.1, JVal.jstr q.2))))) tables =
        (c.input, c.output)
      exact validateCommandIo_fixpoint c.name c.purpose tables c.input c.output hgi hgo
    rw [hv]
    have hel : (⟨c.name, (cmdWify c).purpose, (cmdWify c).async,
        (c.input, c.output).1, (c.input, c.output).2⟩ : Command) = c := rfl
    rw [hel]
    have hrest : ∀ c' ∈ rest, jsTrim c'.name = c'.name ∧ c'.name ≠ "" ∧
        c'.name ∉ c.name :: used ∧ GoodDict c'.input ∧ GoodDict c'.output := by
      intro c' hc'
      obtain ⟨h1, h2, h3, h4, h5⟩ := h c' (List.mem_cons_of_mem _ hc')
      refine ⟨h1, h2, ?_, h4, h5⟩
      intro hcc
      rcases List.mem_cons.mp hcc with heq | hmem
      · exact (List.nodup_cons.mp hnd).1
          (heq ▸ List.mem_map_of_mem Command.name hc')
      · exact h3 hmem
    rw [ih (c.name :: used) tables hrest (List.nodup_cons.mp hnd).2]

theorem normScreens_fix (S : List Screen) (hne : S ≠ [])
    (hsorted : S.Pairwise (fun a b => strLe a.name b.name))
    (hnd : (S.map Screen.name).Nodup)
    (hprops : ∀ s ∈ S, jsTrim s.name = s.name ∧ s.name ≠ "" ∧
      sortStr (dedupFirst s.primary_actions) = s.primary_actions)
    (hpurp : ∀ s ∈ S, jsTrim s.purpose ≠ "") :
    ∀ w₂ : WireDoc, w₂.screens = some (S.map screenToWire) →
      normScreens w₂ = S := by
  intro w₂ hw
  unfold normScreens
  rw [hw]
  dsimp only [Option.getD_some, Option.some_bind]
  have h_rt : ((S.map screenToWire).enum).map (fun p => screenOfItem p.1 p.2) = S := by
    show (List.enumFrom 0 (S.map screenToWire)).map (fun p => screenOfItem p.1 p.2) = S
    refine screens_roundtrip S 0 ?_
    intro s hs
    obtain ⟨h1, h2, _⟩ := hprops s hs
    exact ⟨by rw [h1]; exact h2, hpurp s hs⟩
  rw [h_rt]
  have hfil : S.filter (fun s => !(s.name == "")) = S := by
    refine List.filter_eq_self.mpr ?_
    intro s hs
    rw [beq_empty_false (hprops s hs).2.1]
    rfl
  rw [hfil]
  have hie : S.isEmpty = false := by
    cases S with
    | nil => exact absurd rfl hne
    | cons x xs => rfl
  rw [hie]
  simp only [Bool.false_eq_true, if_false]
  rw [screensUnique_fix S [] (fun s hs =>
    ⟨(hprops s hs).1, (hprops s hs).2.1, List.not_mem_nil s.name, (hprops s hs).2.2⟩) hnd]
  exact sortByB_of_sorted hsorted

theorem normTables_fix (T : List Table) (hne : T ≠ [])
    (hsorted : T.Pairwise (fun a b => strLe a.name b.name))
    (hnd : (T.map Table.name).Nodup)
    (hprops : ∀ t ∈ T, jsTrim t.name = t.name ∧ t.name ≠ "" ∧
      t.columns ≠ [] ∧ t.columns.Pairwise (fun a b => strLe a.name b.name) ∧
      (t.columns.map Column.name).Nodup ∧
      ∀ c ∈ t.columns, jsTrim c.name = c.name ∧ c.name ≠ "" ∧
        c.type ∈ columnTypeVocab) :
    ∀ w₂ : WireDoc, w₂.data_model = some ⟨some (T.map tableToWire)⟩ →
      normTables w₂ = T := by
  intro w₂ hw
  unfold normTables
  rw [hw]
  dsimp only [Option.getD_some, Option.some_bind]
  have h_rt : ((T.map tableToWire).enum).map (fun p => tableOfItem p.1 p.2) = T := by
    show (List.enumFrom 0 (T.map tableToWire)).map (fun p => tableOfItem p.1 p.2) = T
    refine tables_roundtrip T 0 ?_
    intro t ht
    obtain ⟨h1, h2, h3, _, _, h6⟩ := hprops t ht
    refine ⟨by rw [h1]; exact h2, h3, ?_⟩
    intro c hc
    obtain ⟨hc1, hc2, hc3⟩ := h6 c hc
    exact ⟨by rw [hc1]; exact hc2, hc3⟩
  rw [h_rt]
  have hfil : T.filter (fun t => !(t.name == "")) = T := by
    refine List.filter_eq_self.mpr ?_
    intro t ht
    rw [beq_empty_false (hprops t ht).2.1]
    rfl
  rw [hfil]
  have hie : T.isEmpty = false := by
    cases T with
    | nil => exact absurd rfl hne
    | cons x xs => rfl
  rw [hie]
  simp only [Bool.false_eq_true, if_false]
  rw [tablesUnique_fix T [] (fun t ht =>
    ⟨(hprops t ht).1, (hprops t ht).2.1, List.not_mem_nil t.name,
     (hprops t ht).2.2.2.1, (hprops t ht).2.2.2.2.1,
     (hprops t ht).2.2.2.2.2⟩) hnd]
  exact sortByB_of_sorted hsorted

theorem normCommandsRaw_fix (C : List Command) (hne : C ≠ [])
    (hnames : ∀ c ∈ C, jsTrim c.name = c.name ∧ c.name ≠ "")
    (hpurp : ∀ c ∈ C, jsTrim c.purpose ≠ "") :
    ∀ w₂ : WireDoc, w₂.rust_commands = some (C.map commandToWire) →
      normCommandsRaw w₂ = C.map cmdWify := by
  intro w₂ hw
  unfold normCommandsRaw
  rw [hw]
  dsimp only [Option.getD_some, Option.some_bind]
  have h_rt : ((C.map commandToWire).enum).map (fun p => cmdOfItem p.1 p.2) =
      C.map cmdWify := by
    show (List.enumFrom 0 (C.map commandToWire)).map (fun p => cmdOfItem p.1 p.2) =
      C.map cmdWify
    refine cmds_roundtrip C 0 ?_
    intro c hc
    exact ⟨by rw [(hnames c hc).1]; exact (hnames c hc).2, hpurp c hc⟩
  rw [h_rt]
  have hfil : (C.map cmdWify).filter (fun c => !(c.name == "")) = C.map cmdWify := by
    refine List.filter_eq_self.mpr ?_
    intro cw hcw
    obtain ⟨c, hc, hcc⟩ := List.mem_map.mp hcw
    have : cw.name = c.name := by rw [← hcc]; rfl
    rw [this, beq_empty_false (hnames c hc).2]
    rfl
  rw [hfil]
  have hie : (C.map cmdWify).isEmpty = false := by
    cases C with
    | nil => exact absurd rfl hne
    | cons x xs => rfl
  rw [hie]
  simp only [Bool.false_eq_true, if_false]

theorem tests_map_id (A : List String) :
    (A.map Sum.inl).map (fun item : String ⊕ Option String =>
      match item with
      | .inl s => s
      | .inr t => asString t "") = A := by
  induction A with
  | nil => rfl
  | cons x rest ih =>
    rw [List.map_cons, List.map_cons, ih]

theorem mvpOf_fix (M : List String) (hne : M ≠ [])
    (hsorted : M.Pairwise (strLe · ·)) (htrim : ∀ x ∈ M, jsTrim x ≠ "") :
    ∀ w₂ : WireDoc, w₂.mvp_plan = some (.strings M) → mvpOf w₂ = M := by
  intro w₂ hw
  unfold mvpOf
  rw [hw]
  dsimp only [Option.getD_some, Option.some_bind]
  have hfil : M.filter (fun x => !(jsTrim x == "")) = M := by
    refine List.filter_eq_self.mpr ?_
    intro x hx
    rw [beq_empty_false (htrim x hx)]
    rfl
  rw [hfil]
  have hie : M.isEmpty = false := by
    cases M with
    | nil => exact absurd rfl hne
    | cons x xs => rfl
  rw [hie]
  simp only [Bool.false_eq_true, if_false]
  exact sortStr_of_sorted hsorted

theorem testsOf_fix (A : List String) (hne : A ≠ [])
    (hsorted : A.Pairwise (strLe · ·)) (hprops : ∀ x ∈ A, x ≠ "") :
    ∀ w₂ : WireDoc, w₂.acceptance_tests = some (A.map Sum.inl) →
      testsOf w₂ = A := by
  intro w₂ hw
  unfold testsOf
  rw [hw]
  dsimp only [Option.getD_some, Option.some_bind]
  rw [tests_map_id]
  have hfil : A.filter (fun x => !(x == "")) = A := by
    refine List.filter_eq_self.mpr ?_
    intro x hx
    rw [beq_empty_false (hprops x hx)]
    rfl
  rw [hfil]
  have hie : A.isEmpty = false := by
    cases A with
    | nil => exact absurd rfl hne
    | cons x xs => rfl
  rw [hie]
  simp only [Bool.false_eq_true, if_false]
  exact sortStr_of_sorted hsorted

theorem appOf_fix (a : App) (h1 : jsTrim a.name ≠ "") (h2 : jsTrim a.one_liner ≠ "") :
    ∀ w₂ : WireDoc, w₂.app = some ⟨some a.name, some a.one_liner, none⟩ →
      appOf w₂ = a := by
  intro w₂ hw
  unfold appOf
  rw [hw]
  dsimp only [Option.getD_some, Option.some_bind]
  rw [show (some a.one_liner).or none = some a.one_liner from rfl]
  rw [asString_of_trim _ h1, asString_of_trim _ h2]

/-- C9, counterexample. A Wire Document with one screen named by the bare
string " " normalizes to a screen whose purpose is the raw wire string " ";
feeding the document back re-normalizes that blank purpose to the default
"Main workflow screen", so normalization is not idempotent as claimed. -/
theorem normalize_idempotence_counterexample :
    normalizeWireToCanonical (canonicalToWire (normalizeWireToCanonical
      (⟨none, some [Sum.inl " "], none, none, none, none⟩ : WireDoc))) ≠
    normalizeWireToCanonical
      (⟨none, some [Sum.inl " "], none, none, none, none⟩ : WireDoc) := by
  decide

/-- C9, amended. Normalization is idempotent on documents whose screen and
command purposes do not trim to the empty string: re-normalizing the wire
image of such a normalized document reproduces it exactly — names, screens,
commands, tables, mvp_plan, acceptance_tests and command I/O dictionaries
unchanged. Blank purposes are the one exception: the second round replaces
them with the default purpose text. -/
theorem normalize_idempotent_amended (w : WireDoc)
    (hsp : ∀ s ∈ (normalizeWireToCanonical w).screens, jsTrim s.purpose ≠ "")
    (hcp : ∀ c ∈ (normalizeWireToCanonical w).rust_commands, jsTrim c.purpose ≠ "") :
    normalizeWireToCanonical (canonicalToWire (normalizeWireToCanonical w)) =
      normalizeWireToCanonical w := by
  obtain ⟨hs_ne, hs_sorted, hs_nd, hs_props⟩ := normScreens_inv w
  obtain ⟨hc_ne, hc_sorted, hc_nd, hc_props⟩ := normCommands_inv w
  obtain ⟨ht_ne, ht_sorted, ht_nd, ht_props⟩ := normTables_inv w
  obtain ⟨hm_ne, hm_sorted, hm_trim⟩ := mvpOf_inv w
  obtain ⟨ha_ne, ha_sorted, ha_props⟩ := testsOf_inv w
  obtain ⟨hA1, hA2⟩ := appOf_inv w
  have happ : appOf (canonicalToWire (normalizeWireToCanonical w)) = appOf w :=
    appOf_fix (appOf w) hA1 hA2 _ rfl
  have hscr : normScreens (canonicalToWire (normalizeWireToCanonical w)) =
      normScreens w :=
    normScreens_fix (normScreens w) hs_ne hs_sorted hs_nd hs_props hsp _ rfl
  have htab : normTables (canonicalToWire (normalizeWireToCanonical w)) =
      normTables w :=
    normTables_fix (normTables w) ht_ne ht_sorted ht_nd ht_props _ rfl
  have hraw : normCommandsRaw (canonicalToWire (normalizeWireToCanonical w)) =
      (sortCommands (commandsUnique (normTables w) (normCommandsRaw w) [])).map
        cmdWify :=
    normCommandsRaw_fix (sortCommands (commandsUnique (normTables w)
        (normCommandsRaw w) [])) hc_ne
      (fun c hc => ⟨(hc_props c hc).1, (hc_props c hc).2.1⟩) hcp _ rfl
  have hcmd : sortCommands (commandsUnique
      (normTables (canonicalToWire (normalizeWireToCanonical w)))
      (normCommandsRaw (canonicalToWire (normalizeWireToCanonical w))) []) =
      sortCommands (commandsUnique (normTables w) (normCommandsRaw w) []) := by
    rw [htab, hraw]
    rw [commandsUnique_fix (sortCommands (commandsUnique (normTables w)
        (normCommandsRaw w) [])) [] (normTables w)
      (fun c hc => ⟨(hc_props c hc).1, (hc_props c hc).2.1,
        List.not_mem_nil c.name, (hc_props c hc).2.2.1, (hc_props c hc).2.2.2⟩)
      hc_nd]
    exact sortByB_of_sorted hc_sorted
  have hmvp : mvpOf (canonicalToWire (normalizeWireToCanonical w)) = mvpOf w :=
    mvpOf_fix (mvpOf w) hm_ne hm_sorted hm_trim _ rfl
  have htst : testsOf (canonicalToWire (normalizeWireToCanonical w)) = testsOf w :=
    testsOf_fix (testsOf w) ha_ne ha_sorted ha_props _ rfl
  have hdef : ∀ x : WireDoc, normalizeWireToCanonical x =
      ⟨3, appOf x, normScreens x,
       sortCommands (commandsUnique (normTables x) (normCommandsRaw x) []),
       ⟨normTables x⟩, mvpOf x, testsOf x⟩ := fun x => rfl
  rw [hdef (canonicalToWire (normalizeWireToCanonical w))]
  rw [happ, hscr, hcmd, htab, hmvp, htst]
  exact (hdef w).symm

/-- C9 amended, witness: the empty Wire Document normalizes to a fixpoint. -/
theorem normalize_idempotent_amended_witness :
    normalizeWireToCanonical (canonicalToWire (normalizeWireToCanonical
      (⟨none, none, none, none, none, none⟩ : WireDoc))) =
    normalizeWireToCanonical (⟨none, none, none, none, none, none⟩ : WireDoc) :=
  normalize_idempotent_amended ⟨none, none, none, none, none, none⟩
    (by decide) (by decide)

end TopicMiner
